import Mathlib

/-!
# Verification of the stark painting-engine core

This file gives a shallow embedding, over exact rational arithmetic, of the
core algorithms of the stark interactive painting surface:

* the conservative triangle rasterizer (`src/engine/raster.rs`),
* the GPU tile pool's index allocator and free list (`src/engine/tile.rs`),
* the piecewise-linear function algebra (`src/util/piecewise_linear.rs`),
* the airbrush stroke-geometry generator's state machine and ribbon
  construction (`src/engine/airbrush.rs`).

`f32` values are idealized as `ℚ` (no rounding); `i32`/`u32` quantities are
idealized as `ℤ`/`ℕ` (the code never reaches the wrapping range in the
scenarios considered, and where the source guards a shift against overflow the
guard is modelled literally).  GPU resources (textures, buffers, bind groups)
carry no algorithmic content and are dropped from the state; only the data
governing control flow and the produced geometry is retained.
-/

unseal Rat.add Rat.mul Rat.sub Rat.inv

namespace Stark

/-! ## Rasterizer: `src/engine/raster.rs`

2D points are pairs `(x, y) : ℚ × ℚ`.  Grid cells are pairs `(i, j) : ℤ × ℤ`.
-/

namespace Raster

/-- `floor_as_i32` from raster.rs: `x.floor() as i32` (idealized to `ℤ`,
ignoring `i32` saturation which is unreachable for the inputs considered). -/
def floor_as_i32 (x : ℚ) : ℤ := ⌊x⌋

/-- Inclusive integer range `lo..=hi` as a list (empty when `hi < lo`). -/
def rangeII (lo hi : ℤ) : List ℤ := (List.range (hi + 1 - lo).toNat).map (fun k => lo + k)

/-- `max_line_along_x` from raster.rs.  For a segment `p0 → p1` with
`p0.x ≤ p1.x`, yields one entry per integer column `⌊p0.x⌋..=⌊p1.x⌋`: a
conservative upper bound on `⌊y⌋` over the part of the segment in that column.
When `d.x = 0` the division yields junk (`0` here, a non-finite float in the
source) but the middle range below is then empty, so slope and intercept are
unused and the two models agree. -/
def max_line_along_x (p0 p1 : ℚ × ℚ) : List ℤ :=
  let d : ℚ × ℚ := (p1.1 - p0.1, p1.2 - p0.2)
  let slope := d.2 / d.1
  let intercept := p0.2 - slope * p0.1
  let xi0 := floor_as_i32 p0.1
  let xi1 := floor_as_i32 p1.1
  (if 0 ≤ d.2 then [] else [floor_as_i32 p0.2]) ++
    (rangeII (xi0 + 1) xi1).map (fun xi => floor_as_i32 (intercept + slope * (xi : ℚ))) ++
    (if 0 ≤ d.2 then [floor_as_i32 p1.2] else [])

/-- `min_line_along_x` from raster.rs: mirror `y` and complement the floor. -/
def min_line_along_x (p0 p1 : ℚ × ℚ) : List ℤ :=
  (max_line_along_x (p0.1, -p0.2) (p1.1, -p1.2)).map (fun yi => -(yi + 1))

/-- `conservative_wedge` from raster.rs: columns starting at `⌊a.x⌋` zipped
with the per-column min (along edge `a–c`) and max (along edge `a–b`); the zip
truncates at the shorter list (the `a–b` one, as `b.x ≤ c.x`). -/
def conservative_wedge (a b c : ℚ × ℚ) : List (ℤ × ℤ) :=
  let mins := min_line_along_x a c
  let maxs := max_line_along_x a b
  ((mins.zip maxs).enum).flatMap (fun e =>
    (rangeII e.2.1 e.2.2).map (fun y => (floor_as_i32 a.1 + (e.1 : ℤ), y)))

/-- `conservative_clockwise_triangle` from raster.rs: the union of the left
wedge and the x-mirrored right wedge. -/
def conservative_clockwise_triangle (a b c : ℚ × ℚ) : List (ℤ × ℤ) :=
  conservative_wedge a b c ++
    (conservative_wedge (-c.1, c.2) (-b.1, b.2) (-a.1, a.2)).map
      (fun p => (-(p.1 + 1), p.2))

/-- Helper for adjacent-duplicate coalescing: `p` is the pending cell. -/
def coalesceFrom (p : ℤ × ℤ) : List (ℤ × ℤ) → List (ℤ × ℤ)
  | [] => [p]
  | q :: rest => if p = q then coalesceFrom p rest else p :: coalesceFrom q rest

/-- Adjacent-duplicate coalescing, as `itertools::coalesce` is used in
raster.rs (keep the first of each run of equal adjacent cells). -/
def coalesceDup : List (ℤ × ℤ) → List (ℤ × ℤ)
  | [] => []
  | p :: rest => coalesceFrom p rest

/-- `conservative_triangle` from raster.rs: sort the vertices by `x`
(stably, as Rust's `sort_by` with `total_cmp`), choose the mirrored form by
the sign of the signed area, then sort the cells lexicographically and
coalesce duplicates. -/
def conservative_triangle (a b c : ℚ × ℚ) : List (ℤ × ℤ) :=
  match List.insertionSort (fun p q : ℚ × ℚ => p.1 ≤ q.1) [a, b, c] with
  | [a, b, c] =>
    let det := (c.1 - a.1) * (b.2 - a.2) - (c.2 - a.2) * (b.1 - a.1)
    let result :=
      if 0 ≤ det then conservative_clockwise_triangle a b c
      else
        (conservative_clockwise_triangle (a.1, -a.2) (b.1, -b.2) (c.1, -c.2)).map
          (fun p => (p.1, -(p.2 + 1)))
    coalesceDup
      (List.insertionSort (fun p q : ℤ × ℤ => p.1 < q.1 ∨ (p.1 = q.1 ∧ p.2 ≤ q.2)) result)
  | _ => []

/-- Membership of a point in the (closed) triangle with vertices `a b c`:
a convex combination of the three vertices. -/
def memTriangle (a b c q : ℚ × ℚ) : Prop :=
  ∃ t u v : ℚ, 0 ≤ t ∧ 0 ≤ u ∧ 0 ≤ v ∧ t + u + v = 1 ∧
    q.1 = t * a.1 + u * b.1 + v * c.1 ∧ q.2 = t * a.2 + u * b.2 + v * c.2

/-- Strict interior of the unit grid cell `(i, j)`. -/
def memOpenCell (i j : ℤ) (q : ℚ × ℚ) : Prop :=
  (i : ℚ) < q.1 ∧ q.1 < (i : ℚ) + 1 ∧ (j : ℚ) < q.2 ∧ q.2 < (j : ℚ) + 1

end Raster

/-! ## Tile pool: `src/engine/tile.rs`

The pool hands out `(block_index, layer_index)` pairs.  The GPU resources
attached to a block (texture array, metadata buffer, bind group) carry no
allocation logic, so a block is modelled by its layer capacity alone.
-/

namespace Tile

/-- `Index` from tile.rs: one array-texture layer inside one block. -/
structure Index where
  block_index : ℕ
  layer_index : ℕ
deriving DecidableEq, Repr

/-- Allocator state: the per-block layer capacities and the free list.  The
free list models the `Vec` in tile.rs with its top (the `Vec`'s end, where
`push` and `pop` operate) at the head of the list. -/
structure PoolState where
  blocks : List ℕ
  free_list : List Index
deriving DecidableEq, Repr

/-- `FreeList::release` (also `Drop for Tile`): push the index onto the
free list. -/
def release (s : PoolState) (i : Index) : PoolState :=
  { s with free_list := i :: s.free_list }

/-- `PoolInternal::allocate_index`, for a device limit `maxLayers`
(`device.limits().max_texture_array_layers`): pop the free list if non-empty;
otherwise create a new block of capacity
`min (2 ^ min block_index 31) maxLayers` — the source computes
`1 << (block_index as u32).min(u32::BITS - 1)` to keep the `u32` shift in
range — push layers `1, 2, …, capacity-1` onto the free list in that order
(so the highest layer ends on top), and return layer 0 of the new block.
The source's `assert!(block_size > 0)` can only fail when `maxLayers = 0`. -/
def allocate_index (maxLayers : ℕ) (s : PoolState) : Index × PoolState :=
  match s.free_list with
  | i :: rest => (i, { s with free_list := rest })
  | [] =>
    let block_index := s.blocks.length
    let block_size := min (2 ^ min block_index 31) maxLayers
    (⟨block_index, 0⟩,
      { blocks := s.blocks ++ [block_size],
        free_list :=
          ((List.range (block_size - 1)).map (fun k => Index.mk block_index (k + 1))).reverse })

end Tile

/-! ## Piecewise-linear functions: `src/util/piecewise_linear.rs`

Value types `Y` are `ℚ`-vector spaces (the `Interpolable` bound of the
source: addition, subtraction and scaling by the scalar).  A breakpoint
`Point` is a pair `(x, y) : ℚ × Y`.  `f32` infinities stored in piece
domains are modelled by `⊥ : WithBot ℚ` and `⊤ : WithTop ℚ`.
-/

namespace PW

variable {Y Z W V : Type}

/-- `Linear` from piecewise_linear.rs: the affine map `x ↦ slope • x + intercept`. -/
structure Linear (Y : Type) where
  slope : Y
  intercept : Y

/-- `Linear::constant`. -/
def Linear.constant [AddCommGroup Y] [Module ℚ Y] (y : Y) : Linear Y := ⟨0, y⟩

/-- `Linear::fit`: the affine function through `(x0, y0)` and `(x1, y1)`
(slope `0` when `x1 - x0 ≤ 0`, and the intercept is computed symmetrically
from the midpoint, exactly as in the source). -/
def Linear.fit [AddCommGroup Y] [Module ℚ Y] (x0 : ℚ) (y0 : Y) (x1 : ℚ) (y1 : Y) : Linear Y :=
  let diff := x1 - x0
  let slope : Y := if 0 < diff then (1 / diff) • (y1 - y0) else 0
  { slope := slope, intercept := (1 / 2 : ℚ) • ((y0 + y1) - (x0 + x1) • slope) }

/-- `Linear::evaluate` (no clamping). -/
def Linear.evaluate [AddCommGroup Y] [Module ℚ Y] (l : Linear Y) (x : ℚ) : Y :=
  x • l.slope + l.intercept

/-- `LinearPiece` from piecewise_linear.rs: a domain (with `⊥`/`⊤` standing
for the `f32` infinities stored by the source) and the affine extension. -/
structure LinearPiece (Y : Type) where
  lo : WithBot ℚ
  hi : WithTop ℚ
  extension : Linear Y

/-- `LinearPiece::new`: interior pieces are fitted chords; the two end pieces
are constant extensions; `None` when both neighbours are absent. -/
def LinearPiece.new [AddCommGroup Y] [Module ℚ Y] (prev next : Option (ℚ × Y)) :
    Option (LinearPiece Y) :=
  match prev, next with
  | some p, some n => some ⟨(p.1 : ℚ), (n.1 : ℚ), Linear.fit p.1 p.2 n.1 n.2⟩
  | some p, none => some ⟨(p.1 : ℚ), ⊤, Linear.constant p.2⟩
  | none, some n => some ⟨⊥, (n.1 : ℚ), Linear.constant n.2⟩
  | none, none => none

/-- `PiecewiseLinear`: the (sorted) breakpoint list. -/
structure PiecewiseLinear (Y : Type) where
  points : List (ℚ × Y)

/-- The piece-iterator state (`Iter` from piecewise_linear.rs): the retained
previous point and the remaining, fused point list. -/
def iterNext [AddCommGroup Y] [Module ℚ Y] (st : Option (ℚ × Y) × List (ℚ × Y)) :
    Option (LinearPiece Y) × (Option (ℚ × Y) × List (ℚ × Y)) :=
  let next := st.2.head?
  (LinearPiece.new st.1 next, (next, st.2.tail))

/-- Termination measure for the piece iterator. -/
def iterMeasure (st : Option (ℚ × Y) × List (ℚ × Y)) : ℕ :=
  2 * st.2.length + (if st.1.isSome then 1 else 0)

theorem iterNext_measure [AddCommGroup Y] [Module ℚ Y]
    (st : Option (ℚ × Y) × List (ℚ × Y)) (pc : LinearPiece Y)
    (st' : Option (ℚ × Y) × List (ℚ × Y)) (h : iterNext st = (some pc, st')) :
    iterMeasure st' < iterMeasure st := by
  obtain ⟨prev, pts⟩ := st
  cases pts with
  | nil =>
    cases prev with
    | none => simp [iterNext, LinearPiece.new] at h
    | some p =>
      simp only [iterNext, List.head?_nil, List.tail_nil, Prod.mk.injEq] at h
      cases h.2
      simp [iterMeasure]
  | cons q rest =>
    simp only [iterNext, List.head?_cons, List.tail_cons, Prod.mk.injEq] at h
    cases h.2
    cases prev <;> simp [iterMeasure] <;> omega

/-- The merge loop of `zip_flat_piece_map`: keep the current piece of each
input; advance whichever ends first (both on a tie), emitting `f` on the new
overlap; stop when an iterator is exhausted. -/
def zipWalk [AddCommGroup Y] [Module ℚ Y] [AddCommGroup Z] [Module ℚ Z]
    (f : WithBot ℚ → WithTop ℚ → Linear Y → Linear Z → List V) :
    Option (LinearPiece Y) → (Option (ℚ × Y) × List (ℚ × Y)) →
    Option (LinearPiece Z) → (Option (ℚ × Z) × List (ℚ × Z)) → List V
  | none, _, _, _ => []
  | some _, _, none, _ => []
  | some py, sty, some pz, stz =>
    if pz.hi < py.hi then
      match h : iterNext stz with
      | (none, _) => []
      | (some pz', stz') =>
        f pz'.lo (min pz'.hi py.hi) py.extension pz'.extension ++
          zipWalk f (some py) sty (some pz') stz'
    else if py.hi < pz.hi then
      match h : iterNext sty with
      | (none, _) => []
      | (some py', sty') =>
        f py'.lo (min py'.hi pz.hi) py'.extension pz.extension ++
          zipWalk f (some py') sty' (some pz) stz
    else
      match hy : iterNext sty, hz : iterNext stz with
      | (some py', sty'), (some pz', stz') =>
        f (max py'.lo pz'.lo) (min py'.hi pz'.hi) py'.extension pz'.extension ++
          zipWalk f (some py') sty' (some pz') stz'
      | (none, _), _ => []
      | (some _, _), (none, _) => []
termination_by _ sty _ stz => iterMeasure sty + iterMeasure stz
decreasing_by
  · have := iterNext_measure stz pz' stz' h
    omega
  · have := iterNext_measure sty py' sty' h
    omega
  · have h1 := iterNext_measure sty py' sty' hy
    have h2 := iterNext_measure stz pz' stz' hz
    omega

namespace PiecewiseLinear

/-- `PiecewiseLinear::zip_flat_piece_map`: initialize both piece iterators
and run the merge loop. -/
def zip_flat_piece_map [AddCommGroup Y] [Module ℚ Y] [AddCommGroup Z] [Module ℚ Z]
    (a : PiecewiseLinear Y) (b : PiecewiseLinear Z)
    (f : WithBot ℚ → WithTop ℚ → Linear Y → Linear Z → List V) : List V :=
  let y := iterNext (none, a.points)
  let z := iterNext (none, b.points)
  zipWalk f y.1 y.2 z.1 z.2

/-- `PiecewiseLinear::zip_flat_piece_linear_map`: same walk, building a new
function from the emitted points. -/
def zip_flat_piece_linear_map [AddCommGroup Y] [Module ℚ Y] [AddCommGroup Z] [Module ℚ Z]
    (a : PiecewiseLinear Y) (b : PiecewiseLinear Z)
    (f : WithBot ℚ → WithTop ℚ → Linear Y → Linear Z → List (ℚ × W)) : PiecewiseLinear W :=
  ⟨a.zip_flat_piece_map b f⟩

/-- `PiecewiseLinear::new`: sort by `x` (stably, as Rust's `sort` on the
`Point` ordering) and fail exactly on empty input. -/
def new [AddCommGroup Y] [Module ℚ Y] (pts : List (ℚ × Y)) : Option (PiecewiseLinear Y) :=
  let points := List.insertionSort (fun p q : ℚ × Y => p.1 ≤ q.1) pts
  if points.length = 0 then none else some ⟨points⟩

/-- `PiecewiseLinear::piece_at`: `partition_point(|p| !(x < p.x))` is, on the
sorted breakpoint list, the length of the prefix of points with `p.x ≤ x`;
the piece is spanned by the neighbours of that partition index.  (The source
unwraps; `none` happens only for an empty point list.) -/
def piece_at [AddCommGroup Y] [Module ℚ Y] (a : PiecewiseLinear Y) (x : ℚ) :
    Option (LinearPiece Y) :=
  let next_index := (a.points.takeWhile (fun p => !decide (x < p.1))).length
  let prev := if next_index = 0 then none else a.points.get? (next_index - 1)
  let next := a.points.get? next_index
  LinearPiece.new prev next

/-- `PiecewiseLinear::evaluate`: the unclamped extension of the piece at `x`
(`0` in the unreachable empty case, where the source panics). -/
def evaluate [AddCommGroup Y] [Module ℚ Y] (a : PiecewiseLinear Y) (x : ℚ) : Y :=
  match a.piece_at x with
  | some piece => piece.extension.evaluate x
  | none => 0

/-- `PiecewiseLinear::linear_map`. -/
def linear_map [AddCommGroup Y] [Module ℚ Y] [AddCommGroup Z] [Module ℚ Z]
    (a : PiecewiseLinear Y) (f : Y → Z) : PiecewiseLinear Z :=
  ⟨a.points.map (fun p => (p.1, f p.2))⟩

/-- `PiecewiseLinear::bilinear_map`: merge and combine the two extensions'
values at each emitted domain start.  (An emitted domain start is never `⊥`,
see `zipWalk`; the `unbot'` junk value is unreachable.) -/
def bilinear_map [AddCommGroup Y] [Module ℚ Y] [AddCommGroup Z] [Module ℚ Z]
    [AddCommGroup W] [Module ℚ W]
    (a : PiecewiseLinear Y) (b : PiecewiseLinear Z) (f : Y → Z → W) : PiecewiseLinear W :=
  a.zip_flat_piece_linear_map b (fun lo _hi ly lz =>
    let x := lo.unbot' 0
    [(x, f (ly.evaluate x) (lz.evaluate x))])

/-- `PiecewiseLinear::map_merged_inflection_points`: same walk as
`bilinear_map` but emitting one arbitrary record per merged interval. -/
def map_merged_inflection_points [AddCommGroup Y] [Module ℚ Y] [AddCommGroup Z] [Module ℚ Z]
    (a : PiecewiseLinear Y) (b : PiecewiseLinear Z) (f : ℚ → Y → Z → V) : List V :=
  a.zip_flat_piece_map b (fun lo _hi ly lz =>
    let x := lo.unbot' 0
    [f x (ly.evaluate x) (lz.evaluate x)])

/-- `PiecewiseLinear::pointwise_max` (scalar specialization): emit the max at
each merged domain start, plus a breakpoint at the crossing of the two affine
extensions whenever it falls strictly inside the merged interval.  In the
source the crossing abscissa is `intercept_difference / slope_diff` in `f32`:
when `slope_diff = 0` that value is non-finite (`±∞` or NaN) and never
satisfies `domain.start < x < domain.end`; with exact rational division this
is modelled by the explicit `slope_diff ≠ 0` guard. -/
def pointwise_max (a b : PiecewiseLinear ℚ) : PiecewiseLinear ℚ :=
  a.zip_flat_piece_linear_map b (fun lo hi ly lz =>
    let x := lo.unbot' 0
    let y := ly.evaluate x
    let z := lz.evaluate x
    let slope_diff := ly.slope - lz.slope
    let intercept_difference := lz.intercept - ly.intercept
    let xc := intercept_difference / slope_diff
    let intersection_point : List (ℚ × ℚ) :=
      if slope_diff ≠ 0 ∧ lo < (xc : WithBot ℚ) ∧ ((xc : ℚ) : WithTop ℚ) < hi then
        [(xc, max (ly.evaluate xc) (lz.evaluate xc))]
      else []
    (x, max y z) :: intersection_point)

/-- `PiecewiseLinear::pointwise_min`, symmetrically. -/
def pointwise_min (a b : PiecewiseLinear ℚ) : PiecewiseLinear ℚ :=
  a.zip_flat_piece_linear_map b (fun lo hi ly lz =>
    let x := lo.unbot' 0
    let y := ly.evaluate x
    let z := lz.evaluate x
    let slope_diff := ly.slope - lz.slope
    let intercept_difference := lz.intercept - ly.intercept
    let xc := intercept_difference / slope_diff
    let intersection_point : List (ℚ × ℚ) :=
      if slope_diff ≠ 0 ∧ lo < (xc : WithBot ℚ) ∧ ((xc : ℚ) : WithTop ℚ) < hi then
        [(xc, min (ly.evaluate xc) (lz.evaluate xc))]
      else []
    (x, min y z) :: intersection_point)

/-- Modelled from the spec: `first_inflection_point` is called on the blend
function in airbrush.rs but is not present under `src/`; per the spec the
texture ramps are anchored at the stroke caps, so it returns the function's
first breakpoint `(x, y)`. -/
def first_inflection_point (a : PiecewiseLinear ℚ) : ℚ × ℚ := a.points.head?.getD (0, 0)

/-- Modelled from the spec: `last_inflection_point`, symmetrically the last
breakpoint `(x, y)`; see `first_inflection_point`. -/
def last_inflection_point (a : PiecewiseLinear ℚ) : ℚ × ℚ := a.points.getLast?.getD (0, 0)

end PiecewiseLinear

/-! ### Lemmas about `evaluate`

The source keeps breakpoints sorted; the invariant used below is
`SortedX`, strict sortedness of the breakpoint abscissas (the data-model
invariant of the spec).  On sorted lists, `partition_point` (modelled by
`takeWhile`) and `get?` interact in the expected way.
-/

/-- Strict x-sortedness of a breakpoint list (the data-model invariant). -/
def SortedX (l : List (ℚ × Y)) : Prop := List.Sorted (fun p q => p.1 < q.1) l

/-- Weak x-sortedness of a breakpoint list. -/
def SortedXLe (l : List (ℚ × Y)) : Prop := List.Sorted (fun p q => p.1 ≤ q.1) l

section EvalLemmas

variable [AddCommGroup Y] [Module ℚ Y]

theorem Linear.constant_evaluate (y : Y) (x : ℚ) : (Linear.constant y).evaluate x = y := by
  simp [Linear.constant, Linear.evaluate]

theorem fit_eval_left {x0 x1 : ℚ} (y0 y1 : Y) (h : x0 < x1) :
    (Linear.fit x0 y0 x1 y1).evaluate x0 = y0 := by
  have hd : (0 : ℚ) < x1 - x0 := by linarith
  have hne : x1 - x0 ≠ 0 := ne_of_gt hd
  simp only [Linear.fit, Linear.evaluate, if_pos hd]
  match_scalars <;> (field_simp; ring)

theorem fit_eval_right {x0 x1 : ℚ} (y0 y1 : Y) (h : x0 < x1) :
    (Linear.fit x0 y0 x1 y1).evaluate x1 = y1 := by
  have hd : (0 : ℚ) < x1 - x0 := by linarith
  have hne : x1 - x0 ≠ 0 := ne_of_gt hd
  simp only [Linear.fit, Linear.evaluate, if_pos hd]
  match_scalars <;> (field_simp; ring)

/-- A fitted chord through two points of an affine function reproduces that
function on the whole line. -/
theorem fit_of_affine {u w : ℚ} (sl ic : Y) (h : u < w) (x : ℚ) :
    (Linear.fit u (u • sl + ic) w (w • sl + ic)).evaluate x = x • sl + ic := by
  have hd : (0 : ℚ) < w - u := by linarith
  have hne : w - u ≠ 0 := ne_of_gt hd
  simp only [Linear.fit, Linear.evaluate, if_pos hd]
  match_scalars <;> (field_simp; try ring)

theorem evaluate_nil (x : ℚ) : PiecewiseLinear.evaluate (⟨[]⟩ : PiecewiseLinear Y) x = 0 := by
  simp [PiecewiseLinear.evaluate, PiecewiseLinear.piece_at, LinearPiece.new]

theorem evaluate_singleton (p : ℚ × Y) (x : ℚ) :
    PiecewiseLinear.evaluate ⟨[p]⟩ x = p.2 := by
  by_cases h : x < p.1 <;>
    simp [PiecewiseLinear.evaluate, PiecewiseLinear.piece_at, LinearPiece.new, h,
      Linear.constant_evaluate]

theorem takeWhileX_cons_pos (x : ℚ) (p : ℚ × Y) (l : List (ℚ × Y)) (hp : p.1 ≤ x) :
    List.takeWhile (fun r => !decide (x < r.1)) (p :: l)
      = p :: List.takeWhile (fun r => !decide (x < r.1)) l := by
  rw [List.takeWhile_cons]
  simp [not_lt.mpr hp]

theorem takeWhileX_cons_neg (x : ℚ) (p : ℚ × Y) (l : List (ℚ × Y)) (hp : x < p.1) :
    List.takeWhile (fun r => !decide (x < r.1)) (p :: l) = [] := by
  rw [List.takeWhile_cons]
  simp [hp]

/-- Dropping the first breakpoint does not change `evaluate` at `x` once the
second breakpoint is at or below `x`. -/
theorem evaluate_cons_of_le (p q : ℚ × Y) (l : List (ℚ × Y)) (x : ℚ)
    (hp : p.1 ≤ x) (hq : q.1 ≤ x) :
    PiecewiseLinear.evaluate ⟨p :: q :: l⟩ x = PiecewiseLinear.evaluate ⟨q :: l⟩ x := by
  simp only [PiecewiseLinear.evaluate, PiecewiseLinear.piece_at]
  rw [takeWhileX_cons_pos x p (q :: l) hp, takeWhileX_cons_pos x q l hq]
  simp only [List.length_cons]
  have h2 : ∀ n : ℕ, ¬ (n + 1 + 1 = 0) := fun n => Nat.succ_ne_zero _
  have h1 : ∀ n : ℕ, ¬ (n + 1 = 0) := fun n => Nat.succ_ne_zero _
  rw [if_neg (h2 _), if_neg (h1 _)]
  simp only [Nat.add_sub_cancel, List.get?_cons_succ]

theorem evaluate_of_le_head (p : ℚ × Y) (l : List (ℚ × Y)) (x : ℚ)
    (hst : SortedX (p :: l)) (hx : x ≤ p.1) :
    PiecewiseLinear.evaluate ⟨p :: l⟩ x = p.2 := by
  rcases lt_or_eq_of_le hx with h | h
  · simp only [PiecewiseLinear.evaluate, PiecewiseLinear.piece_at]
    rw [takeWhileX_cons_neg x p l h]
    simp [LinearPiece.new, Linear.constant_evaluate]
  · subst h
    cases l with
    | nil => exact evaluate_singleton p p.1
    | cons q rest =>
      have hq : p.1 < q.1 := (List.sorted_cons.mp hst).1 q (List.mem_cons_self q rest)
      simp only [PiecewiseLinear.evaluate, PiecewiseLinear.piece_at]
      rw [takeWhileX_cons_pos p.1 p (q :: rest) (le_refl _), takeWhileX_cons_neg p.1 q rest hq]
      simp only [List.length_cons, List.length_nil, Nat.zero_add, Nat.one_ne_zero, if_false,
        Nat.sub_self, List.get?_cons_zero, List.get?_cons_succ, LinearPiece.new]
      exact fit_eval_left p.2 q.2 hq

/-- Monotone bound: in a sorted list every element is at most the last. -/
theorem sortedX_head_le_last (q : ℚ × Y) (l : List (ℚ × Y)) (pm : ℚ × Y)
    (hst : SortedX (q :: l)) (hlast : (q :: l).getLast? = some pm) : q.1 ≤ pm.1 := by
  rcases List.mem_of_mem_getLast? hlast with h
  rcases List.mem_cons.mp h with h | h
  · subst h; exact le_refl _
  · exact le_of_lt ((List.sorted_cons.mp hst).1 pm h)

theorem evaluate_of_last_le (l : List (ℚ × Y)) (pm : ℚ × Y) (x : ℚ)
    (hst : SortedX l) (hlast : l.getLast? = some pm) (hx : pm.1 ≤ x) :
    PiecewiseLinear.evaluate ⟨l⟩ x = pm.2 := by
  induction l with
  | nil => simp at hlast
  | cons p rest ih =>
    cases rest with
    | nil =>
      simp only [List.getLast?_singleton, Option.some.injEq] at hlast
      subst hlast
      exact evaluate_singleton p x
    | cons q rest' =>
      have hlast' : (q :: rest').getLast? = some pm := by
        rwa [List.getLast?_cons_cons] at hlast
      have hst' : SortedX (q :: rest') := (List.sorted_cons.mp hst).2
      have hq : q.1 ≤ x := le_trans (sortedX_head_le_last q rest' pm hst' hlast') hx
      have hp : p.1 ≤ x :=
        le_trans (le_of_lt ((List.sorted_cons.mp hst).1 q (List.mem_cons_self q rest'))) hq
      rw [evaluate_cons_of_le p q rest' x hp hq]
      exact ih hst' hlast'

/-- Bracketing at the head: between the first two breakpoints, `evaluate` is
the fitted chord. -/
theorem evaluate_between_head (p q : ℚ × Y) (l : List (ℚ × Y)) (x : ℚ)
    (hst : SortedX (p :: q :: l)) (hx1 : p.1 ≤ x) (hx2 : x ≤ q.1) :
    PiecewiseLinear.evaluate ⟨p :: q :: l⟩ x = (Linear.fit p.1 p.2 q.1 q.2).evaluate x := by
  have hpq : p.1 < q.1 := (List.sorted_cons.mp hst).1 q (List.mem_cons_self q l)
  rcases lt_or_eq_of_le hx2 with h | h
  · simp only [PiecewiseLinear.evaluate, PiecewiseLinear.piece_at]
    rw [takeWhileX_cons_pos x p (q :: l) hx1, takeWhileX_cons_neg x q l h]
    simp only [List.length_cons, List.length_nil, Nat.zero_add, Nat.one_ne_zero, if_false,
      Nat.sub_self, List.get?_cons_zero, List.get?_cons_succ, LinearPiece.new]
  · subst h
    rw [evaluate_cons_of_le p q l q.1 hx1 (le_refl _),
      evaluate_of_le_head q l q.1 (List.sorted_cons.mp hst).2 (le_refl _),
      fit_eval_right p.2 q.2 hpq]

/-- `Linear.fit` is the linear interpolation between its two sample points. -/
theorem fit_eval_interp {u w : ℚ} (yu yw : Y) (h : u < w) (x : ℚ) :
    (Linear.fit u yu w yw).evaluate x = yu + ((x - u) / (w - u)) • (yw - yu) := by
  have hd : (0 : ℚ) < w - u := by linarith
  have hne : w - u ≠ 0 := ne_of_gt hd
  simp only [Linear.fit, Linear.evaluate, if_pos hd]
  match_scalars <;> (field_simp; try ring)

/-- General bracketing: between any two consecutive breakpoints, `evaluate`
is the fitted chord through them. -/
theorem evaluate_between (i : ℕ) (l : List (ℚ × Y)) (u w : ℚ × Y) (x : ℚ)
    (hst : SortedX l) (hu : l.get? i = some u) (hw : l.get? (i + 1) = some w)
    (hx1 : u.1 ≤ x) (hx2 : x ≤ w.1) :
    PiecewiseLinear.evaluate ⟨l⟩ x = (Linear.fit u.1 u.2 w.1 w.2).evaluate x := by
  induction i generalizing l with
  | zero =>
    cases l with
    | nil => simp at hu
    | cons p rest =>
      simp only [List.get?_cons_zero, Option.some.injEq] at hu
      subst hu
      cases rest with
      | nil => simp at hw
      | cons q rest' =>
        simp only [List.get?_cons_succ, List.get?_cons_zero, Option.some.injEq] at hw
        subst hw
        exact evaluate_between_head _ _ rest' x hst hx1 hx2
  | succ j ih =>
    cases l with
    | nil => simp at hu
    | cons p rest =>
      simp only [List.get?_cons_succ] at hu hw
      cases rest with
      | nil => simp at hu
      | cons q rest' =>
        have hq : q.1 ≤ u.1 := by
          have humem : u ∈ q :: rest' := List.get?_mem hu
          rcases List.mem_cons.mp humem with h | h
          · subst h; exact le_refl _
          · exact le_of_lt (((List.sorted_cons.mp (List.sorted_cons.mp hst).2).1) u h)
        have hp : p.1 ≤ x :=
          le_trans (le_of_lt ((List.sorted_cons.mp hst).1 q (List.mem_cons_self q rest')))
            (le_trans hq hx1)
        rw [evaluate_cons_of_le p q rest' x hp (le_trans hq hx1)]
        exact ih (q :: rest') (List.sorted_cons.mp hst).2 hu hw

end EvalLemmas

/-! ### The merge walk on explicit piece lists

For reasoning, the iterator-state walk `zipWalk` is re-expressed as a walk
over the explicit lists of pieces the iterators will yield.
-/

section WalkLemmas

variable [AddCommGroup Y] [Module ℚ Y] [AddCommGroup Z] [Module ℚ Z]

/-- The pieces still to be yielded by an iterator that has consumed `prev`. -/
def piecesAux (prev : ℚ × Y) : List (ℚ × Y) → List (LinearPiece Y)
  | [] => [⟨(prev.1 : ℚ), ⊤, Linear.constant prev.2⟩]
  | n :: rest =>
    ⟨(prev.1 : ℚ), (n.1 : ℚ), Linear.fit prev.1 prev.2 n.1 n.2⟩ :: piecesAux n rest

/-- All pieces of a breakpoint list, in iteration order. -/
def piecesList : List (ℚ × Y) → List (LinearPiece Y)
  | [] => []
  | n :: rest => ⟨⊥, (n.1 : ℚ), Linear.constant n.2⟩ :: piecesAux n rest

/-- The pieces an iterator state will still yield. -/
def piecesFrom (st : Option (ℚ × Y) × List (ℚ × Y)) : List (LinearPiece Y) :=
  match st.1 with
  | some p => piecesAux p st.2
  | none => piecesList st.2

theorem piecesFrom_iterNext (st : Option (ℚ × Y) × List (ℚ × Y)) :
    (piecesFrom st = [] ∧ (iterNext st).1 = none) ∨
    (∃ pc st', iterNext st = (some pc, st') ∧ piecesFrom st = pc :: piecesFrom st') := by
  obtain ⟨o, pts⟩ := st
  cases o with
  | none =>
    cases pts with
    | nil => exact Or.inl ⟨rfl, rfl⟩
    | cons n rest =>
      exact Or.inr ⟨_, _, rfl, rfl⟩
  | some p =>
    cases pts with
    | nil => exact Or.inr ⟨_, _, rfl, rfl⟩
    | cons n rest => exact Or.inr ⟨_, _, rfl, rfl⟩

/-- `zipWalk` restated on the explicit piece lists (heads are the current
pieces). -/
def zipWalkL (f : WithBot ℚ → WithTop ℚ → Linear Y → Linear Z → List V) :
    List (LinearPiece Y) → List (LinearPiece Z) → List V
  | [], _ => []
  | _ :: _, [] => []
  | py :: ys, pz :: zs =>
    if pz.hi < py.hi then
      match zs with
      | [] => []
      | pz' :: zs' =>
        f pz'.lo (min pz'.hi py.hi) py.extension pz'.extension ++
          zipWalkL f (py :: ys) (pz' :: zs')
    else if py.hi < pz.hi then
      match ys with
      | [] => []
      | py' :: ys' =>
        f py'.lo (min py'.hi pz.hi) py'.extension pz.extension ++
          zipWalkL f (py' :: ys') (pz :: zs)
    else
      match ys, zs with
      | py' :: ys', pz' :: zs' =>
        f (max py'.lo pz'.lo) (min py'.hi pz'.hi) py'.extension pz'.extension ++
          zipWalkL f (py' :: ys') (pz' :: zs')
      | _, _ => []
termination_by PY PZ => PY.length + PZ.length

theorem piecesFrom_of_iterNext_none {st : Option (ℚ × Y) × List (ℚ × Y)}
    {st' : Option (ℚ × Y) × List (ℚ × Y)} (h : iterNext st = (none, st')) :
    piecesFrom st = [] := by
  rcases piecesFrom_iterNext st with ⟨h0, _⟩ | ⟨pc, st'', he, _⟩
  · exact h0
  · rw [h] at he
    simp at he

theorem piecesFrom_of_iterNext_some {st : Option (ℚ × Y) × List (ℚ × Y)} {pc : LinearPiece Y}
    {st' : Option (ℚ × Y) × List (ℚ × Y)} (h : iterNext st = (some pc, st')) :
    piecesFrom st = pc :: piecesFrom st' := by
  rcases piecesFrom_iterNext st with ⟨_, h1⟩ | ⟨pc', st'', he, hf⟩
  · rw [h] at h1
    simp at h1
  · rw [h] at he
    simp only [Prod.mk.injEq, Option.some.injEq] at he
    rw [← he.1, ← he.2] at hf
    exact hf

theorem zipWalk_eq_zipWalkL (f : WithBot ℚ → WithTop ℚ → Linear Y → Linear Z → List V) :
    ∀ (py : Option (LinearPiece Y)) (sty : Option (ℚ × Y) × List (ℚ × Y))
      (pz : Option (LinearPiece Z)) (stz : Option (ℚ × Z) × List (ℚ × Z)),
      zipWalk f py sty pz stz =
        match py, pz with
        | some a, some b => zipWalkL f (a :: piecesFrom sty) (b :: piecesFrom stz)
        | _, _ => [] := by
  intro py sty pz stz
  induction py, sty, pz, stz using zipWalk.induct (f := f) with
  | case1 sty pz stz => simp [zipWalk]
  | case2 py sty stz => simp [zipWalk]
  | case3 py sty pz stz hzy snd hnz =>
    show zipWalk f (some py) sty (some pz) stz =
      zipWalkL f (py :: piecesFrom sty) (pz :: piecesFrom stz)
    rw [zipWalk, zipWalkL.eq_def]
    simp only [if_pos hzy, piecesFrom_of_iterNext_none hnz]
    split
    · rfl
    · next pz' stz' h =>
      rw [hnz] at h
      simp at h
  | case4 py sty pz stz hzy pz' stz' hz ih =>
    show zipWalk f (some py) sty (some pz) stz =
      zipWalkL f (py :: piecesFrom sty) (pz :: piecesFrom stz)
    rw [zipWalk, zipWalkL.eq_def]
    simp only at ih
    simp only [if_pos hzy, piecesFrom_of_iterNext_some hz]
    split
    · next snd2 h =>
      rw [hz] at h
      simp at h
    · next pz2 stz2 h =>
      rw [hz] at h
      simp only [Prod.mk.injEq, Option.some.injEq] at h
      rw [← h.1, ← h.2, ih]
  | case5 py sty pz stz hzy hyz snd hny =>
    show zipWalk f (some py) sty (some pz) stz =
      zipWalkL f (py :: piecesFrom sty) (pz :: piecesFrom stz)
    rw [zipWalk, zipWalkL.eq_def]
    simp only [if_neg hzy, if_pos hyz, piecesFrom_of_iterNext_none hny]
    split
    · rfl
    · next py' sty' h =>
      rw [hny] at h
      simp at h
  | case6 py sty pz stz hzy hyz py' sty' hy ih =>
    show zipWalk f (some py) sty (some pz) stz =
      zipWalkL f (py :: piecesFrom sty) (pz :: piecesFrom stz)
    rw [zipWalk, zipWalkL.eq_def]
    simp only at ih
    simp only [if_neg hzy, if_pos hyz, piecesFrom_of_iterNext_some hy]
    split
    · next snd2 h =>
      rw [hy] at h
      simp at h
    · next py2 sty2 h =>
      rw [hy] at h
      simp only [Prod.mk.injEq, Option.some.injEq] at h
      rw [← h.1, ← h.2, ih]
  | case7 py sty pz stz hzy hyz py' sty' pz' stz' hy hz ih =>
    show zipWalk f (some py) sty (some pz) stz =
      zipWalkL f (py :: piecesFrom sty) (pz :: piecesFrom stz)
    rw [zipWalk, zipWalkL.eq_def]
    simp only at ih
    simp only [if_neg hzy, if_neg hyz,
      piecesFrom_of_iterNext_some hy, piecesFrom_of_iterNext_some hz]
    split
    · next py2 sty2 pz2 stz2 h1 h2 =>
      rw [hy] at h1
      rw [hz] at h2
      simp only [Prod.mk.injEq, Option.some.injEq] at h1 h2
      rw [← h1.1, ← h1.2, ← h2.1, ← h2.2, ih]
    · simp_all
    · simp_all
  | case8 py sty pz stz hzy hyz snd hny =>
    show zipWalk f (some py) sty (some pz) stz =
      zipWalkL f (py :: piecesFrom sty) (pz :: piecesFrom stz)
    rw [zipWalk, zipWalkL.eq_def]
    simp only [if_neg hzy, if_neg hyz, piecesFrom_of_iterNext_none hny]
    split
    · simp_all
    · rfl
    · rfl
  | case9 py sty pz stz hzy hyz py' sty' stz'' hy hnz =>
    show zipWalk f (some py) sty (some pz) stz =
      zipWalkL f (py :: piecesFrom sty) (pz :: piecesFrom stz)
    rw [zipWalk, zipWalkL.eq_def]
    simp only [if_neg hzy, if_neg hyz,
      piecesFrom_of_iterNext_some hy, piecesFrom_of_iterNext_none hnz]
    split
    · simp_all
    · simp_all
    · rfl

/-- The per-step trace of the walk: emitted domain and the two extensions
in play at that step. -/
def walkTrace (PY : List (LinearPiece Y)) (PZ : List (LinearPiece Z)) :
    List ((WithBot ℚ × WithTop ℚ) × Linear Y × Linear Z) :=
  zipWalkL (fun lo hi ly lz => [((lo, hi), ly, lz)]) PY PZ

theorem zipWalkL_eq_flatMap (f : WithBot ℚ → WithTop ℚ → Linear Y → Linear Z → List V) :
    ∀ (PY : List (LinearPiece Y)) (PZ : List (LinearPiece Z)),
      zipWalkL f PY PZ = (walkTrace PY PZ).flatMap (fun e => f e.1.1 e.1.2 e.2.1 e.2.2) := by
  intro PY PZ
  unfold walkTrace
  induction PY, PZ using zipWalkL.induct
    ((fun lo hi ly lz => [((lo, hi), ly, lz)]) :
      WithBot ℚ → WithTop ℚ → Linear Y → Linear Z →
        List ((WithBot ℚ × WithTop ℚ) × Linear Y × Linear Z)) with
  | case1 x =>
    rw [zipWalkL.eq_def]
    conv_rhs => rw [zipWalkL.eq_def]
    simp
  | case2 head tail =>
    rw [zipWalkL.eq_def]
    conv_rhs => rw [zipWalkL.eq_def]
    simp
  | case3 py ys pz hlt =>
    rw [zipWalkL.eq_def]
    conv_rhs => rw [zipWalkL.eq_def]
    simp [if_pos hlt]
  | case4 py ys pz hlt pz' zs' ih =>
    rw [zipWalkL.eq_def]
    conv_rhs => rw [zipWalkL.eq_def]
    simp [if_pos hlt, ih]
  | case5 py pz zs hnlt hlt =>
    rw [zipWalkL.eq_def]
    conv_rhs => rw [zipWalkL.eq_def]
    simp [if_neg hnlt, if_pos hlt]
  | case6 py pz zs hnlt hlt py' ys' ih =>
    rw [zipWalkL.eq_def]
    conv_rhs => rw [zipWalkL.eq_def]
    simp [if_neg hnlt, if_pos hlt, ih]
  | case7 py pz hnlt hnlt' py' ys' pz' zs' ih =>
    rw [zipWalkL.eq_def]
    conv_rhs => rw [zipWalkL.eq_def]
    simp [if_neg hnlt, if_neg hnlt', ih]
  | case8 py ys pz zs hnlt hnlt' hne =>
    rw [zipWalkL.eq_def]
    conv_rhs => rw [zipWalkL.eq_def]
    simp only [if_neg hnlt, if_neg hnlt']
    cases ys with
    | nil => simp
    | cons a as =>
      cases zs with
      | nil => simp
      | cons b bs => exact absurd (hne a as b bs rfl rfl) (fun h => h)

/-- Structural merge of two boundary lists, collapsing cross-list ties, as
the walk processes them. -/
def mergeX : List ℚ → List ℚ → List ℚ
  | [], ys => ys
  | x :: xs, [] => x :: xs
  | x :: xs, y :: ys =>
    if y < x then y :: mergeX (x :: xs) ys
    else if x < y then x :: mergeX xs (y :: ys)
    else x :: mergeX xs ys
termination_by xs ys => xs.length + ys.length

/-- `PieceShape P L`: the piece list `P` has the finite inter-piece
boundaries `L` — each boundary is both the `hi` of one piece and the `lo` of
the next, and the last piece is unbounded above. -/
def PieceShape : List (LinearPiece Y) → List ℚ → Prop
  | [p], [] => p.hi = ⊤
  | p :: q :: rest, v :: L =>
    p.hi = ((v : ℚ) : WithTop ℚ) ∧ q.lo = ((v : ℚ) : WithBot ℚ) ∧ PieceShape (q :: rest) L
  | _, _ => False

theorem pieceShape_single {p : LinearPiece Y} {L : List ℚ} (h : PieceShape [p] L) :
    L = [] ∧ p.hi = ⊤ := by
  cases L with
  | nil => exact ⟨rfl, h⟩
  | cons v L' => exact absurd h (by simp [PieceShape])

theorem pieceShape_cons_cons {p q : LinearPiece Y} {rest : List (LinearPiece Y)} {L : List ℚ}
    (h : PieceShape (p :: q :: rest) L) :
    ∃ v L', L = v :: L' ∧ p.hi = ((v : ℚ) : WithTop ℚ) ∧ q.lo = ((v : ℚ) : WithBot ℚ) ∧
      PieceShape (q :: rest) L' := by
  cases L with
  | nil => exact absurd h (by simp [PieceShape])
  | cons v L' => exact ⟨v, L', rfl, h.1, h.2.1, h.2.2⟩

theorem mergeX_nil_right (xs : List ℚ) : mergeX xs [] = xs := by
  cases xs <;> simp [mergeX]

/-- The emitted domain starts of the walk are exactly the merged boundary
list. -/
theorem walkTrace_lo :
    ∀ (PY : List (LinearPiece Y)) (PZ : List (LinearPiece Z)) (Ly Lz : List ℚ),
      PieceShape PY Ly → PieceShape PZ Lz →
      (walkTrace PY PZ).map (fun e => e.1.1) =
        (mergeX Ly Lz).map (fun v => ((v : ℚ) : WithBot ℚ)) := by
  intro PY PZ
  unfold walkTrace
  induction PY, PZ using zipWalkL.induct
    ((fun lo hi ly lz => [((lo, hi), ly, lz)]) :
      WithBot ℚ → WithTop ℚ → Linear Y → Linear Z →
        List ((WithBot ℚ × WithTop ℚ) × Linear Y × Linear Z)) with
  | case1 x =>
    intro Ly Lz hy hz
    cases Ly <;> exact absurd hy (by simp [PieceShape])
  | case2 head tail =>
    intro Ly Lz hy hz
    cases Lz <;> exact absurd hz (by simp [PieceShape])
  | case3 py ys pz hlt =>
    intro Ly Lz hy hz
    obtain ⟨rfl, htop⟩ := pieceShape_single hz
    rw [htop] at hlt
    exact absurd hlt not_top_lt
  | case4 py ys pz hlt pz' zs' ih =>
    intro Ly Lz hy hz
    obtain ⟨v, Lz', rfl, hhi, hlo, hz'⟩ := pieceShape_cons_cons hz
    rw [zipWalkL.eq_def]
    simp only [if_pos hlt, List.map_append, List.map_cons, List.map_nil]
    rw [ih Ly Lz' hy hz', hlo]
    cases ys with
    | nil =>
      obtain ⟨rfl, htop⟩ := pieceShape_single hy
      simp [mergeX]
    | cons a as =>
      obtain ⟨w, Ly', rfl, hhiy, hloy, hy'⟩ := pieceShape_cons_cons hy
      have hvw : v < w := by
        rw [hhi, hhiy] at hlt
        exact_mod_cast hlt
      conv_rhs => rw [mergeX.eq_def]
      simp [if_pos hvw]
  | case5 py pz zs hnlt hlt =>
    intro Ly Lz hy hz
    obtain ⟨rfl, htop⟩ := pieceShape_single hy
    rw [htop] at hlt
    exact absurd hlt not_top_lt
  | case6 py pz zs hnlt hlt py' ys' ih =>
    intro Ly Lz hy hz
    obtain ⟨w, Ly', rfl, hhiy, hloy, hy'⟩ := pieceShape_cons_cons hy
    rw [zipWalkL.eq_def]
    simp only [if_neg hnlt, if_pos hlt, List.map_append, List.map_cons, List.map_nil]
    rw [ih Ly' Lz hy' hz, hloy]
    cases zs with
    | nil =>
      obtain ⟨rfl, htop⟩ := pieceShape_single hz
      rw [mergeX_nil_right, mergeX_nil_right]
      simp
    | cons b bs =>
      obtain ⟨u, Lz', rfl, hhiz, hloz, hz'⟩ := pieceShape_cons_cons hz
      have hwu : w < u := by
        rw [hhiy, hhiz] at hlt
        exact_mod_cast hlt
      have hnuw : ¬ u < w := by
        intro hc
        exact absurd (lt_trans hc hwu) (lt_irrefl _)
      conv_rhs => rw [mergeX.eq_def]
      simp [if_neg hnuw, if_pos hwu]
  | case7 py pz hnlt hnlt' py' ys' pz' zs' ih =>
    intro Ly Lz hy hz
    obtain ⟨w, Ly', rfl, hhiy, hloy, hy'⟩ := pieceShape_cons_cons hy
    obtain ⟨u, Lz', rfl, hhiz, hloz, hz'⟩ := pieceShape_cons_cons hz
    have heq : w = u := by
      have h1 : py.hi ≤ pz.hi := not_lt.mp hnlt
      have h2 : pz.hi ≤ py.hi := not_lt.mp hnlt'
      have := le_antisymm h1 h2
      rw [hhiy, hhiz] at this
      exact_mod_cast this
    subst heq
    rw [zipWalkL.eq_def]
    simp only [if_neg hnlt, if_neg hnlt', List.map_append, List.map_cons, List.map_nil]
    rw [ih Ly' Lz' hy' hz', hloy, hloz]
    conv_rhs => rw [mergeX.eq_def]
    simp [lt_irrefl]
  | case8 py ys pz zs hnlt hnlt' hne =>
    intro Ly Lz hy hz
    cases ys with
    | nil =>
      obtain ⟨rfl, htop⟩ := pieceShape_single hy
      have hztop : pz.hi = ⊤ := by
        rw [htop] at hnlt
        exact top_le_iff.mp (not_lt.mp hnlt)
      cases zs with
      | nil =>
        obtain ⟨rfl, _⟩ := pieceShape_single hz
        rw [zipWalkL.eq_def]
        simp [if_neg hnlt, if_neg hnlt', mergeX]
      | cons b bs =>
        obtain ⟨u, Lz', rfl, hhiz, _, _⟩ := pieceShape_cons_cons hz
        rw [hhiz] at hztop
        exact absurd hztop (by simp)
    | cons a as =>
      cases zs with
      | nil =>
        obtain ⟨rfl, htop⟩ := pieceShape_single hz
        obtain ⟨w, Ly', rfl, hhiy, _, _⟩ := pieceShape_cons_cons hy
        rw [htop, hhiy] at hnlt'
        exact absurd (WithTop.coe_lt_top w) hnlt'
      | cons b bs => exact absurd (hne a as b bs rfl rfl) (fun h => h)

/-- The `hi` of the head piece is the first boundary (or `⊤`). -/
def headB (L : List ℚ) : WithTop ℚ :=
  match L with
  | [] => ⊤
  | v :: _ => ((v : ℚ) : WithTop ℚ)

theorem pieceShape_head_hi {q : LinearPiece Y} {rest : List (LinearPiece Y)} {L : List ℚ}
    (h : PieceShape (q :: rest) L) : q.hi = headB L := by
  cases rest with
  | nil =>
    obtain ⟨rfl, htop⟩ := pieceShape_single h
    exact htop
  | cons r rs =>
    obtain ⟨v, L', rfl, hhi, _, _⟩ := pieceShape_cons_cons h
    exact hhi

/-- Mixed-type comparison `lo ≤ hi` (vacuous at `⊥`/`⊤`). -/
def loLeHi (lo : WithBot ℚ) (hi : WithTop ℚ) : Prop :=
  ∀ v w : ℚ, lo = ((v : ℚ) : WithBot ℚ) → hi = ((w : ℚ) : WithTop ℚ) → v ≤ w

/-- All pieces' extensions agree with `g` on their closed domains. -/
def PiecesAgree (g : ℚ → Y) (P : List (LinearPiece Y)) : Prop :=
  ∀ pc ∈ P, ∀ x : ℚ, pc.lo ≤ ((x : ℚ) : WithBot ℚ) → ((x : ℚ) : WithTop ℚ) ≤ pc.hi →
    pc.extension.evaluate x = g x

/-- Pieces unbounded above are flat. -/
def FlatTop (P : List (LinearPiece Y)) : Prop :=
  ∀ pc ∈ P, pc.hi = ⊤ → pc.extension.slope = (0 : Y)

/-- Every step of the walk emits a finite domain start `v` with `v ≤ hi`,
extensions agreeing with the two functions on `[v, hi]`, and flat extensions
when the step is unbounded. -/
theorem walkTrace_mem (gy : ℚ → Y) (gz : ℚ → Z) :
    ∀ (PY : List (LinearPiece Y)) (PZ : List (LinearPiece Z)) (Ly Lz : List ℚ),
      PieceShape PY Ly → PieceShape PZ Lz →
      Ly.Chain' (· ≤ ·) → Lz.Chain' (· ≤ ·) →
      PiecesAgree gy PY → PiecesAgree gz PZ → FlatTop PY → FlatTop PZ →
      (∀ py ys pz zs, PY = py :: ys → PZ = pz :: zs →
        loLeHi py.lo pz.hi ∧ loLeHi pz.lo py.hi) →
      ∀ e ∈ walkTrace PY PZ, ∃ v : ℚ, e.1.1 = ((v : ℚ) : WithBot ℚ) ∧
        ((v : ℚ) : WithTop ℚ) ≤ e.1.2 ∧
        (∀ x : ℚ, v ≤ x → ((x : ℚ) : WithTop ℚ) ≤ e.1.2 →
          e.2.1.evaluate x = gy x ∧ e.2.2.evaluate x = gz x) ∧
        (e.1.2 = ⊤ → e.2.1.slope = 0 ∧ e.2.2.slope = 0) := by
  intro PY PZ
  unfold walkTrace
  induction PY, PZ using zipWalkL.induct
    ((fun lo hi ly lz => [((lo, hi), ly, lz)]) :
      WithBot ℚ → WithTop ℚ → Linear Y → Linear Z →
        List ((WithBot ℚ × WithTop ℚ) × Linear Y × Linear Z)) with
  | case1 x =>
    intro Ly Lz hy
    cases Ly <;> exact absurd hy (by simp [PieceShape])
  | case2 head tail =>
    intro Ly Lz _ hz
    cases Lz <;> exact absurd hz (by simp [PieceShape])
  | case3 py ys pz hlt =>
    intro Ly Lz hy hz
    obtain ⟨rfl, htop⟩ := pieceShape_single hz
    rw [htop] at hlt
    exact absurd hlt not_top_lt
  | case4 py ys pz hlt pz' zs' ih =>
    intro Ly Lz hy hz hcy hcz hay haz hfy hfz hJ
    obtain ⟨v, Lz', rfl, hhi, hlo, hz'⟩ := pieceShape_cons_cons hz
    have hJ' := hJ py ys pz (pz' :: zs') rfl rfl
    have hcz' : Lz'.Chain' (· ≤ ·) := hcz.tail
    have hvhi' : ((v : ℚ) : WithTop ℚ) ≤ pz'.hi := by
      rw [pieceShape_head_hi hz']
      cases Lz' with
      | nil => exact le_top
      | cons u L'' =>
        have : v ≤ u := (List.chain'_cons.mp hcz).1
        simp only [headB]
        exact_mod_cast this
    have hvpy : ((v : ℚ) : WithTop ℚ) ≤ py.hi := by
      rw [← hhi]
      exact le_of_lt hlt
    intro e he
    rw [zipWalkL.eq_def] at he
    simp only [if_pos hlt, List.mem_append, List.mem_singleton] at he
    rcases he with he | he
    · subst he
      refine ⟨v, by simpa using hlo, le_min hvhi' hvpy, ?_, ?_⟩
      · intro x hvx hxhi
        simp only [le_min_iff] at hxhi
        constructor
        · refine hay py (List.mem_cons_self _ _) x ?_ hxhi.2
          rcases hpyl : py.lo with _ | t
          · exact bot_le
          · have : t ≤ v := hJ'.1 t v hpyl hhi
            exact WithBot.coe_le_coe.mpr (le_trans this hvx)
        · refine haz pz' (List.mem_cons_of_mem _ (List.mem_cons_self _ _)) x ?_ hxhi.1
          rw [hlo]
          exact_mod_cast hvx
      · intro htop
        have hmin := min_eq_top.mp htop
        exact ⟨hfy py (List.mem_cons_self _ _) hmin.2,
          hfz pz' (List.mem_cons_of_mem _ (List.mem_cons_self _ _)) hmin.1⟩
    · refine ih Ly Lz' hy hz' hcy hcz'
        hay (fun pc hpc => haz pc (List.mem_cons_of_mem _ hpc))
        hfy (fun pc hpc => hfz pc (List.mem_cons_of_mem _ hpc)) ?_ e he
      intro py2 ys2 pz2 zs2 h1 h2
      rw [List.cons.injEq] at h1 h2
      rw [← h1.1, ← h2.1]
      constructor
      · intro t u hplo hphi
        have h1' : t ≤ v := hJ'.1 t v hplo hhi
        have h2' : ((v : ℚ) : WithTop ℚ) ≤ pz'.hi := hvhi'
        rw [hphi] at h2'
        have : v ≤ u := by exact_mod_cast h2'
        exact le_trans h1' this
      · intro t u hplo hphi
        rw [hlo] at hplo
        have htv : t = v := by exact_mod_cast hplo.symm
        subst htv
        have := hvpy
        rw [hphi] at this
        exact_mod_cast this
  | case5 py pz zs hnlt hlt =>
    intro Ly Lz hy hz
    obtain ⟨rfl, htop⟩ := pieceShape_single hy
    rw [htop] at hlt
    exact absurd hlt not_top_lt
  | case6 py pz zs hnlt hlt py' ys' ih =>
    intro Ly Lz hy hz hcy hcz hay haz hfy hfz hJ
    obtain ⟨w, Ly', rfl, hhiy, hloy, hy'⟩ := pieceShape_cons_cons hy
    have hJ' := hJ py (py' :: ys') pz zs rfl rfl
    have hcy' : Ly'.Chain' (· ≤ ·) := hcy.tail
    have hwhi' : ((w : ℚ) : WithTop ℚ) ≤ py'.hi := by
      rw [pieceShape_head_hi hy']
      cases Ly' with
      | nil => exact le_top
      | cons u L'' =>
        have : w ≤ u := (List.chain'_cons.mp hcy).1
        simp only [headB]
        exact_mod_cast this
    have hwpz : ((w : ℚ) : WithTop ℚ) ≤ pz.hi := by
      rw [← hhiy]
      exact le_of_lt hlt
    intro e he
    rw [zipWalkL.eq_def] at he
    simp only [if_neg hnlt, if_pos hlt, List.mem_append, List.mem_singleton] at he
    rcases he with he | he
    · subst he
      refine ⟨w, by simpa using hloy, le_min hwhi' hwpz, ?_, ?_⟩
      · intro x hwx hxhi
        simp only [le_min_iff] at hxhi
        constructor
        · refine hay py' (List.mem_cons_of_mem _ (List.mem_cons_self _ _)) x ?_ hxhi.1
          rw [hloy]
          exact_mod_cast hwx
        · refine haz pz (List.mem_cons_self _ _) x ?_ hxhi.2
          rcases hpzl : pz.lo with _ | t
          · exact bot_le
          · have : t ≤ w := hJ'.2 t w hpzl hhiy
            exact WithBot.coe_le_coe.mpr (le_trans this hwx)
      · intro htop
        have hmin := min_eq_top.mp htop
        exact ⟨hfy py' (List.mem_cons_of_mem _ (List.mem_cons_self _ _)) hmin.1,
          hfz pz (List.mem_cons_self _ _) hmin.2⟩
    · refine ih Ly' Lz hy' hz hcy' hcz
        (fun pc hpc => hay pc (List.mem_cons_of_mem _ hpc)) haz
        (fun pc hpc => hfy pc (List.mem_cons_of_mem _ hpc)) hfz ?_ e he
      intro py2 ys2 pz2 zs2 h1 h2
      rw [List.cons.injEq] at h1 h2
      rw [← h1.1, ← h2.1]
      constructor
      · intro t u hplo hphi
        rw [hloy] at hplo
        have htw : t = w := by exact_mod_cast hplo.symm
        subst htw
        have := hwpz
        rw [hphi] at this
        exact_mod_cast this
      · intro t u hplo hphi
        have h1' : t ≤ w := hJ'.2 t w hplo hhiy
        have h2' : ((w : ℚ) : WithTop ℚ) ≤ py'.hi := hwhi'
        rw [hphi] at h2'
        have : w ≤ u := by exact_mod_cast h2'
        exact le_trans h1' this
  | case7 py pz hnlt hnlt' py' ys' pz' zs' ih =>
    intro Ly Lz hy hz hcy hcz hay haz hfy hfz hJ
    obtain ⟨w, Ly', rfl, hhiy, hloy, hy'⟩ := pieceShape_cons_cons hy
    obtain ⟨u, Lz', rfl, hhiz, hloz, hz'⟩ := pieceShape_cons_cons hz
    have heq : w = u := by
      have h1 : py.hi ≤ pz.hi := not_lt.mp hnlt
      have h2 : pz.hi ≤ py.hi := not_lt.mp hnlt'
      have := le_antisymm h1 h2
      rw [hhiy, hhiz] at this
      exact_mod_cast this
    subst heq
    have hwhiy' : ((w : ℚ) : WithTop ℚ) ≤ py'.hi := by
      rw [pieceShape_head_hi hy']
      cases Ly' with
      | nil => exact le_top
      | cons t L'' =>
        have : w ≤ t := (List.chain'_cons.mp hcy).1
        simp only [headB]
        exact_mod_cast this
    have hwhiz' : ((w : ℚ) : WithTop ℚ) ≤ pz'.hi := by
      rw [pieceShape_head_hi hz']
      cases Lz' with
      | nil => exact le_top
      | cons t L'' =>
        have : w ≤ t := (List.chain'_cons.mp hcz).1
        simp only [headB]
        exact_mod_cast this
    intro e he
    rw [zipWalkL.eq_def] at he
    simp only [if_neg hnlt, if_neg hnlt', List.mem_append, List.mem_singleton] at he
    rcases he with he | he
    · subst he
      have hmax : max py'.lo pz'.lo = ((w : ℚ) : WithBot ℚ) := by
        rw [hloy, hloz]
        exact max_self _
      refine ⟨w, by simpa using hmax, le_min hwhiy' hwhiz', ?_, ?_⟩
      · intro x hwx hxhi
        simp only [le_min_iff] at hxhi
        constructor
        · refine hay py' (List.mem_cons_of_mem _ (List.mem_cons_self _ _)) x ?_ hxhi.1
          rw [hloy]
          exact_mod_cast hwx
        · refine haz pz' (List.mem_cons_of_mem _ (List.mem_cons_self _ _)) x ?_ hxhi.2
          rw [hloz]
          exact_mod_cast hwx
      · intro htop
        have hmin := min_eq_top.mp htop
        exact ⟨hfy py' (List.mem_cons_of_mem _ (List.mem_cons_self _ _)) hmin.1,
          hfz pz' (List.mem_cons_of_mem _ (List.mem_cons_self _ _)) hmin.2⟩
    · refine ih Ly' Lz' hy' hz' hcy.tail hcz.tail
        (fun pc hpc => hay pc (List.mem_cons_of_mem _ hpc))
        (fun pc hpc => haz pc (List.mem_cons_of_mem _ hpc))
        (fun pc hpc => hfy pc (List.mem_cons_of_mem _ hpc))
        (fun pc hpc => hfz pc (List.mem_cons_of_mem _ hpc)) ?_ e he
      intro py2 ys2 pz2 zs2 h1 h2
      rw [List.cons.injEq] at h1 h2
      rw [← h1.1, ← h2.1]
      constructor
      · intro t u' hplo hphi
        rw [hloy] at hplo
        have htw : t = w := by exact_mod_cast hplo.symm
        subst htw
        have := hwhiz'
        rw [hphi] at this
        exact_mod_cast this
      · intro t u' hplo hphi
        rw [hloz] at hplo
        have htw : t = w := by exact_mod_cast hplo.symm
        subst htw
        have := hwhiy'
        rw [hphi] at this
        exact_mod_cast this
  | case8 py ys pz zs hnlt hnlt' hne =>
    intro Ly Lz hy hz hcy hcz hay haz hfy hfz hJ
    intro e he
    rw [zipWalkL.eq_def] at he
    simp only [if_neg hnlt, if_neg hnlt'] at he
    cases ys with
    | nil => simp at he
    | cons a as =>
      cases zs with
      | nil => simp at he
      | cons b bs => exact absurd (hne a as b bs rfl rfl) (fun h => h)

theorem mergeX_eq_nil_iff (Ly Lz : List ℚ) : mergeX Ly Lz = [] ↔ Ly = [] ∧ Lz = [] := by
  cases Ly with
  | nil => cases Lz <;> simp [mergeX]
  | cons x xs =>
    cases Lz with
    | nil => simp [mergeX]
    | cons y ys =>
      rw [mergeX.eq_def]
      simp only [List.cons.injEq]
      split <;> simp
      split <;> simp

theorem headB_mergeX (Ly Lz : List ℚ) :
    headB (mergeX Ly Lz) = min (headB Ly) (headB Lz) := by
  cases Ly with
  | nil => simp [mergeX, headB]
  | cons x xs =>
    cases Lz with
    | nil =>
      rw [mergeX_nil_right]
      simp [headB]
    | cons y ys =>
      rw [mergeX.eq_def]
      simp only
      split
      · next hyx =>
        simp only [headB]
        have hle : ((y : ℚ) : WithTop ℚ) ≤ ((x : ℚ) : WithTop ℚ) :=
          WithTop.coe_le_coe.mpr (le_of_lt hyx)
        rw [min_comm, min_eq_left hle]
      · split
        · next hxy =>
          simp only [headB]
          rw [min_eq_left (WithTop.coe_le_coe.mpr (le_of_lt hxy))]
        · next hnyx hnxy =>
          have : x = y := le_antisymm (not_lt.mp hnyx) (not_lt.mp hnxy)
          subst this
          simp [headB]

/-- The emitted domain ends of the walk: the merged boundaries shifted by
one, closed by `⊤`. -/
theorem walkTrace_hi :
    ∀ (PY : List (LinearPiece Y)) (PZ : List (LinearPiece Z)) (Ly Lz : List ℚ),
      PieceShape PY Ly → PieceShape PZ Lz →
      (walkTrace PY PZ).map (fun e => e.1.2) =
        ((mergeX Ly Lz).tail).map (fun v => ((v : ℚ) : WithTop ℚ)) ++
          (if mergeX Ly Lz = [] then [] else [⊤]) := by
  intro PY PZ
  unfold walkTrace
  induction PY, PZ using zipWalkL.induct
    ((fun lo hi ly lz => [((lo, hi), ly, lz)]) :
      WithBot ℚ → WithTop ℚ → Linear Y → Linear Z →
        List ((WithBot ℚ × WithTop ℚ) × Linear Y × Linear Z)) with
  | case1 x =>
    intro Ly Lz hy hz
    cases Ly <;> exact absurd hy (by simp [PieceShape])
  | case2 head tail =>
    intro Ly Lz hy hz
    cases Lz <;> exact absurd hz (by simp [PieceShape])
  | case3 py ys pz hlt =>
    intro Ly Lz hy hz
    obtain ⟨rfl, htop⟩ := pieceShape_single hz
    rw [htop] at hlt
    exact absurd hlt not_top_lt
  | case4 py ys pz hlt pz' zs' ih =>
    intro Ly Lz hy hz
    obtain ⟨v, Lz', rfl, hhi, hlo, hz'⟩ := pieceShape_cons_cons hz
    have hM : mergeX Ly (v :: Lz') = v :: mergeX Ly Lz' := by
      cases Ly with
      | nil => simp [mergeX]
      | cons w Ly' =>
        have hhiy := pieceShape_head_hi hy
        simp only [headB] at hhiy
        have hvw : v < w := by
          rw [hhi, hhiy] at hlt
          exact_mod_cast hlt
        rw [mergeX.eq_def]
        simp [if_pos hvw]
    rw [zipWalkL.eq_def]
    simp only [if_pos hlt, List.map_append, List.map_cons, List.map_nil, hM]
    rw [ih Ly Lz' hy hz']
    have hhead : min pz'.hi py.hi = headB (mergeX Ly Lz') := by
      rw [headB_mergeX, pieceShape_head_hi hz', pieceShape_head_hi hy, min_comm]
    cases hM' : mergeX Ly Lz' with
    | nil =>
      rw [hM'] at hhead
      simp only [headB] at hhead
      simp [hhead]
    | cons m M'' =>
      rw [hM'] at hhead
      simp only [headB] at hhead
      simp [hhead]
  | case5 py pz zs hnlt hlt =>
    intro Ly Lz hy hz
    obtain ⟨rfl, htop⟩ := pieceShape_single hy
    rw [htop] at hlt
    exact absurd hlt not_top_lt
  | case6 py pz zs hnlt hlt py' ys' ih =>
    intro Ly Lz hy hz
    obtain ⟨w, Ly', rfl, hhiy, hloy, hy'⟩ := pieceShape_cons_cons hy
    have hM : mergeX (w :: Ly') Lz = w :: mergeX Ly' Lz := by
      cases Lz with
      | nil => simp [mergeX, mergeX_nil_right]
      | cons u Lz' =>
        have hhiz := pieceShape_head_hi hz
        simp only [headB] at hhiz
        have hwu : w < u := by
          rw [hhiy, hhiz] at hlt
          exact_mod_cast hlt
        have hnuw : ¬ u < w := fun hc => absurd (lt_trans hc hwu) (lt_irrefl _)
        rw [mergeX.eq_def]
        simp [if_neg hnuw, if_pos hwu]
    rw [zipWalkL.eq_def]
    simp only [if_neg hnlt, if_pos hlt, List.map_append, List.map_cons, List.map_nil, hM]
    rw [ih Ly' Lz hy' hz]
    have hhead : min py'.hi pz.hi = headB (mergeX Ly' Lz) := by
      rw [headB_mergeX, pieceShape_head_hi hy', pieceShape_head_hi hz]
    cases hM' : mergeX Ly' Lz with
    | nil =>
      rw [hM'] at hhead
      simp only [headB] at hhead
      simp [hhead]
    | cons m M'' =>
      rw [hM'] at hhead
      simp only [headB] at hhead
      simp [hhead]
  | case7 py pz hnlt hnlt' py' ys' pz' zs' ih =>
    intro Ly Lz hy hz
    obtain ⟨w, Ly', rfl, hhiy, hloy, hy'⟩ := pieceShape_cons_cons hy
    obtain ⟨u, Lz', rfl, hhiz, hloz, hz'⟩ := pieceShape_cons_cons hz
    have heq : w = u := by
      have h1 : py.hi ≤ pz.hi := not_lt.mp hnlt
      have h2 : pz.hi ≤ py.hi := not_lt.mp hnlt'
      have := le_antisymm h1 h2
      rw [hhiy, hhiz] at this
      exact_mod_cast this
    subst heq
    have hM : mergeX (w :: Ly') (w :: Lz') = w :: mergeX Ly' Lz' := by
      rw [mergeX.eq_def]
      simp [lt_irrefl]
    rw [zipWalkL.eq_def]
    simp only [if_neg hnlt, if_neg hnlt', List.map_append, List.map_cons, List.map_nil, hM]
    rw [ih Ly' Lz' hy' hz']
    have hhead : min py'.hi pz'.hi = headB (mergeX Ly' Lz') := by
      rw [headB_mergeX, pieceShape_head_hi hy', pieceShape_head_hi hz']
    cases hM' : mergeX Ly' Lz' with
    | nil =>
      rw [hM'] at hhead
      simp only [headB] at hhead
      simp [hhead]
    | cons m M'' =>
      rw [hM'] at hhead
      simp only [headB] at hhead
      simp [hhead]
  | case8 py ys pz zs hnlt hnlt' hne =>
    intro Ly Lz hy hz
    cases ys with
    | nil =>
      obtain ⟨rfl, htop⟩ := pieceShape_single hy
      have hztop : pz.hi = ⊤ := by
        rw [htop] at hnlt
        exact top_le_iff.mp (not_lt.mp hnlt)
      cases Lz with
      | nil =>
        have hzs : zs = [] := by
          cases zs with
          | nil => rfl
          | cons b bs => exact absurd hz (by simp [PieceShape])
        subst hzs
        rw [zipWalkL.eq_def]
        simp [if_neg hnlt, if_neg hnlt', mergeX]
      | cons u Lz' =>
        cases zs with
        | nil => exact absurd hz (by simp [PieceShape])
        | cons b bs =>
          have hhiz := pieceShape_head_hi hz
          simp only [headB] at hhiz
          rw [hhiz] at hztop
          exact absurd hztop (by simp)
    | cons a as =>
      cases zs with
      | nil =>
        obtain ⟨rfl, htop⟩ := pieceShape_single hz
        obtain ⟨w, Ly', rfl, hhiy, _, _⟩ := pieceShape_cons_cons hy
        rw [htop, hhiy] at hnlt'
        exact absurd (WithTop.coe_lt_top w) hnlt'
      | cons b bs => exact absurd (hne a as b bs rfl rfl) (fun h => h)

theorem piecesAux_head_lo (q : ℚ × Y) (rest : List (ℚ × Y)) :
    ∃ pc tail, piecesAux q rest = pc :: tail ∧ pc.lo = ((q.1 : ℚ) : WithBot ℚ) := by
  cases rest with
  | nil => exact ⟨_, _, rfl, rfl⟩
  | cons n rest' => exact ⟨_, _, rfl, rfl⟩

theorem pieceShape_piecesAux (q : ℚ × Y) (rest : List (ℚ × Y)) :
    PieceShape (piecesAux q rest) (rest.map Prod.fst) := by
  induction rest generalizing q with
  | nil => exact rfl
  | cons n rest' ih =>
    obtain ⟨pc, tail, heq, hlo⟩ := piecesAux_head_lo n rest'
    simp only [piecesAux, List.map_cons, heq]
    exact ⟨rfl, hlo, heq ▸ ih n⟩

theorem pieceShape_piecesList (l : List (ℚ × Y)) (hne : l ≠ []) :
    PieceShape (piecesList l) (l.map Prod.fst) := by
  cases l with
  | nil => exact absurd rfl hne
  | cons p rest =>
    obtain ⟨pc, tail, heq, hlo⟩ := piecesAux_head_lo p rest
    simp only [piecesList, List.map_cons, heq]
    exact ⟨rfl, hlo, heq ▸ pieceShape_piecesAux p rest⟩

theorem flatTop_piecesAux (q : ℚ × Y) (rest : List (ℚ × Y)) :
    FlatTop (piecesAux q rest) := by
  induction rest generalizing q with
  | nil =>
    intro pc hpc htop
    simp only [piecesAux, List.mem_singleton] at hpc
    subst hpc
    rfl
  | cons n rest' ih =>
    intro pc hpc htop
    simp only [piecesAux, List.mem_cons] at hpc
    rcases hpc with rfl | hpc
    · exact absurd htop (by simp)
    · exact ih n pc hpc htop

theorem flatTop_piecesList (l : List (ℚ × Y)) : FlatTop (piecesList l) := by
  cases l with
  | nil => intro pc hpc; simp [piecesList] at hpc
  | cons p rest =>
    intro pc hpc htop
    simp only [piecesList, List.mem_cons] at hpc
    rcases hpc with rfl | hpc
    · exact absurd htop (by simp)
    · exact flatTop_piecesAux p rest pc hpc htop

theorem mergeX_nil_left (ys : List ℚ) : mergeX [] ys = ys := by
  rw [mergeX.eq_def]

theorem piecesAux_lo_ge : ∀ (rest : List (ℚ × Y)) (q : ℚ × Y), SortedX (q :: rest) →
    ∀ pc ∈ piecesAux q rest, ∃ t : ℚ, pc.lo = ((t : ℚ) : WithBot ℚ) ∧ q.1 ≤ t := by
  intro rest
  induction rest with
  | nil =>
    intro q _ pc hpc
    simp only [piecesAux, List.mem_singleton] at hpc
    subst hpc
    exact ⟨q.1, rfl, le_refl _⟩
  | cons m rest'' ih =>
    intro q hst pc hpc
    simp only [piecesAux, List.mem_cons] at hpc
    rcases hpc with rfl | hpc
    · exact ⟨q.1, rfl, le_refl _⟩
    · obtain ⟨t, hlo, hle⟩ := ih m (List.sorted_cons.mp hst).2 pc hpc
      refine ⟨t, hlo, ?_⟩
      exact le_trans
        (le_of_lt ((List.sorted_cons.mp hst).1 m (List.mem_cons_self m rest''))) hle

theorem piecesAgree_piecesList : ∀ (l : List (ℚ × Y)), SortedX l →
    PiecesAgree (PiecewiseLinear.evaluate ⟨l⟩) (piecesList l) := by
  intro l
  induction l with
  | nil => intro _ pc hpc; simp [piecesList] at hpc
  | cons p rest ih =>
    intro hst pc hpc x hxlo hxhi
    simp only [piecesList, List.mem_cons] at hpc
    rcases hpc with rfl | hpc
    · -- the initial constant piece: clamp below the first breakpoint
      simp only at hxhi
      have hx : x ≤ p.1 := by exact_mod_cast hxhi
      rw [Linear.constant_evaluate, evaluate_of_le_head p rest x hst hx]
    · -- a piece of `piecesAux p rest`
      cases rest with
      | nil =>
        simp only [piecesAux, List.mem_singleton] at hpc
        subst hpc
        simp only at hxlo
        have hx : p.1 ≤ x := by exact_mod_cast hxlo
        rw [Linear.constant_evaluate,
          evaluate_of_last_le [p] p x hst (List.getLast?_singleton p) hx]
      | cons n rest' =>
        simp only [piecesAux, List.mem_cons] at hpc
        rcases hpc with rfl | hpc
        · -- the chord from `p` to `n`
          simp only at hxlo hxhi
          have hx1 : p.1 ≤ x := by exact_mod_cast hxlo
          have hx2 : x ≤ n.1 := by exact_mod_cast hxhi
          exact (evaluate_between_head p n rest' x hst hx1 hx2).symm
        · -- a deeper piece: drop the head breakpoint
          have hst' : SortedX (n :: rest') := (List.sorted_cons.mp hst).2
          obtain ⟨t, hlot, hnt⟩ := piecesAux_lo_ge rest' n hst' pc hpc
          rw [hlot] at hxlo
          have htx : t ≤ x := by exact_mod_cast hxlo
          have hnx : n.1 ≤ x := le_trans hnt htx
          have hpx : p.1 ≤ x :=
            le_trans (le_of_lt ((List.sorted_cons.mp hst).1 n (List.mem_cons_self n rest'))) hnx
          rw [evaluate_cons_of_le p n rest' x hpx hnx]
          have hmem : pc ∈ piecesList (n :: rest') := by
            simp only [piecesList, List.mem_cons]
            exact Or.inr hpc
          exact ih hst' pc hmem x (hlot ▸ hxlo) hxhi

theorem mergeX_mem {a : ℚ} : ∀ {Ly Lz : List ℚ}, a ∈ mergeX Ly Lz → a ∈ Ly ∨ a ∈ Lz := by
  intro Ly Lz
  induction Ly, Lz using mergeX.induct with
  | case1 ys => intro h; rw [mergeX_nil_left] at h; exact Or.inr h
  | case2 x xs => intro h; rw [mergeX_nil_right] at h; exact Or.inl h
  | case3 x xs y ys hyx ih =>
    intro h
    rw [mergeX.eq_def] at h
    simp only [if_pos hyx, List.mem_cons] at h
    rcases h with rfl | h
    · exact Or.inr (List.mem_cons_self _ _)
    · rcases ih h with h | h
      · exact Or.inl h
      · exact Or.inr (List.mem_cons_of_mem _ h)
  | case4 x xs y ys hyx hxy ih =>
    intro h
    rw [mergeX.eq_def] at h
    simp only [if_neg hyx, if_pos hxy, List.mem_cons] at h
    rcases h with rfl | h
    · exact Or.inl (List.mem_cons_self _ _)
    · rcases ih h with h | h
      · exact Or.inl (List.mem_cons_of_mem _ h)
      · exact Or.inr h
  | case5 x xs y ys hyx hxy ih =>
    intro h
    rw [mergeX.eq_def] at h
    simp only [if_neg hyx, if_neg hxy, List.mem_cons] at h
    rcases h with rfl | h
    · exact Or.inl (List.mem_cons_self _ _)
    · rcases ih h with h | h
      · exact Or.inl (List.mem_cons_of_mem _ h)
      · exact Or.inr (List.mem_cons_of_mem _ h)

theorem mergeX_mem_left {a : ℚ} : ∀ {Ly Lz : List ℚ}, a ∈ Ly → a ∈ mergeX Ly Lz := by
  intro Ly Lz
  induction Ly, Lz using mergeX.induct with
  | case1 ys => intro h; simp at h
  | case2 x xs => intro h; rw [mergeX_nil_right]; exact h
  | case3 x xs y ys hyx ih =>
    intro h
    rw [mergeX.eq_def]
    simp only [if_pos hyx, List.mem_cons]
    exact Or.inr (ih h)
  | case4 x xs y ys hyx hxy ih =>
    intro h
    rw [mergeX.eq_def]
    simp only [if_neg hyx, if_pos hxy, List.mem_cons]
    rcases List.mem_cons.mp h with rfl | h
    · exact Or.inl rfl
    · exact Or.inr (ih h)
  | case5 x xs y ys hyx hxy ih =>
    intro h
    rw [mergeX.eq_def]
    simp only [if_neg hyx, if_neg hxy, List.mem_cons]
    rcases List.mem_cons.mp h with rfl | h
    · exact Or.inl rfl
    · exact Or.inr (ih h)

theorem mergeX_mem_right {a : ℚ} : ∀ {Ly Lz : List ℚ}, a ∈ Lz → a ∈ mergeX Ly Lz := by
  intro Ly Lz
  induction Ly, Lz using mergeX.induct with
  | case1 ys => intro h; rw [mergeX_nil_left]; exact h
  | case2 x xs => intro h; simp at h
  | case3 x xs y ys hyx ih =>
    intro h
    rw [mergeX.eq_def]
    simp only [if_pos hyx, List.mem_cons]
    rcases List.mem_cons.mp h with rfl | h
    · exact Or.inl rfl
    · exact Or.inr (ih h)
  | case4 x xs y ys hyx hxy ih =>
    intro h
    rw [mergeX.eq_def]
    simp only [if_neg hyx, if_pos hxy, List.mem_cons]
    exact Or.inr (ih h)
  | case5 x xs y ys hyx hxy ih =>
    intro h
    have hxyeq : x = y := le_antisymm (not_lt.mp hyx) (not_lt.mp hxy)
    rw [mergeX.eq_def]
    simp only [if_neg hyx, if_neg hxy, List.mem_cons]
    rcases List.mem_cons.mp h with rfl | h
    · exact Or.inl hxyeq.symm
    · exact Or.inr (ih h)

theorem mergeX_sorted : ∀ {Ly Lz : List ℚ}, Ly.Sorted (· < ·) → Lz.Sorted (· < ·) →
    (mergeX Ly Lz).Sorted (· < ·) := by
  intro Ly Lz
  induction Ly, Lz using mergeX.induct with
  | case1 ys => intro _ h; rw [mergeX_nil_left]; exact h
  | case2 x xs => intro h _; rw [mergeX_nil_right]; exact h
  | case3 x xs y ys hyx ih =>
    intro hy hz
    rw [mergeX.eq_def]
    simp only [if_pos hyx]
    refine List.sorted_cons.mpr ⟨?_, ih hy (List.sorted_cons.mp hz).2⟩
    intro b hb
    rcases mergeX_mem hb with hb | hb
    · rcases List.mem_cons.mp hb with rfl | hb
      · exact hyx
      · exact lt_trans hyx ((List.sorted_cons.mp hy).1 b hb)
    · exact (List.sorted_cons.mp hz).1 b hb
  | case4 x xs y ys hyx hxy ih =>
    intro hy hz
    rw [mergeX.eq_def]
    simp only [if_neg hyx, if_pos hxy]
    refine List.sorted_cons.mpr ⟨?_, ih (List.sorted_cons.mp hy).2 hz⟩
    intro b hb
    rcases mergeX_mem hb with hb | hb
    · exact (List.sorted_cons.mp hy).1 b hb
    · rcases List.mem_cons.mp hb with rfl | hb
      · exact hxy
      · exact lt_trans hxy ((List.sorted_cons.mp hz).1 b hb)
  | case5 x xs y ys hyx hxy ih =>
    intro hy hz
    have hxyeq : x = y := le_antisymm (not_lt.mp hyx) (not_lt.mp hxy)
    subst hxyeq
    rw [mergeX.eq_def]
    simp only [if_neg hyx, if_neg hxy]
    refine List.sorted_cons.mpr ⟨?_, ih (List.sorted_cons.mp hy).2 (List.sorted_cons.mp hz).2⟩
    intro b hb
    rcases mergeX_mem hb with hb | hb
    · exact (List.sorted_cons.mp hy).1 b hb
    · exact (List.sorted_cons.mp hz).1 b hb

theorem mergeX_length_le : ∀ (Ly Lz : List ℚ),
    (mergeX Ly Lz).length ≤ Ly.length + Lz.length := by
  intro Ly Lz
  induction Ly, Lz using mergeX.induct with
  | case1 ys => rw [mergeX_nil_left]; simp
  | case2 x xs => rw [mergeX_nil_right]; simp
  | case3 x xs y ys hyx ih =>
    rw [mergeX.eq_def]
    simp only [if_pos hyx, List.length_cons]
    simp only [List.length_cons] at ih ⊢
    omega
  | case4 x xs y ys hyx hxy ih =>
    rw [mergeX.eq_def]
    simp only [if_neg hyx, if_pos hxy, List.length_cons]
    simp only [List.length_cons] at ih ⊢
    omega
  | case5 x xs y ys hyx hxy ih =>
    rw [mergeX.eq_def]
    simp only [if_neg hyx, if_neg hxy, List.length_cons]
    omega

theorem mergeX_length_ge : ∀ (Ly Lz : List ℚ),
    Ly.length ≤ (mergeX Ly Lz).length ∧ Lz.length ≤ (mergeX Ly Lz).length := by
  intro Ly Lz
  induction Ly, Lz using mergeX.induct with
  | case1 ys => rw [mergeX_nil_left]; simp
  | case2 x xs => rw [mergeX_nil_right]; simp
  | case3 x xs y ys hyx ih =>
    rw [mergeX.eq_def]
    simp only [if_pos hyx, List.length_cons]
    simp only [List.length_cons] at ih ⊢
    omega
  | case4 x xs y ys hyx hxy ih =>
    rw [mergeX.eq_def]
    simp only [if_neg hyx, if_pos hxy, List.length_cons]
    simp only [List.length_cons] at ih ⊢
    omega
  | case5 x xs y ys hyx hxy ih =>
    rw [mergeX.eq_def]
    simp only [if_neg hyx, if_neg hxy, List.length_cons]
    omega

theorem chainLe_head_le_getLast : ∀ (xs : List ℚ) (x m : ℚ),
    (x :: xs).Chain' (· ≤ ·) → (x :: xs).getLast? = some m → x ≤ m := by
  intro xs
  induction xs with
  | nil =>
    intro x m _ hm
    simp only [List.getLast?_singleton, Option.some.injEq] at hm
    exact le_of_eq hm
  | cons y ys ih =>
    intro x m hc hm
    rw [List.getLast?_cons_cons] at hm
    exact le_trans (List.chain'_cons.mp hc).1 (ih y m (List.chain'_cons.mp hc).2 hm)

theorem mergeX_length_last_tie : ∀ (Ly Lz : List ℚ),
    Ly.Chain' (· ≤ ·) → Lz.Chain' (· ≤ ·) → Ly ≠ [] → Lz ≠ [] →
    Ly.getLast? = Lz.getLast? →
    (mergeX Ly Lz).length + 1 ≤ Ly.length + Lz.length := by
  intro Ly Lz
  induction Ly, Lz using mergeX.induct with
  | case1 ys => intro _ _ hne _ _; exact absurd rfl hne
  | case2 x xs => intro _ _ _ hne _; exact absurd rfl hne
  | case3 x xs y ys hyx ih =>
    intro hcy hcz _ _ hlast
    cases ys with
    | nil =>
      exfalso
      simp only [List.getLast?_singleton] at hlast
      have := chainLe_head_le_getLast xs x y hcy hlast
      exact absurd hyx (not_lt.mpr this)
    | cons y2 ys2 =>
      rw [mergeX.eq_def]
      simp only [if_pos hyx, List.length_cons]
      have hl : (x :: xs).getLast? = (y2 :: ys2).getLast? := by
        rw [hlast, List.getLast?_cons_cons]
      have := ih hcy (List.chain'_cons.mp hcz).2 (by simp) (by simp) hl
      simp only [List.length_cons] at this ⊢
      omega
  | case4 x xs y ys hyx hxy ih =>
    intro hcy hcz _ _ hlast
    cases xs with
    | nil =>
      exfalso
      simp only [List.getLast?_singleton] at hlast
      have := chainLe_head_le_getLast ys y x hcz hlast.symm
      exact absurd hxy (not_lt.mpr this)
    | cons x2 xs2 =>
      rw [mergeX.eq_def]
      simp only [if_neg hyx, if_pos hxy, List.length_cons]
      have hl : (x2 :: xs2).getLast? = (y :: ys).getLast? := by
        rw [← hlast, List.getLast?_cons_cons]
      have := ih (List.chain'_cons.mp hcy).2 hcz (by simp) (by simp) hl
      simp only [List.length_cons] at this ⊢
      omega
  | case5 x xs y ys hyx hxy ih =>
    intro _ _ _ _ _
    rw [mergeX.eq_def]
    simp only [if_neg hyx, if_neg hxy, List.length_cons]
    have := mergeX_length_le xs ys
    omega

theorem sorted_head_le_mem {L : List ℚ} (h : L.Sorted (· < ·)) {a h0 : ℚ}
    (hh : L.head? = some h0) (ha : a ∈ L) : h0 ≤ a := by
  cases L with
  | nil => simp at hh
  | cons x xs =>
    simp only [List.head?_cons, Option.some.injEq] at hh
    subst hh
    rcases List.mem_cons.mp ha with rfl | ha
    · exact le_refl _
    · exact le_of_lt ((List.sorted_cons.mp h).1 a ha)

theorem sorted_mem_le_getLast : ∀ (L : List ℚ), L.Sorted (· < ·) → ∀ {a m : ℚ},
    L.getLast? = some m → a ∈ L → a ≤ m := by
  intro L
  induction L with
  | nil => intro _ a m _ ha; simp at ha
  | cons x xs ih =>
    intro h a m hm ha
    cases xs with
    | nil =>
      simp only [List.getLast?_singleton, Option.some.injEq] at hm
      simp only [List.mem_singleton] at ha
      rw [ha, hm]
    | cons y ys =>
      rw [List.getLast?_cons_cons] at hm
      rcases List.mem_cons.mp ha with rfl | ha
      · have hym : y ≤ m :=
          ih (List.sorted_cons.mp h).2 hm (List.mem_cons_self y ys)
        exact le_trans (le_of_lt ((List.sorted_cons.mp h).1 y (List.mem_cons_self y ys))) hym
      · exact ih (List.sorted_cons.mp h).2 hm ha

theorem zip_flat_piece_map_eq_zipWalkL (a : PiecewiseLinear Y) (b : PiecewiseLinear Z)
    (f : WithBot ℚ → WithTop ℚ → Linear Y → Linear Z → List V) :
    a.zip_flat_piece_map b f = zipWalkL f (piecesList a.points) (piecesList b.points) := by
  have hfa : piecesFrom ((none : Option (ℚ × Y)), a.points) = piecesList a.points := rfl
  have hfb : piecesFrom ((none : Option (ℚ × Z)), b.points) = piecesList b.points := rfl
  show zipWalk f (iterNext (none, a.points)).1 (iterNext (none, a.points)).2
      (iterNext (none, b.points)).1 (iterNext (none, b.points)).2 = _
  rw [zipWalk_eq_zipWalkL]
  rcases hy : iterNext ((none : Option (ℚ × Y)), a.points) with ⟨oy, sty⟩
  rcases hz : iterNext ((none : Option (ℚ × Z)), b.points) with ⟨oz, stz⟩
  cases oy with
  | none =>
    have h0 : piecesList a.points = [] := by rw [← hfa]; exact piecesFrom_of_iterNext_none hy
    rw [h0, zipWalkL.eq_def]
  | some py =>
    have h1 : piecesList a.points = py :: piecesFrom sty := by
      rw [← hfa]; exact piecesFrom_of_iterNext_some hy
    cases oz with
    | none =>
      have h0 : piecesList b.points = [] := by rw [← hfb]; exact piecesFrom_of_iterNext_none hz
      rw [h0, h1, zipWalkL.eq_def]
    | some pz =>
      have h2 : piecesList b.points = pz :: piecesFrom stz := by
        rw [← hfb]; exact piecesFrom_of_iterNext_some hz
      rw [h1, h2]

theorem sortedX_map_fst {l : List (ℚ × Y)} (h : SortedX l) :
    (l.map Prod.fst).Sorted (· < ·) := by
  exact List.pairwise_map.mpr h

theorem sortedX_of_map_fst {l : List (ℚ × Y)} (h : (l.map Prod.fst).Sorted (· < ·)) :
    SortedX l := by
  exact List.pairwise_map.mp h

theorem chainLe_of_sorted_lt {L : List ℚ} (h : L.Sorted (· < ·)) : L.Chain' (· ≤ ·) :=
  List.Pairwise.chain' (h.imp le_of_lt)

theorem loLeHi_bot (hi : WithTop ℚ) : loLeHi (⊥ : WithBot ℚ) hi := by
  intro v w hv _
  exact absurd hv.symm (WithBot.coe_ne_bot)

theorem piecesList_head_lo {l : List (ℚ × Y)} {py : LinearPiece Y} {ys : List (LinearPiece Y)}
    (h : piecesList l = py :: ys) : py.lo = ⊥ := by
  cases l with
  | nil => simp [piecesList] at h
  | cons n rest =>
    simp only [piecesList, List.cons.injEq] at h
    rw [← h.1]

/-- Adjacency of consecutive walk steps: the emitted end of one step is the
emitted start of the next. -/
def TraceAdj (e e' : (WithBot ℚ × WithTop ℚ) × Linear Y × Linear Z) : Prop :=
  ∃ w : ℚ, e.1.2 = ((w : ℚ) : WithTop ℚ) ∧ e'.1.1 = ((w : ℚ) : WithBot ℚ)

theorem trace_shape :
    ∀ (T : List ((WithBot ℚ × WithTop ℚ) × Linear Y × Linear Z)) (M : List ℚ),
      T.map (fun e => e.1.1) = M.map (fun v => ((v : ℚ) : WithBot ℚ)) →
      T.map (fun e => e.1.2) = M.tail.map (fun v => ((v : ℚ) : WithTop ℚ)) ++
        (if M = [] then [] else [⊤]) →
      M.Chain' (· < ·) →
      T.Chain' TraceAdj ∧ (∀ e ∈ T.getLast?, e.1.2 = ⊤) ∧
        (∀ e ∈ T, ∀ v w : ℚ, e.1.1 = ((v : ℚ) : WithBot ℚ) →
          e.1.2 = ((w : ℚ) : WithTop ℚ) → v < w) := by
  intro T
  induction T with
  | nil =>
    intro M _ _ _
    refine ⟨List.chain'_nil, ?_, ?_⟩ <;> simp
  | cons e T' ih =>
    intro M hlo hhi hM
    cases M with
    | nil => simp at hlo
    | cons v M' =>
      simp only [List.map_cons, List.cons.injEq] at hlo
      have hloe : e.1.1 = ((v : ℚ) : WithBot ℚ) := hlo.1
      simp only [List.map_cons, List.tail_cons, if_neg (List.cons_ne_nil v M')] at hhi
      cases M' with
      | nil =>
        simp only [List.map_nil, List.nil_append, List.cons.injEq] at hhi
        have hT' : T' = [] := by
          have hlen := congrArg List.length hhi.2
          simp only [List.length_map, List.length_nil] at hlen
          exact List.eq_nil_of_length_eq_zero hlen
        subst hT'
        refine ⟨List.chain'_singleton e, ?_, ?_⟩
        · intro x hx
          simp only [List.getLast?_singleton, Option.mem_def, Option.some.injEq] at hx
          rw [← hx]; exact hhi.1
        · intro x hx v' w hv' hw'
          simp only [List.mem_singleton] at hx
          subst hx
          rw [hhi.1] at hw'
          exact absurd hw'.symm (by simp)
      | cons w M'' =>
        simp only [List.map_cons, List.cons_append, List.cons.injEq] at hhi
        have hhie : e.1.2 = ((w : ℚ) : WithTop ℚ) := hhi.1
        have hT'hi : T'.map (fun e => e.1.2) =
            M''.map (fun v => ((v : ℚ) : WithTop ℚ)) ++
              (if (w :: M'') = ([] : List ℚ) then [] else [⊤]) := by
          rw [if_neg (List.cons_ne_nil w M'')]
          exact hhi.2
        have hT'lo : T'.map (fun e => e.1.1) =
            (w :: M'').map (fun v => ((v : ℚ) : WithBot ℚ)) := hlo.2
        obtain ⟨hc', hl', hm'⟩ := ih (w :: M'') hT'lo hT'hi hM.tail
        have hT'ne : T' ≠ [] := by
          intro h0
          rw [h0] at hT'lo
          simp at hT'lo
        obtain ⟨e', T'', rfl⟩ := List.exists_cons_of_ne_nil hT'ne
        simp only [List.map_cons, List.cons.injEq] at hT'lo
        refine ⟨List.chain'_cons.mpr ⟨⟨w, hhie, hT'lo.1⟩, hc'⟩, ?_, ?_⟩
        · intro x hx
          rw [List.getLast?_cons_cons] at hx
          exact hl' x hx
        · intro x hx v' w' hv' hw'
          rcases List.mem_cons.mp hx with rfl | hx
          · rw [hloe] at hv'
            rw [hhie] at hw'
            have hv2 : v = v' := by exact_mod_cast hv'
            have hw2 : w = w' := by exact_mod_cast hw'
            subst hv2
            subst hw2
            exact (List.chain'_cons.mp hM).1
          · exact hm' x hx v' w' hv' hw'

/-- `g` is affine on the closed interval `[u, w]`. -/
def AffOn (g : ℚ → Y) (u w : ℚ) : Prop :=
  ∃ sl ic : Y, ∀ x : ℚ, u ≤ x → x ≤ w → g x = x • sl + ic

/-- A strictly sorted breakpoint list whose values sample `g` and with `g`
affine between consecutive breakpoints evaluates to `g` on the whole span. -/
theorem evaluate_nodes (g : ℚ → Y) :
    ∀ (Q : List (ℚ × Y)), Q ≠ [] → SortedX Q →
      (∀ p ∈ Q, p.2 = g p.1) → Q.Chain' (fun p q => AffOn g p.1 q.1) →
      ∀ x : ℚ, (∀ hd ∈ Q.head?, hd.1 ≤ x) → (∀ lst ∈ Q.getLast?, x ≤ lst.1) →
      PiecewiseLinear.evaluate ⟨Q⟩ x = g x := by
  intro Q
  induction Q with
  | nil => intro h; exact absurd rfl h
  | cons q1 rest ih =>
    intro _ hst hval hchain x hhd hlst
    cases rest with
    | nil =>
      have h1 : q1.1 ≤ x := hhd q1 rfl
      have h2 : x ≤ q1.1 := hlst q1 (List.getLast?_singleton q1)
      have hx : x = q1.1 := le_antisymm h2 h1
      rw [evaluate_singleton, hval q1 (List.mem_cons_self _ _), hx]
    | cons q2 rest' =>
      have hq1x : q1.1 ≤ x := hhd q1 rfl
      have h12 : q1.1 < q2.1 := (List.sorted_cons.mp hst).1 q2 (List.mem_cons_self q2 rest')
      by_cases hx2 : x ≤ q2.1
      · rw [evaluate_between_head q1 q2 rest' x hst hq1x hx2]
        obtain ⟨sl, ic, haff⟩ := (List.chain'_cons.mp hchain).1
        have hv1 : q1.2 = q1.1 • sl + ic := by
          rw [hval q1 (List.mem_cons_self _ _)]
          exact haff q1.1 (le_refl _) (le_of_lt h12)
        have hv2 : q2.2 = q2.1 • sl + ic := by
          rw [hval q2 (List.mem_cons_of_mem _ (List.mem_cons_self _ _))]
          exact haff q2.1 (le_of_lt h12) (le_refl _)
        rw [hv1, hv2, fit_of_affine sl ic h12 x]
        exact (haff x hq1x hx2).symm
      · push_neg at hx2
        rw [evaluate_cons_of_le q1 q2 rest' x hq1x (le_of_lt hx2)]
        refine ih (List.cons_ne_nil q2 rest') (List.sorted_cons.mp hst).2 ?_
          (List.chain'_cons.mp hchain).2 x ?_ ?_
        · intro p hp
          exact hval p (List.mem_cons_of_mem _ hp)
        · intro hd hhd'
          simp only [List.head?_cons, Option.mem_def, Option.some.injEq] at hhd'
          rw [← hhd']
          exact le_of_lt hx2
        · intro lst hlst'
          refine hlst lst ?_
          rw [List.getLast?_cons_cons]
          exact hlst'

variable [AddCommGroup W] [Module ℚ W]

/-- The emitted record group of one walk step is well-formed for target
function `g`: it starts at the step's domain start with value `g`, is
strictly ordered with `g` affine between records, stays below the step's
end (with `g` affine up to it), and is a single record on the final
unbounded step. -/
def GroupOK (g : ℚ → W) (Q : List (ℚ × W)) (v : ℚ) (hi : WithTop ℚ) : Prop :=
  (∃ tail, Q = (v, g v) :: tail) ∧ (∀ p ∈ Q, p.2 = g p.1) ∧
    Q.Chain' (fun p q => p.1 < q.1 ∧ AffOn g p.1 q.1) ∧
    (∀ w : ℚ, hi = ((w : ℚ) : WithTop ℚ) → ∀ p ∈ Q.getLast?, p.1 < w ∧ AffOn g p.1 w) ∧
    (hi = ⊤ → Q = [(v, g v)])

theorem flatMap_groups (g : ℚ → W)
    (emit : ((WithBot ℚ × WithTop ℚ) × Linear Y × Linear Z) → List (ℚ × W)) :
    ∀ (T : List ((WithBot ℚ × WithTop ℚ) × Linear Y × Linear Z)),
      (∀ e ∈ T, ∀ v : ℚ, e.1.1 = ((v : ℚ) : WithBot ℚ) → GroupOK g (emit e) v e.1.2) →
      (∀ e ∈ T, ∃ v : ℚ, e.1.1 = ((v : ℚ) : WithBot ℚ)) →
      T.Chain' TraceAdj →
      (∀ e ∈ T.getLast?, e.1.2 = ⊤) →
      (∀ p ∈ T.flatMap emit, p.2 = g p.1) ∧
      (T.flatMap emit).Chain' (fun p q => p.1 < q.1 ∧ AffOn g p.1 q.1) ∧
      (∀ e ∈ T.head?, ∀ v : ℚ, e.1.1 = ((v : ℚ) : WithBot ℚ) →
        (T.flatMap emit).head? = some (v, g v)) ∧
      (∀ e ∈ T.getLast?, ∀ v : ℚ, e.1.1 = ((v : ℚ) : WithBot ℚ) →
        (T.flatMap emit).getLast? = some (v, g v)) := by
  intro T
  induction T with
  | nil =>
    intro _ _ _ _
    refine ⟨?_, ?_, ?_, ?_⟩ <;> simp
  | cons e T' ih =>
    intro hgrp hex hchain hlast
    obtain ⟨v, hv⟩ := hex e (List.mem_cons_self _ _)
    obtain ⟨⟨tl, hQe⟩, hvalsE, hchainE, hlinkE, htopE⟩ := hgrp e (List.mem_cons_self _ _) v hv
    cases T' with
    | nil =>
      have htop : e.1.2 = ⊤ := hlast e (List.getLast?_singleton e)
      have hsing : emit e = [(v, g v)] := htopE htop
      simp only [List.flatMap_cons, List.flatMap_nil, List.append_nil, hsing]
      refine ⟨?_, ?_, ?_, ?_⟩
      · intro p hp
        simp only [List.mem_singleton] at hp
        subst hp
        rfl
      · exact List.chain'_singleton _
      · intro e0 he0 v' hv'
        simp only [List.head?_cons, Option.mem_def, Option.some.injEq] at he0
        subst he0
        rw [hv] at hv'
        have : v = v' := by exact_mod_cast hv'
        subst this
        rfl
      · intro e0 he0 v' hv'
        simp only [List.getLast?_singleton, Option.mem_def, Option.some.injEq] at he0
        subst he0
        rw [hv] at hv'
        have : v = v' := by exact_mod_cast hv'
        subst this
        rfl
    | cons e' T'' =>
      have hchain' := (List.chain'_cons.mp hchain).2
      have hadj : TraceAdj e e' := (List.chain'_cons.mp hchain).1
      obtain ⟨w, hw, hw'⟩ := hadj
      have hlast' : ∀ x ∈ (e' :: T'').getLast?, x.1.2 = ⊤ := by
        intro x hx
        refine hlast x ?_
        rw [List.getLast?_cons_cons]
        exact hx
      obtain ⟨ihvals, ihchain, ihhead, ihlast⟩ :=
        ih (fun x hx => hgrp x (List.mem_cons_of_mem _ hx))
          (fun x hx => hex x (List.mem_cons_of_mem _ hx)) hchain' hlast'
      have hQ'head : ((e' :: T'').flatMap emit).head? = some (w, g w) :=
        ihhead e' rfl w hw'
      have hQ'ne : (e' :: T'').flatMap emit ≠ [] := by
        intro h0
        rw [h0] at hQ'head
        simp at hQ'head
      simp only [List.flatMap_cons] at ihvals ihchain ihhead ihlast hQ'head hQ'ne ⊢
      refine ⟨?_, ?_, ?_, ?_⟩
      · intro p hp
        rcases List.mem_append.mp hp with hp | hp
        · exact hvalsE p hp
        · exact ihvals p hp
      · refine List.chain'_append.mpr ⟨hchainE, ihchain, ?_⟩
        intro p hp q hq
        rw [hQ'head] at hq
        simp only [Option.mem_def, Option.some.injEq] at hq
        subst hq
        exact hlinkE w hw p hp
      · intro e0 he0 v' hv'
        simp only [List.head?_cons, Option.mem_def, Option.some.injEq] at he0
        subst he0
        rw [hv] at hv'
        have hvv : v = v' := by exact_mod_cast hv'
        subst hvv
        rw [hQe, List.cons_append, List.head?_cons]
      · intro e0 he0 v' hv'
        rw [List.getLast?_cons_cons] at he0
        rw [List.getLast?_append_of_ne_nil _ hQ'ne]
        exact ihlast e0 he0 v' hv'

/-- Master evaluation lemma for the piece-merging walk: if each step's
emitted record group is well-formed for the target function `g`, then the
emitted breakpoint list samples `g`, is strictly sorted, spans exactly the
merged boundary list, and the function it defines evaluates to `g` inside
the merged span and to the clamped end samples outside it. -/
theorem walk_eval (a : PiecewiseLinear Y) (b : PiecewiseLinear Z)
    (f : WithBot ℚ → WithTop ℚ → Linear Y → Linear Z → List (ℚ × W)) (g : ℚ → W)
    (ha : SortedX a.points) (hb : SortedX b.points)
    (hna : a.points ≠ []) (hnb : b.points ≠ [])
    (hgrp : ∀ (lo : WithBot ℚ) (hi : WithTop ℚ) (ly : Linear Y) (lz : Linear Z) (v : ℚ),
      lo = ((v : ℚ) : WithBot ℚ) →
      (∀ x : ℚ, v ≤ x → ((x : ℚ) : WithTop ℚ) ≤ hi →
        ly.evaluate x = a.evaluate x ∧ lz.evaluate x = b.evaluate x) →
      (hi = ⊤ → ly.slope = 0 ∧ lz.slope = 0) →
      (∀ w : ℚ, hi = ((w : ℚ) : WithTop ℚ) → v < w) →
      GroupOK g (f lo hi ly lz) v hi) :
    (∀ p ∈ a.zip_flat_piece_map b f, p.2 = g p.1) ∧
    SortedX (a.zip_flat_piece_map b f) ∧
    ((a.zip_flat_piece_map b f).map Prod.fst).head? =
      (mergeX (a.points.map Prod.fst) (b.points.map Prod.fst)).head? ∧
    ((a.zip_flat_piece_map b f).map Prod.fst).getLast? =
      (mergeX (a.points.map Prod.fst) (b.points.map Prod.fst)).getLast? ∧
    (∀ (x h0 : ℚ), (mergeX (a.points.map Prod.fst) (b.points.map Prod.fst)).head? = some h0 →
      x ≤ h0 → PiecewiseLinear.evaluate ⟨a.zip_flat_piece_map b f⟩ x = g h0) ∧
    (∀ (x hl : ℚ), (mergeX (a.points.map Prod.fst) (b.points.map Prod.fst)).getLast? = some hl →
      hl ≤ x → PiecewiseLinear.evaluate ⟨a.zip_flat_piece_map b f⟩ x = g hl) ∧
    (∀ x : ℚ,
      (∀ h0 ∈ (mergeX (a.points.map Prod.fst) (b.points.map Prod.fst)).head?, h0 ≤ x) →
      (∀ hl ∈ (mergeX (a.points.map Prod.fst) (b.points.map Prod.fst)).getLast?, x ≤ hl) →
      PiecewiseLinear.evaluate ⟨a.zip_flat_piece_map b f⟩ x = g x) := by
  have hshY : PieceShape (piecesList a.points) (a.points.map Prod.fst) :=
    pieceShape_piecesList a.points hna
  have hshZ : PieceShape (piecesList b.points) (b.points.map Prod.fst) :=
    pieceShape_piecesList b.points hnb
  have hMs : (mergeX (a.points.map Prod.fst) (b.points.map Prod.fst)).Sorted (· < ·) :=
    mergeX_sorted (sortedX_map_fst ha) (sortedX_map_fst hb)
  have hloT := walkTrace_lo (piecesList a.points) (piecesList b.points) _ _ hshY hshZ
  have hhiT := walkTrace_hi (piecesList a.points) (piecesList b.points) _ _ hshY hshZ
  obtain ⟨hadjT, hlastT, hltT⟩ :=
    trace_shape (walkTrace (piecesList a.points) (piecesList b.points))
      (mergeX (a.points.map Prod.fst) (b.points.map Prod.fst)) hloT hhiT
      (List.Pairwise.chain' hMs)
  have hmemT := walkTrace_mem (PiecewiseLinear.evaluate a) (PiecewiseLinear.evaluate b)
    (piecesList a.points) (piecesList b.points) _ _ hshY hshZ
    (chainLe_of_sorted_lt (sortedX_map_fst ha)) (chainLe_of_sorted_lt (sortedX_map_fst hb))
    (piecesAgree_piecesList a.points ha) (piecesAgree_piecesList b.points hb)
    (flatTop_piecesList a.points) (flatTop_piecesList b.points)
    (fun py ys pz zs hpy hpz => by
      constructor
      · rw [piecesList_head_lo hpy]
        exact loLeHi_bot _
      · rw [piecesList_head_lo hpz]
        exact loLeHi_bot _)
  have hemit : ∀ e ∈ walkTrace (piecesList a.points) (piecesList b.points), ∀ v : ℚ,
      e.1.1 = ((v : ℚ) : WithBot ℚ) →
      GroupOK g (f e.1.1 e.1.2 e.2.1 e.2.2) v e.1.2 := by
    intro e he v hv
    obtain ⟨v', hlo', _, hagree', hflat'⟩ := hmemT e he
    have hvv : v = v' := by
      rw [hv] at hlo'
      exact_mod_cast hlo'
    subst hvv
    exact hgrp e.1.1 e.1.2 e.2.1 e.2.2 v hv hagree' hflat'
      (fun w hw => hltT e he v w hv hw)
  have hexv : ∀ e ∈ walkTrace (piecesList a.points) (piecesList b.points),
      ∃ v : ℚ, e.1.1 = ((v : ℚ) : WithBot ℚ) := by
    intro e he
    obtain ⟨v', hlo', _, _, _⟩ := hmemT e he
    exact ⟨v', hlo'⟩
  have hQe : a.zip_flat_piece_map b f =
      (walkTrace (piecesList a.points) (piecesList b.points)).flatMap
        (fun e => f e.1.1 e.1.2 e.2.1 e.2.2) := by
    rw [zip_flat_piece_map_eq_zipWalkL, zipWalkL_eq_flatMap]
  obtain ⟨hvals, hchain, hhead, hlast⟩ :=
    flatMap_groups g (fun e => f e.1.1 e.1.2 e.2.1 e.2.2)
      (walkTrace (piecesList a.points) (piecesList b.points)) hemit hexv hadjT hlastT
  rw [← hQe] at hvals hchain hhead hlast
  have hsorted : SortedX (a.zip_flat_piece_map b f) := by
    haveI : IsTrans (ℚ × W) (fun p q => p.1 < q.1) := ⟨fun p q r h1 h2 => lt_trans h1 h2⟩
    exact List.chain'_iff_pairwise.mp (hchain.imp (fun p q h => h.1))
  have hMne : mergeX (a.points.map Prod.fst) (b.points.map Prod.fst) ≠ [] := by
    intro h0
    have h1 := (mergeX_length_ge (a.points.map Prod.fst) (b.points.map Prod.fst)).1
    rw [h0] at h1
    simp only [List.length_nil, Nat.le_zero, List.length_map] at h1
    exact hna (List.eq_nil_of_length_eq_zero h1)
  have hTne : walkTrace (piecesList a.points) (piecesList b.points) ≠ [] := by
    intro h0
    have := congrArg List.length hloT
    rw [h0] at this
    simp only [List.map_nil, List.length_nil, List.length_map] at this
    exact hMne (List.eq_nil_of_length_eq_zero this.symm)
  obtain ⟨e0, T', hTeq⟩ := List.exists_cons_of_ne_nil hTne
  obtain ⟨v0, hv0⟩ := hexv e0 (by rw [hTeq]; exact List.mem_cons_self _ _)
  have hQhead : (a.zip_flat_piece_map b f).head? = some (v0, g v0) := by
    refine hhead e0 ?_ v0 hv0
    rw [hTeq]
    rfl
  have hMhead : (mergeX (a.points.map Prod.fst) (b.points.map Prod.fst)).head? = some v0 := by
    have h1 := congrArg List.head? hloT
    rw [hTeq] at h1
    simp only [List.head?_map, List.head?_cons, Option.map_some'] at h1
    rw [hv0] at h1
    cases hM : (mergeX (a.points.map Prod.fst) (b.points.map Prod.fst)).head? with
    | none =>
      rw [hM] at h1
      simp at h1
    | some m =>
      rw [hM] at h1
      simp only [Option.map_some', Option.some.injEq] at h1
      have : v0 = m := by exact_mod_cast h1
      rw [← this]
  obtain ⟨el, hel⟩ : ∃ el, (walkTrace (piecesList a.points)
      (piecesList b.points)).getLast? = some el := by
    cases hgl : (walkTrace (piecesList a.points) (piecesList b.points)).getLast? with
    | none => exact absurd (List.getLast?_eq_none_iff.mp hgl) hTne
    | some el => exact ⟨el, rfl⟩
  obtain ⟨vl, hvl⟩ := hexv el (List.mem_of_mem_getLast? hel)
  have hQlast : (a.zip_flat_piece_map b f).getLast? = some (vl, g vl) :=
    hlast el hel vl hvl
  have hMlast : (mergeX (a.points.map Prod.fst) (b.points.map Prod.fst)).getLast? =
      some vl := by
    have h1 := congrArg List.getLast? hloT
    simp only [List.getLast?_map, hel, Option.map_some'] at h1
    rw [hvl] at h1
    cases hM : (mergeX (a.points.map Prod.fst) (b.points.map Prod.fst)).getLast? with
    | none =>
      rw [hM] at h1
      simp at h1
    | some m =>
      rw [hM] at h1
      simp only [Option.map_some', Option.some.injEq] at h1
      have : vl = m := by exact_mod_cast h1
      rw [← this]
  have hQne : a.zip_flat_piece_map b f ≠ [] := by
    intro h0
    rw [h0] at hQhead
    simp at hQhead
  refine ⟨hvals, hsorted, ?_, ?_, ?_, ?_, ?_⟩
  · rw [List.head?_map, hQhead, hMhead]
    rfl
  · rw [List.getLast?_map, hQlast, hMlast]
    rfl
  · intro x h0 hM0 hxh0
    rw [hMhead, Option.some.injEq] at hM0
    subst hM0
    obtain ⟨q0, Q', hQeq⟩ := List.exists_cons_of_ne_nil hQne
    have hq0 : q0 = (v0, g v0) := by
      rw [hQeq, List.head?_cons, Option.some.injEq] at hQhead
      exact hQhead
    rw [hQeq]
    rw [hQeq] at hsorted
    have := evaluate_of_le_head q0 Q' x hsorted (by rw [hq0]; exact hxh0)
    rw [this, hq0]
  · intro x hl hMl hhlx
    rw [hMlast, Option.some.injEq] at hMl
    subst hMl
    have := evaluate_of_last_le (a.zip_flat_piece_map b f) (vl, g vl) x hsorted hQlast hhlx
    rw [this]
  · intro x hx0 hxl
    refine evaluate_nodes g (a.zip_flat_piece_map b f) hQne hsorted hvals
      (hchain.imp (fun p q h => h.2)) x ?_ ?_
    · intro hd hhd
      rw [hQhead] at hhd
      simp only [Option.mem_def, Option.some.injEq] at hhd
      rw [← hhd]
      exact hx0 v0 hMhead
    · intro lst hlst
      rw [hQlast] at hlst
      simp only [Option.mem_def, Option.some.injEq] at hlst
      rw [← hlst]
      exact hxl vl hMlast

theorem Linear.evaluate_eq (l : Linear ℚ) (t : ℚ) :
    l.evaluate t = t * l.slope + l.intercept := by
  simp [Linear.evaluate, smul_eq_mul]

theorem affine_nonneg_between (s c u w t : ℚ) (hu : 0 ≤ u * s + c) (hw : 0 ≤ w * s + c)
    (h1 : u ≤ t) (h2 : t ≤ w) : 0 ≤ t * s + c := by
  rcases eq_or_lt_of_le (le_trans h1 h2) with heq | hlt
  · have ht : t = u := le_antisymm (heq ▸ h2) h1
    rw [ht]
    exact hu
  · nlinarith [mul_nonneg (sub_nonneg.mpr h2) hu, mul_nonneg (sub_nonneg.mpr h1) hw]

theorem interior_root_neg (s c p q : ℚ) (hpq : p < q) (hp : 0 < p * s + c)
    (hq : q * s + c < 0) : ∃ r : ℚ, p < r ∧ r < q ∧ r * s + c = 0 := by
  have hs : s < 0 := by nlinarith
  have hsne : s ≠ 0 := ne_of_lt hs
  refine ⟨-c / s, ?_, ?_, by field_simp⟩
  · by_contra hcon
    push_neg at hcon
    have h2 := mul_le_mul_of_nonpos_right hcon (le_of_lt hs)
    rw [div_mul_cancel₀ (-c) hsne] at h2
    linarith
  · by_contra hcon
    push_neg at hcon
    have h2 := mul_le_mul_of_nonpos_right hcon (le_of_lt hs)
    rw [div_mul_cancel₀ (-c) hsne] at h2
    linarith

theorem interior_root_pos (s c p q : ℚ) (hpq : p < q) (hp : p * s + c < 0)
    (hq : 0 < q * s + c) : ∃ r : ℚ, p < r ∧ r < q ∧ r * s + c = 0 := by
  have hs : 0 < s := by nlinarith
  have hsne : s ≠ 0 := ne_of_gt hs
  refine ⟨-c / s, ?_, ?_, by field_simp⟩
  · by_contra hcon
    push_neg at hcon
    have h2 := mul_le_mul_of_nonneg_right hcon (le_of_lt hs)
    rw [div_mul_cancel₀ (-c) hsne] at h2
    linarith
  · by_contra hcon
    push_neg at hcon
    have h2 := mul_le_mul_of_nonneg_right hcon (le_of_lt hs)
    rw [div_mul_cancel₀ (-c) hsne] at h2
    linarith

theorem affine_no_root_sign (s c u w : ℚ) (huw : u ≤ w)
    (hnr : ∀ t : ℚ, u < t → t < w → t * s + c ≠ 0) :
    (∀ t : ℚ, u ≤ t → t ≤ w → 0 ≤ t * s + c) ∨
      (∀ t : ℚ, u ≤ t → t ≤ w → t * s + c ≤ 0) := by
  rcases le_or_lt 0 (u * s + c) with hdu | hdu
  · rcases le_or_lt 0 (w * s + c) with hdw | hdw
    · exact Or.inl (fun t ht1 ht2 => affine_nonneg_between s c u w t hdu hdw ht1 ht2)
    · rcases eq_or_lt_of_le hdu with hdu0 | hdupos
      · right
        intro t ht1 ht2
        by_contra hpos
        push_neg at hpos
        have htu : u < t := lt_of_le_of_ne ht1 (by rintro rfl; linarith)
        have htw : t < w := lt_of_le_of_ne ht2 (by rintro rfl; linarith)
        obtain ⟨r, hr1, hr2, hr0⟩ := interior_root_neg s c t w htw hpos hdw
        exact hnr r (lt_trans htu hr1) hr2 hr0
      · obtain ⟨r, hr1, hr2, hr0⟩ :=
          interior_root_neg s c u w (lt_of_le_of_ne huw (by rintro rfl; linarith)) hdupos hdw
        exact absurd hr0 (hnr r hr1 hr2)
  · rcases le_or_lt 0 (w * s + c) with hdw | hdw
    · rcases eq_or_lt_of_le hdw with hdw0 | hdwpos
      · right
        intro t ht1 ht2
        by_contra hpos
        push_neg at hpos
        have htu : u < t := lt_of_le_of_ne ht1 (by rintro rfl; linarith)
        have htw : t < w := lt_of_le_of_ne ht2 (by rintro rfl; linarith)
        obtain ⟨r, hr1, hr2, hr0⟩ := interior_root_pos s c u t htu (by linarith) hpos
        exact hnr r hr1 (lt_trans hr2 htw) hr0
      · obtain ⟨r, hr1, hr2, hr0⟩ :=
          interior_root_pos s c u w (lt_of_le_of_ne huw (by rintro rfl; linarith)) hdu hdwpos
        exact absurd hr0 (hnr r hr1 hr2)
    · right
      intro t ht1 ht2
      have h := affine_nonneg_between (-s) (-c) u w t (by linarith [hdu]; ) (by linarith [hdw]) ht1 ht2
      linarith [h]

theorem linear_sign_of_no_root (ly lz : Linear ℚ) (u w : ℚ) (huw : u ≤ w)
    (hnr : ∀ t : ℚ, u < t → t < w → ly.evaluate t ≠ lz.evaluate t) :
    (∀ t : ℚ, u ≤ t → t ≤ w → lz.evaluate t ≤ ly.evaluate t) ∨
      (∀ t : ℚ, u ≤ t → t ≤ w → ly.evaluate t ≤ lz.evaluate t) := by
  have h := affine_no_root_sign (ly.slope - lz.slope) (ly.intercept - lz.intercept) u w huw ?_
  · rcases h with h | h
    · left
      intro t ht1 ht2
      have h2 := h t ht1 ht2
      rw [Linear.evaluate_eq, Linear.evaluate_eq]
      nlinarith [h2]
    · right
      intro t ht1 ht2
      have h2 := h t ht1 ht2
      rw [Linear.evaluate_eq, Linear.evaluate_eq]
      nlinarith [h2]
  · intro t h1 h2 h0
    refine hnr t h1 h2 ?_
    rw [Linear.evaluate_eq, Linear.evaluate_eq]
    linear_combination h0

theorem linear_sign_of_eq_slope (ly lz : Linear ℚ) (u w : ℚ) (hs : ly.slope = lz.slope) :
    (∀ t : ℚ, u ≤ t → t ≤ w → lz.evaluate t ≤ ly.evaluate t) ∨
      (∀ t : ℚ, u ≤ t → t ≤ w → ly.evaluate t ≤ lz.evaluate t) := by
  rcases le_total lz.intercept ly.intercept with h | h
  · left
    intro t _ _
    rw [Linear.evaluate_eq, Linear.evaluate_eq, hs]
    linarith
  · right
    intro t _ _
    rw [Linear.evaluate_eq, Linear.evaluate_eq, hs]
    linarith

theorem linear_root_eq (ly lz : Linear ℚ) (t : ℚ) (hsne : ly.slope - lz.slope ≠ 0)
    (heq : ly.evaluate t = lz.evaluate t) :
    t = (lz.intercept - ly.intercept) / (ly.slope - lz.slope) := by
  rw [eq_div_iff hsne]
  rw [Linear.evaluate_eq, Linear.evaluate_eq] at heq
  linear_combination heq

theorem max_affOn (ly lz : Linear ℚ) (gy gz : ℚ → ℚ) (u w : ℚ)
    (hagy : ∀ t : ℚ, u ≤ t → t ≤ w → ly.evaluate t = gy t)
    (hagz : ∀ t : ℚ, u ≤ t → t ≤ w → lz.evaluate t = gz t)
    (hsign : (∀ t : ℚ, u ≤ t → t ≤ w → lz.evaluate t ≤ ly.evaluate t) ∨
      (∀ t : ℚ, u ≤ t → t ≤ w → ly.evaluate t ≤ lz.evaluate t)) :
    AffOn (fun t => max (gy t) (gz t)) u w := by
  rcases hsign with hs | hs
  · refine ⟨ly.slope, ly.intercept, ?_⟩
    intro t ht1 ht2
    show max (gy t) (gz t) = t • ly.slope + ly.intercept
    rw [← hagy t ht1 ht2, ← hagz t ht1 ht2, max_eq_left (hs t ht1 ht2)]
    simp [Linear.evaluate]
  · refine ⟨lz.slope, lz.intercept, ?_⟩
    intro t ht1 ht2
    show max (gy t) (gz t) = t • lz.slope + lz.intercept
    rw [← hagy t ht1 ht2, ← hagz t ht1 ht2, max_eq_right (hs t ht1 ht2)]
    simp [Linear.evaluate]

theorem zipWalkL_nil_left (f : WithBot ℚ → WithTop ℚ → Linear Y → Linear Z → List V)
    (PZ : List (LinearPiece Z)) : zipWalkL f [] PZ = [] := by
  rw [zipWalkL.eq_def]

theorem zipWalkL_nil_right (f : WithBot ℚ → WithTop ℚ → Linear Y → Linear Z → List V)
    (PY : List (LinearPiece Y)) : zipWalkL f PY [] = [] := by
  cases PY <;> rw [zipWalkL.eq_def]

/-- Order-only well-formedness of one step's emitted records. -/
def GroupOrd (Q : List (ℚ × W)) (v : ℚ) (hi : WithTop ℚ) : Prop :=
  (∃ val tail, Q = (v, val) :: tail) ∧ Q.Chain' (fun p q => p.1 < q.1) ∧
    (∀ w : ℚ, hi = ((w : ℚ) : WithTop ℚ) → ∀ p ∈ Q.getLast?, p.1 < w)

theorem flatMap_ord (emit : ((WithBot ℚ × WithTop ℚ) × Linear Y × Linear Z) → List (ℚ × W)) :
    ∀ (T : List ((WithBot ℚ × WithTop ℚ) × Linear Y × Linear Z)),
      (∀ e ∈ T, ∀ v : ℚ, e.1.1 = ((v : ℚ) : WithBot ℚ) → GroupOrd (emit e) v e.1.2) →
      (∀ e ∈ T, ∃ v : ℚ, e.1.1 = ((v : ℚ) : WithBot ℚ)) →
      T.Chain' TraceAdj →
      (T.flatMap emit).Chain' (fun p q => p.1 < q.1) ∧
      (∀ e ∈ T.head?, ∀ v : ℚ, e.1.1 = ((v : ℚ) : WithBot ℚ) →
        ∃ val, (T.flatMap emit).head? = some (v, val)) := by
  intro T
  induction T with
  | nil =>
    intro _ _ _
    exact ⟨List.chain'_nil, by simp⟩
  | cons e T' ih =>
    intro hgrp hex hchain
    obtain ⟨v, hv⟩ := hex e (List.mem_cons_self _ _)
    obtain ⟨⟨val, tl, hQe⟩, hchainE, hlinkE⟩ := hgrp e (List.mem_cons_self _ _) v hv
    obtain ⟨ihchain, ihhead⟩ :=
      ih (fun x hx => hgrp x (List.mem_cons_of_mem _ hx))
        (fun x hx => hex x (List.mem_cons_of_mem _ hx)) (List.chain'_cons'.mp hchain).2
    simp only [List.flatMap_cons]
    constructor
    · refine List.chain'_append.mpr ⟨hchainE, ihchain, ?_⟩
      intro p hp q hq
      cases T' with
      | nil => simp at hq
      | cons e' T'' =>
        obtain ⟨w, hw, hw'⟩ := (List.chain'_cons.mp hchain).1
        obtain ⟨val', hq'head⟩ := ihhead e' rfl w hw'
        rw [hq'head] at hq
        simp only [Option.mem_def, Option.some.injEq] at hq
        subst hq
        exact hlinkE w hw p hp
    · intro e0 he0 v' hv'
      simp only [List.head?_cons, Option.mem_def, Option.some.injEq] at he0
      subst he0
      rw [hv] at hv'
      have hvv : v = v' := by exact_mod_cast hv'
      subst hvv
      rw [hQe, List.cons_append, List.head?_cons]
      exact ⟨val, rfl⟩

/-- Order-only master lemma: if each step emits a strictly increasing record
group starting at the step's domain start and staying below its end, the
walk's full record list is strictly sorted by `x`. -/
theorem walk_sorted (a : PiecewiseLinear Y) (b : PiecewiseLinear Z)
    (f : WithBot ℚ → WithTop ℚ → Linear Y → Linear Z → List (ℚ × W))
    (ha : SortedX a.points) (hb : SortedX b.points)
    (hgrp : ∀ (lo : WithBot ℚ) (hi : WithTop ℚ) (ly : Linear Y) (lz : Linear Z) (v : ℚ),
      lo = ((v : ℚ) : WithBot ℚ) → (∀ w : ℚ, hi = ((w : ℚ) : WithTop ℚ) → v < w) →
      GroupOrd (f lo hi ly lz) v hi) :
    SortedX (a.zip_flat_piece_map b f) := by
  rw [zip_flat_piece_map_eq_zipWalkL]
  rcases eq_or_ne a.points [] with hae | hna
  · rw [hae]
    rw [show piecesList ([] : List (ℚ × Y)) = [] from rfl, zipWalkL_nil_left]
    exact List.sorted_nil
  rcases eq_or_ne b.points [] with hbe | hnb
  · rw [hbe]
    rw [show piecesList ([] : List (ℚ × Z)) = [] from rfl, zipWalkL_nil_right]
    exact List.sorted_nil
  have hshY : PieceShape (piecesList a.points) (a.points.map Prod.fst) :=
    pieceShape_piecesList a.points hna
  have hshZ : PieceShape (piecesList b.points) (b.points.map Prod.fst) :=
    pieceShape_piecesList b.points hnb
  have hMs : (mergeX (a.points.map Prod.fst) (b.points.map Prod.fst)).Sorted (· < ·) :=
    mergeX_sorted (sortedX_map_fst ha) (sortedX_map_fst hb)
  have hloT := walkTrace_lo (piecesList a.points) (piecesList b.points) _ _ hshY hshZ
  have hhiT := walkTrace_hi (piecesList a.points) (piecesList b.points) _ _ hshY hshZ
  obtain ⟨hadjT, _, hltT⟩ :=
    trace_shape (walkTrace (piecesList a.points) (piecesList b.points))
      (mergeX (a.points.map Prod.fst) (b.points.map Prod.fst)) hloT hhiT
      (List.Pairwise.chain' hMs)
  have hexv : ∀ e ∈ walkTrace (piecesList a.points) (piecesList b.points),
      ∃ v : ℚ, e.1.1 = ((v : ℚ) : WithBot ℚ) := by
    intro e he
    have hmem : e.1.1 ∈ (walkTrace (piecesList a.points) (piecesList b.points)).map
        (fun e => e.1.1) := List.mem_map_of_mem _ he
    rw [hloT] at hmem
    obtain ⟨v, _, hveq⟩ := List.mem_map.mp hmem
    exact ⟨v, hveq.symm⟩
  have hemit : ∀ e ∈ walkTrace (piecesList a.points) (piecesList b.points), ∀ v : ℚ,
      e.1.1 = ((v : ℚ) : WithBot ℚ) → GroupOrd (f e.1.1 e.1.2 e.2.1 e.2.2) v e.1.2 := by
    intro e he v hv
    exact hgrp e.1.1 e.1.2 e.2.1 e.2.2 v hv (fun w hw => hltT e he v w hv hw)
  obtain ⟨hchain, _⟩ :=
    flatMap_ord (fun e => f e.1.1 e.1.2 e.2.1 e.2.2)
      (walkTrace (piecesList a.points) (piecesList b.points)) hemit hexv hadjT
  rw [zipWalkL_eq_flatMap]
  haveI : IsTrans (ℚ × W) (fun p q => p.1 < q.1) := ⟨fun p q r h1 h2 => lt_trans h1 h2⟩
  exact List.chain'_iff_pairwise.mp hchain

theorem mergeX_cons_cons_tie (x : ℚ) (xs ys : List ℚ) :
    mergeX (x :: xs) (x :: ys) = x :: mergeX xs ys := by
  rw [mergeX.eq_def]
  simp [lt_irrefl]

theorem mergeX_sorted_le : ∀ {Ly Lz : List ℚ}, Ly.Sorted (· ≤ ·) → Lz.Sorted (· ≤ ·) →
    (mergeX Ly Lz).Sorted (· ≤ ·) := by
  intro Ly Lz
  induction Ly, Lz using mergeX.induct with
  | case1 ys => intro _ h; rw [mergeX_nil_left]; exact h
  | case2 x xs => intro h _; rw [mergeX_nil_right]; exact h
  | case3 x xs y ys hyx ih =>
    intro hy hz
    rw [mergeX.eq_def]
    simp only [if_pos hyx]
    refine List.sorted_cons.mpr ⟨?_, ih hy (List.sorted_cons.mp hz).2⟩
    intro b hb
    rcases mergeX_mem hb with hb | hb
    · rcases List.mem_cons.mp hb with rfl | hb
      · exact le_of_lt hyx
      · exact le_trans (le_of_lt hyx) ((List.sorted_cons.mp hy).1 b hb)
    · exact (List.sorted_cons.mp hz).1 b hb
  | case4 x xs y ys hyx hxy ih =>
    intro hy hz
    rw [mergeX.eq_def]
    simp only [if_neg hyx, if_pos hxy]
    refine List.sorted_cons.mpr ⟨?_, ih (List.sorted_cons.mp hy).2 hz⟩
    intro b hb
    rcases mergeX_mem hb with hb | hb
    · exact (List.sorted_cons.mp hy).1 b hb
    · rcases List.mem_cons.mp hb with rfl | hb
      · exact le_of_lt hxy
      · exact le_trans (le_of_lt hxy) ((List.sorted_cons.mp hz).1 b hb)
  | case5 x xs y ys hyx hxy ih =>
    intro hy hz
    have hxyeq : x = y := le_antisymm (not_lt.mp hyx) (not_lt.mp hxy)
    subst hxyeq
    rw [mergeX.eq_def]
    simp only [if_neg hyx, if_neg hxy]
    refine List.sorted_cons.mpr ⟨?_, ih (List.sorted_cons.mp hy).2 (List.sorted_cons.mp hz).2⟩
    intro b hb
    rcases mergeX_mem hb with hb | hb
    · exact (List.sorted_cons.mp hy).1 b hb
    · exact (List.sorted_cons.mp hz).1 b hb

theorem mergeX_ne_nil_left {Ly Lz : List ℚ} (h : Ly ≠ []) : mergeX Ly Lz ≠ [] := by
  intro h0
  have h1 := (mergeX_length_ge Ly Lz).1
  rw [h0] at h1
  simp only [List.length_nil, Nat.le_zero] at h1
  exact h (List.eq_nil_of_length_eq_zero h1)

theorem mergeX_getLast : ∀ (Ly Lz : List ℚ), Ly.Chain' (· ≤ ·) → Lz.Chain' (· ≤ ·) →
    ∀ {ay bz : ℚ}, Ly.getLast? = some ay → Lz.getLast? = some bz →
    (mergeX Ly Lz).getLast? = some (max ay bz) := by
  intro Ly Lz
  induction Ly, Lz using mergeX.induct with
  | case1 ys => intro _ _ ay bz hay _; simp at hay
  | case2 x xs => intro _ _ ay bz _ hbz; simp at hbz
  | case3 x xs y ys hyx ih =>
    intro hcy hcz ay bz hay hbz
    rw [mergeX.eq_def]
    simp only [if_pos hyx]
    cases ys with
    | nil =>
      simp only [List.getLast?_singleton, Option.some.injEq] at hbz
      rw [mergeX_nil_right]
      have hxay : x ≤ ay := chainLe_head_le_getLast xs x ay hcy hay
      have hmax : max ay bz = ay := max_eq_left (by rw [← hbz]; exact le_trans (le_of_lt hyx) hxay)
      rw [hmax]
      cases xs with
      | nil =>
        simp only [List.getLast?_singleton, Option.some.injEq] at hay
        rw [hay]
        rfl
      | cons x2 xs2 =>
        rw [List.getLast?_cons_cons]
        exact hay
    | cons y2 ys2 =>
      have hne : mergeX (x :: xs) (y2 :: ys2) ≠ [] := mergeX_ne_nil_left (by simp)
      obtain ⟨m1, M1, hM1⟩ := List.exists_cons_of_ne_nil hne
      rw [hM1, List.getLast?_cons_cons, ← hM1]
      rw [List.getLast?_cons_cons] at hbz
      exact ih hcy (List.chain'_cons.mp hcz).2 hay hbz
  | case4 x xs y ys hyx hxy ih =>
    intro hcy hcz ay bz hay hbz
    rw [mergeX.eq_def]
    simp only [if_neg hyx, if_pos hxy]
    cases xs with
    | nil =>
      simp only [List.getLast?_singleton, Option.some.injEq] at hay
      rw [mergeX_nil_left]
      have hybz : y ≤ bz := chainLe_head_le_getLast ys y bz hcz hbz
      have hmax : max ay bz = bz := max_eq_right (by rw [← hay]; exact le_trans (le_of_lt hxy) hybz)
      rw [hmax]
      cases ys with
      | nil =>
        simp only [List.getLast?_singleton, Option.some.injEq] at hbz
        rw [hbz]
        rfl
      | cons y2 ys2 =>
        rw [List.getLast?_cons_cons]
        exact hbz
    | cons x2 xs2 =>
      have hne : mergeX (x2 :: xs2) (y :: ys) ≠ [] := mergeX_ne_nil_left (by simp)
      obtain ⟨m1, M1, hM1⟩ := List.exists_cons_of_ne_nil hne
      rw [hM1, List.getLast?_cons_cons, ← hM1]
      rw [List.getLast?_cons_cons] at hay
      exact ih (List.chain'_cons.mp hcy).2 hcz hay hbz
  | case5 x xs y ys hyx hxy ih =>
    intro hcy hcz ay bz hay hbz
    have hxyeq : x = y := le_antisymm (not_lt.mp hyx) (not_lt.mp hxy)
    subst hxyeq
    rw [mergeX.eq_def]
    simp only [if_neg hyx, if_neg hxy]
    cases xs with
    | nil =>
      simp only [List.getLast?_singleton, Option.some.injEq] at hay
      rw [mergeX_nil_left]
      cases ys with
      | nil =>
        simp only [List.getLast?_singleton, Option.some.injEq] at hbz
        rw [← hay, ← hbz, max_self]
        rfl
      | cons y2 ys2 =>
        rw [List.getLast?_cons_cons] at hbz
        have hybz : y2 ≤ bz :=
          chainLe_head_le_getLast ys2 y2 bz (List.chain'_cons.mp hcz).2 hbz
        have hxy2 : x ≤ y2 := (List.chain'_cons.mp hcz).1
        have hmax : max ay bz = bz := max_eq_right (by rw [← hay]; exact le_trans hxy2 hybz)
        rw [hmax, List.getLast?_cons_cons]
        exact hbz
    | cons x2 xs2 =>
      cases ys with
      | nil =>
        simp only [List.getLast?_singleton, Option.some.injEq] at hbz
        rw [mergeX_nil_right]
        rw [List.getLast?_cons_cons] at hay
        have hxay : x2 ≤ ay :=
          chainLe_head_le_getLast xs2 x2 ay (List.chain'_cons.mp hcy).2 hay
        have hxx2 : x ≤ x2 := (List.chain'_cons.mp hcy).1
        have hmax : max ay bz = ay := max_eq_left (by rw [← hbz]; exact le_trans hxx2 hxay)
        rw [hmax, List.getLast?_cons_cons]
        exact hay
      | cons y2 ys2 =>
        have hne : mergeX (x2 :: xs2) (y2 :: ys2) ≠ [] := mergeX_ne_nil_left (by simp)
        obtain ⟨m1, M1, hM1⟩ := List.exists_cons_of_ne_nil hne
        rw [hM1, List.getLast?_cons_cons, ← hM1]
        rw [List.getLast?_cons_cons] at hay hbz
        exact ih (List.chain'_cons.mp hcy).2 (List.chain'_cons.mp hcz).2 hay hbz

theorem head?_of_headB {L : List ℚ} {v : ℚ} (h : headB L = ((v : ℚ) : WithTop ℚ)) :
    L.head? = some v := by
  cases L with
  | nil => exact absurd h.symm (by simp [headB])
  | cons x xs =>
    simp only [headB] at h
    have : x = v := by exact_mod_cast h
    rw [List.head?_cons, this]

theorem new_of_sortedXLe (pts : List (ℚ × Y)) (hne : pts ≠ []) (hs : SortedXLe pts) :
    PiecewiseLinear.new pts = some ⟨pts⟩ := by
  simp only [PiecewiseLinear.new, List.Sorted.insertionSort_eq hs]
  rw [if_neg]
  simp only [List.length_eq_zero]
  exact hne

theorem flatMap_singleton_map {α β : Type} (f : α → β) :
    ∀ l : List α, (l.flatMap fun x => [f x]) = l.map f := by
  intro l
  induction l with
  | nil => rfl
  | cons a l ih => simp only [List.flatMap_cons, ih, List.map_cons, List.singleton_append]

theorem length_flatMap_const {α β : Type} (g : α → List β) (k : ℕ)
    (hk : ∀ x, (g x).length = k) : ∀ l : List α, (l.flatMap g).length = k * l.length := by
  intro l
  induction l with
  | nil => simp
  | cons a l ih =>
    simp only [List.flatMap_cons, List.length_append, List.length_cons, ih, hk]
    ring

theorem zip_flat_piece_map_fst (a : PiecewiseLinear Y) (b : PiecewiseLinear Z)
    (f : WithBot ℚ → WithTop ℚ → Linear Y → Linear Z → List (ℚ × W))
    (hfst : ∀ lo hi ly lz, (f lo hi ly lz).map Prod.fst = [lo.unbot' 0])
    (hna : a.points ≠ []) (hnb : b.points ≠ []) :
    (a.zip_flat_piece_map b f).map Prod.fst =
      mergeX (a.points.map Prod.fst) (b.points.map Prod.fst) := by
  have hshY : PieceShape (piecesList a.points) (a.points.map Prod.fst) :=
    pieceShape_piecesList a.points hna
  have hshZ : PieceShape (piecesList b.points) (b.points.map Prod.fst) :=
    pieceShape_piecesList b.points hnb
  have hloT := walkTrace_lo (piecesList a.points) (piecesList b.points) _ _ hshY hshZ
  rw [zip_flat_piece_map_eq_zipWalkL, zipWalkL_eq_flatMap, List.map_flatMap]
  simp only [hfst]
  rw [flatMap_singleton_map (fun e : (WithBot ℚ × WithTop ℚ) × Linear Y × Linear Z =>
    (e.1.1).unbot' 0)]
  have h1 : (walkTrace (piecesList a.points) (piecesList b.points)).map
      (fun e => (e.1.1).unbot' 0) =
      ((walkTrace (piecesList a.points) (piecesList b.points)).map
        (fun e => e.1.1)).map (fun lo => lo.unbot' 0) := by
    rw [List.map_map]
    rfl
  rw [h1, hloT, List.map_map]
  have h2 : ((fun lo : WithBot ℚ => lo.unbot' 0) ∘ (fun v : ℚ => ((v : ℚ) : WithBot ℚ))) =
      id := by
    funext v
    simp [WithBot.unbot'_coe]
  rw [h2, List.map_id]

theorem new_getD_length (pts : List (ℚ × Y)) (hne : pts ≠ []) :
    ((PiecewiseLinear.new pts).getD ⟨[]⟩).points.length = pts.length := by
  simp only [PiecewiseLinear.new]
  rw [if_neg]
  · simp only [Option.getD_some, List.length_insertionSort]
  · simp only [List.length_insertionSort, List.length_eq_zero]
    exact hne

theorem new_getD_ne_nil (pts : List (ℚ × Y)) (hne : pts ≠ []) :
    ((PiecewiseLinear.new pts).getD ⟨[]⟩).points ≠ [] := by
  intro h0
  have := new_getD_length pts hne
  rw [h0] at this
  simp only [List.length_nil] at this
  exact hne (List.eq_nil_of_length_eq_zero this.symm)

end WalkLemmas

end PW

/-! ## Airbrush stroke generator: `src/engine/airbrush.rs`

The `Airbrush` tool's stroke logic is governed entirely by
`last_point : Option InputPoint`; pipeline, bind-group and buffer fields
carry no stroke logic and are dropped.  The square roots computed by the
source (`(p1 - p0).length()` and `pressure.sqrt()`) are not rational, so the
geometry phase takes them as arguments; the theorems constrain `length` by
`length² = ‖p1 - p0‖²` and `0 ≤ length`.
-/

namespace Airbrush

open PW PW.PiecewiseLinear

/-- `InputPoint` from airbrush.rs. -/
structure InputPoint where
  position : ℚ × ℚ
  pressure : ℚ
  color : ℚ × ℚ × ℚ
  size : ℚ
  opacity : ℚ
  rate : ℚ
deriving DecidableEq, Repr

/-- `Airbrush::start`: the body of the source function is empty, so the
retained point is untouched. -/
def start (s : Option InputPoint) : Option InputPoint := s

/-- `Airbrush::stop`: `self.last_point = None`. -/
def stop (_s : Option InputPoint) : Option InputPoint := none

/-- The spacing filter and state update of `Airbrush::drag`: whether a
drawable is produced (`true`) and the new retained point.  The source's
`self.last_point.replace(point)?` retains the point and returns `None` on
the very first point; a point closer than `min_spacing` returns `None`
without touching the state.  `0.05` is modelled as `1/20`. -/
def dragCoarse (s : Option InputPoint) (point : InputPoint) : Bool × Option InputPoint :=
  match s with
  | some last_point =>
    let point_size := point.size * point.pressure
    let last_point_size := last_point.size * last_point.pressure
    let min_spacing := (1 / 20 : ℚ) * (point_size + last_point_size)
    let delta_squared := (point.position.1 - last_point.position.1) ^ 2 +
      (point.position.2 - last_point.position.2) ^ 2
    if delta_squared < min_spacing ^ 2 then (false, some last_point)
    else (true, some point)
  | none => (false, some point)

/-- Rust `f32::clamp`. -/
def clampQ (x lo hi : ℚ) : ℚ := min (max x lo) hi

/-- The `blend` function of `Airbrush::drag` (distance along the segment ↦
interpolation factor), built from the endpoint radii `s0 = size₀·pressure₀`,
`s1 = size₁·pressure₁` and the segment length.  `shift_fraction` divides by
`length`, which is positive whenever the branch using it is reached with the
physical inputs of the theorems (`s0, s1 ≥ 0` and the spacing filter).  The
`.unwrap()` of the source never fails (both branches build non-empty lists);
`getD ⟨[]⟩` mirrors that. -/
def blendOf (s0 s1 length : ℚ) : PiecewiseLinear ℚ :=
  let shift_fraction := clampQ ((s0 - s1) / length) (-1) 1
  let b :=
    if s0 + s1 < length then
      PiecewiseLinear.new [(-s0, 0), (s0 * shift_fraction, 0),
        (length + s1 * shift_fraction, 1), (length + s1, 1)]
    else
      let b0b1 : ℚ × ℚ :=
        if length + s0 < s1 then (max (1 - length / (s1 - s0)) 0, 1)
        else if length + s1 < s0 then (0, min (length / (s0 - s1)) 1)
        else (0, 1)
      PiecewiseLinear.new [(0 - (s0 + b0b1.1 * (s1 - s0)), b0b1.1),
        (length + (s0 + b0b1.2 * (s1 - s0)), b0b1.2)]
  b.getD ⟨[]⟩

/-- The `u_start` texture ramp of `Airbrush::drag` (anchored at the trailing
cap, via the spec-modelled `last_inflection_point`). -/
def uStartOf (bl : PiecewiseLinear ℚ) (s0 s1 : ℚ) : PiecewiseLinear ℚ :=
  let db := bl.last_inflection_point
  let s := s0 + db.2 * (s1 - s0)
  (PiecewiseLinear.new [(db.1 - 2 * s, 0), (db.1, 1)]).getD ⟨[]⟩

/-- The `u_end` texture ramp of `Airbrush::drag` (anchored at the leading
cap, via the spec-modelled `first_inflection_point`). -/
def uEndOf (bl : PiecewiseLinear ℚ) (s0 s1 : ℚ) : PiecewiseLinear ℚ :=
  let db := bl.first_inflection_point
  let s := s0 + db.2 * (s1 - s0)
  (PiecewiseLinear.new [(db.1, 0), (db.1 + 2 * s, 1)]).getD ⟨[]⟩

/-- The `u_bounds` function of `Airbrush::drag`: `u_start.bilinear_map(u_end, vec2)`. -/
def uBoundsOf (s0 s1 length : ℚ) : PiecewiseLinear (ℚ × ℚ) :=
  let bl := blendOf s0 s1 length
  (uStartOf bl s0 s1).bilinear_map (uEndOf bl s0 s1) (fun y z => (y, z))

/-- The `events` list of `Airbrush::drag`: one record per merged breakpoint
of `blend` and `u_bounds`. -/
def eventsOf (s0 s1 length : ℚ) : List (ℚ × ℚ × (ℚ × ℚ)) :=
  (blendOf s0 s1 length).map_merged_inflection_points (uBoundsOf s0 s1 length)
    (fun distance b u_bounds => (distance, b, u_bounds))

/-- `VertexInput` from the airbrush shader interface (the fields written by
`Airbrush::drag`). -/
structure VertexInput where
  position : ℚ × ℚ
  u_bounds : ℚ × ℚ
  opacity : ℚ
  rate : ℚ
  width : ℚ
deriving DecidableEq, Repr

/-- The ribbon vertices of `Airbrush::drag`: one pair per event, offset
`± width` along the normal.  `o0 o1 r0 r1` are the endpoint opacities and
rates (`opacity·√pressure`, `rate·√pressure` in the source — irrational, so
taken as arguments); `tangent` falls back to the `x` axis on a zero
displacement, as `normalize_or(Vec2::X)` does. -/
def dragVertices (p0 p1 : ℚ × ℚ) (s0 s1 length o0 o1 r0 r1 : ℚ) : List VertexInput :=
  let tangent : ℚ × ℚ :=
    if p1 = p0 then (1, 0)
    else ((p1.1 - p0.1) / length, (p1.2 - p0.2) / length)
  let normal : ℚ × ℚ := (-tangent.2, tangent.1)
  (eventsOf s0 s1 length).flatMap (fun e =>
    let p : ℚ × ℚ := (p0.1 + e.1 * tangent.1, p0.2 + e.1 * tangent.2)
    let width := s0 + e.2.1 * (s1 - s0)
    let opacity := o0 + e.2.1 * (o1 - o0)
    let rate := r0 + e.2.1 * (r1 - r0)
    [⟨(p.1 - width * normal.1, p.2 - width * normal.2), e.2.2, opacity, rate, width⟩,
     ⟨(p.1 + width * normal.1, p.2 + width * normal.2), e.2.2, opacity, rate, width⟩])

end Airbrush

end Stark

namespace Stark

open Raster

/-- C1: the claim's concrete scenario does hold — `conservative_triangle
(0,0) (3,2) (5,-1)` contains the cells `(0,0)` and `(4,0)` — but the
zero-false-negative guarantee fails on a degenerate (collinear, vertical)
triangle: for the triangle `(1/2,10), (1/2,0), (1/2,5)` the point
`(1/2, 5/2)` lies in the triangle (on the segment it collapses to) and
strictly inside grid cell `(0,2)`, yet `(0,2)` is not among the returned
cells (the code returns only the cells `(0,4)` through `(0,10)`).  The spec
explicitly requires degenerate triangles to still enumerate the cells under
the collapsed line, so this is a bug in the code. -/
theorem C1_conservative_triangle_misses_cell_of_degenerate_triangle :
    ((0, 0) ∈ conservative_triangle (0, 0) (3, 2) (5, -1) ∧
      (4, 0) ∈ conservative_triangle (0, 0) (3, 2) (5, -1)) ∧
    memTriangle (1/2, 10) (1/2, 0) (1/2, 5) (1/2, 5/2) ∧
    memOpenCell 0 2 (1/2, 5/2) ∧
    (0, 2) ∉ conservative_triangle (1/2, 10) (1/2, 0) (1/2, 5) := by
  refine ⟨⟨by decide, by decide⟩, ⟨0, 1/2, 1/2, by norm_num⟩, ?_, by decide⟩
  constructor
  · norm_num [memOpenCell]
  · norm_num [memOpenCell]

open Tile in
/-- C4: the free list is LIFO — allocating right after a release returns
exactly the released index with the rest of the state unchanged — and in the
concrete scenario with `maxArrayLayers ≥ 4`, after three allocations from an
empty pool, releasing the first handle and allocating again returns exactly
the released `(block_index, layer_index)` pair. -/
theorem C4_free_list_is_lifo (maxLayers : ℕ) (h : 4 ≤ maxLayers) :
    (∀ (s : PoolState) (i : Tile.Index), allocate_index maxLayers (release s i) = (i, s)) ∧
    (let s0 : PoolState := ⟨[], []⟩
     let r1 := allocate_index maxLayers s0
     let r2 := allocate_index maxLayers r1.2
     let r3 := allocate_index maxLayers r2.2
     let r4 := allocate_index maxLayers (release r3.2 r1.1)
     r4.1 = r1.1 ∧ r1.1 = ⟨0, 0⟩) := by
  have h1 : min (2 ^ 0) maxLayers = 1 := by omega
  have h2 : min (2 ^ 1) maxLayers = 2 := by omega
  constructor
  · intro s i
    rfl
  · simp only [allocate_index, release, List.length_nil, Nat.min_self, h1, h2,
      List.range_zero, List.range_succ, List.map_nil, List.map_append, List.map_cons,
      List.reverse_nil, List.nil_append, List.reverse_cons, List.append_nil,
      List.length_cons, List.length_singleton]
    exact ⟨trivial, trivial⟩

open Tile in
/-- C4 witness: the LIFO theorem applied at the concrete device limit 4. -/
theorem C4_free_list_is_lifo_witness :
    4 ≤ 4 ∧
    ((∀ (s : PoolState) (i : Tile.Index), allocate_index 4 (release s i) = (i, s)) ∧
     (let s0 : PoolState := ⟨[], []⟩
      let r1 := allocate_index 4 s0
      let r2 := allocate_index 4 r1.2
      let r3 := allocate_index 4 r2.2
      let r4 := allocate_index 4 (release r3.2 r1.1)
      r4.1 = r1.1 ∧ r1.1 = ⟨0, 0⟩)) :=
  ⟨le_refl 4, C4_free_list_is_lifo 4 (le_refl 4)⟩

open Tile in
/-- C5: with an empty free list, allocation creates one new block of capacity
`min (2 ^ blockIndex) maxLayers` (for any real device limit, i.e. one at most
`2 ^ 31`, the source's shift guard is invisible), leaves layers
`1 … capacity-1` on the free list (highest on top), and returns layer 0 — and
the concrete growth scenario holds: the first allocation creates block 0 of
size 1 with no spare, the second creates block 1 of size 2, returns `(1,0)`
and leaves `(1,1)` on the free list, and the third returns `(1,1)` without
creating a new block. -/
theorem C5_pool_growth (maxLayers : ℕ) (hL : 0 < maxLayers) (hcap : maxLayers ≤ 2 ^ 31) :
    (∀ s : PoolState, s.free_list = [] →
      allocate_index maxLayers s =
        (⟨s.blocks.length, 0⟩,
         ⟨s.blocks ++ [min (2 ^ s.blocks.length) maxLayers],
          ((List.range (min (2 ^ s.blocks.length) maxLayers - 1)).map
            (fun k => Index.mk s.blocks.length (k + 1))).reverse⟩)) ∧
    (2 ≤ maxLayers →
      (let s0 : PoolState := ⟨[], []⟩
       let r1 := allocate_index maxLayers s0
       let r2 := allocate_index maxLayers r1.2
       let r3 := allocate_index maxLayers r2.2
       r1 = (⟨0, 0⟩, ⟨[1], []⟩) ∧
       r2 = (⟨1, 0⟩, ⟨[1, 2], [⟨1, 1⟩]⟩) ∧
       r3 = (⟨1, 1⟩, ⟨[1, 2], []⟩))) := by
  constructor
  · intro s hs
    have hpow : min (2 ^ min s.blocks.length 31) maxLayers = min (2 ^ s.blocks.length) maxLayers := by
      rcases Nat.le_total s.blocks.length 31 with h | h
      · rw [Nat.min_eq_left h]
      · rw [Nat.min_eq_right h]
        have h31 : maxLayers ≤ 2 ^ 31 := hcap
        have hbig : (2 : ℕ) ^ 31 ≤ 2 ^ s.blocks.length := Nat.pow_le_pow_right (by norm_num) h
        omega
    simp only [allocate_index, hs, hpow]
  · intro hge2
    have e0 : min (0:ℕ) 31 = 0 := rfl
    have e1 : min (1:ℕ) 31 = 1 := rfl
    have h1 : min (2 ^ min (0:ℕ) 31) maxLayers = 1 := by rw [e0, pow_zero]; omega
    have h2' : min (2 ^ min (1:ℕ) 31) maxLayers = 2 := by rw [e1, pow_one]; omega
    simp only [allocate_index, List.length_nil, h1, h2',
      List.range_zero, List.range_succ, List.map_nil, List.map_append, List.map_cons,
      List.reverse_nil, List.nil_append, List.reverse_cons, List.append_nil,
      List.length_cons, List.length_singleton]
    exact ⟨rfl, rfl, rfl⟩

open Tile in
/-- C5 witness: the growth theorem applied at the concrete device limit 4. -/
theorem C5_pool_growth_witness :
    (0 < 4 ∧ 4 ≤ 2 ^ 31 ∧ 2 ≤ 4) ∧
    ((∀ s : PoolState, s.free_list = [] →
      allocate_index 4 s =
        (⟨s.blocks.length, 0⟩,
         ⟨s.blocks ++ [min (2 ^ s.blocks.length) 4],
          ((List.range (min (2 ^ s.blocks.length) 4 - 1)).map
            (fun k => Index.mk s.blocks.length (k + 1))).reverse⟩)) ∧
     (2 ≤ 4 →
      (let s0 : PoolState := ⟨[], []⟩
       let r1 := allocate_index 4 s0
       let r2 := allocate_index 4 r1.2
       let r3 := allocate_index 4 r2.2
       r1 = (⟨0, 0⟩, ⟨[1], []⟩) ∧
       r2 = (⟨1, 0⟩, ⟨[1, 2], [⟨1, 1⟩]⟩) ∧
       r3 = (⟨1, 1⟩, ⟨[1, 2], []⟩)))) :=
  ⟨⟨by norm_num, by norm_num, by norm_num⟩, C5_pool_growth 4 (by norm_num) (by norm_num)⟩

open PW PW.PiecewiseLinear in
/-- C10: for every piecewise-linear function satisfying the data-model
invariant (non-empty, strictly x-sorted breakpoints), `evaluate` is clamped
below the first and above the last breakpoint, interpolates linearly between
consecutive breakpoints, and the concrete scenario
`new [(0,1),(2,3)]` evaluates to `1` at `-5`, `2` at `1` and `3` at `5`. -/
theorem C10_evaluate_clamps_and_interpolates (a : PiecewiseLinear ℚ)
    (hne : a.points ≠ []) (hst : SortedX a.points) :
    (∀ p₁ : ℚ × ℚ, a.points.head? = some p₁ → ∀ x, x ≤ p₁.1 →
      a.evaluate x = a.evaluate p₁.1) ∧
    (∀ pm : ℚ × ℚ, a.points.getLast? = some pm → ∀ x, pm.1 ≤ x →
      a.evaluate x = a.evaluate pm.1) ∧
    (∀ (i : ℕ) (u w : ℚ × ℚ), a.points.get? i = some u → a.points.get? (i + 1) = some w →
      ∀ x, u.1 ≤ x → x ≤ w.1 →
        a.evaluate x = u.2 + ((x - u.1) / (w.1 - u.1)) * (w.2 - u.2)) ∧
    ((PiecewiseLinear.new [((0 : ℚ), (1 : ℚ)), (2, 3)]).map
        (fun b => (b.evaluate (-5), b.evaluate 1, b.evaluate 5)) = some (1, 2, 3)) := by
  obtain ⟨pts⟩ := a
  refine ⟨?_, ?_, ?_, by decide⟩
  · intro p₁ hp x hx
    cases pts with
    | nil => simp at hp
    | cons p rest =>
      simp only [List.head?_cons, Option.some.injEq] at hp
      subst hp
      rw [evaluate_of_le_head p rest x hst hx, evaluate_of_le_head p rest p.1 hst (le_refl _)]
  · intro pm hp x hx
    rw [evaluate_of_last_le pts pm x hst hp hx,
      evaluate_of_last_le pts pm pm.1 hst hp (le_refl _)]
  · intro i u w hu hw x hx1 hx2
    have huw : u.1 < w.1 := by
      obtain ⟨hi, hgu⟩ := List.get?_eq_some.mp hu
      obtain ⟨hj, hgw⟩ := List.get?_eq_some.mp hw
      have := (List.pairwise_iff_get.mp hst) ⟨i, hi⟩ ⟨i + 1, hj⟩ (by simp)
      rw [hgu, hgw] at this
      exact this
    rw [evaluate_between i pts u w x hst hu hw hx1 hx2, fit_eval_interp u.2 w.2 huw x,
      smul_eq_mul]

open PW PW.PiecewiseLinear in
/-- C10 witness: the clamping and interpolation theorem applied to the
concrete two-breakpoint function of the claim. -/
theorem C10_evaluate_clamps_and_interpolates_witness :
    ((⟨[(0, 1), (2, 3)]⟩ : PiecewiseLinear ℚ).points ≠ [] ∧
      SortedX (⟨[(0, 1), (2, 3)]⟩ : PiecewiseLinear ℚ).points) ∧
    ((∀ p₁ : ℚ × ℚ, (⟨[(0, 1), (2, 3)]⟩ : PiecewiseLinear ℚ).points.head? = some p₁ →
        ∀ x, x ≤ p₁.1 →
        (⟨[(0, 1), (2, 3)]⟩ : PiecewiseLinear ℚ).evaluate x =
          (⟨[(0, 1), (2, 3)]⟩ : PiecewiseLinear ℚ).evaluate p₁.1) ∧
     (∀ pm : ℚ × ℚ, (⟨[(0, 1), (2, 3)]⟩ : PiecewiseLinear ℚ).points.getLast? = some pm →
        ∀ x, pm.1 ≤ x →
        (⟨[(0, 1), (2, 3)]⟩ : PiecewiseLinear ℚ).evaluate x =
          (⟨[(0, 1), (2, 3)]⟩ : PiecewiseLinear ℚ).evaluate pm.1) ∧
     (∀ (i : ℕ) (u w : ℚ × ℚ),
        (⟨[(0, 1), (2, 3)]⟩ : PiecewiseLinear ℚ).points.get? i = some u →
        (⟨[(0, 1), (2, 3)]⟩ : PiecewiseLinear ℚ).points.get? (i + 1) = some w →
        ∀ x, u.1 ≤ x → x ≤ w.1 →
        (⟨[(0, 1), (2, 3)]⟩ : PiecewiseLinear ℚ).evaluate x =
          u.2 + ((x - u.1) / (w.1 - u.1)) * (w.2 - u.2)) ∧
     ((PiecewiseLinear.new [((0 : ℚ), (1 : ℚ)), (2, 3)]).map
        (fun b => (b.evaluate (-5), b.evaluate 1, b.evaluate 5)) = some (1, 2, 3))) :=
  ⟨⟨by decide, by unfold SortedX; decide⟩,
    C10_evaluate_clamps_and_interpolates ⟨[(0, 1), (2, 3)]⟩ (by decide)
      (by unfold SortedX; decide)⟩

open Airbrush in
/-- C2 counterexample: `start()` does not clear the retained point (its body
is empty).  With a retained point and a far next point, the drag after
`start()` does not behave like a first point: the state still holds a point
and the drag produces a drawable instead of retaining-and-returning-none. -/
theorem C2_start_does_not_clear_counterexample :
    start (some ⟨(0, 0), 1, (0, 0, 0), 1, 1, 1⟩) ≠ none ∧
    (dragCoarse (start (some ⟨(0, 0), 1, (0, 0, 0), 1, 1, 1⟩))
      ⟨(10, 0), 1, (0, 0, 0), 1, 1, 1⟩).1 = true := by
  constructor
  · decide
  · decide

open Airbrush in
/-- C2 amended: `start()` is a no-op that leaves the retained point exactly
as it was; `stop()` clears the retained point, so the first `drag` after
`stop()` retains the new point and returns no drawable. -/
theorem C2_stop_clears_start_is_noop :
    (∀ s : Option InputPoint, start s = s) ∧
    (∀ s : Option InputPoint, stop s = none) ∧
    (∀ (s : Option InputPoint) (p : InputPoint),
      dragCoarse (stop s) p = (false, some p)) :=
  ⟨fun _ => rfl, fun _ => rfl, fun _ _ => rfl⟩

open Airbrush in
/-- C3: `drag` with no retained point always returns none while retaining the
point; and with a retained point, when the squared displacement is below the
squared minimum spacing (`0.05` times the sum of the two effective radii
`size·pressure`), it returns none and leaves the state exactly unchanged. -/
theorem C3_drag_spacing_filter :
    (∀ p : InputPoint, dragCoarse none p = (false, some p)) ∧
    (∀ lp p : InputPoint,
      (p.position.1 - lp.position.1) ^ 2 + (p.position.2 - lp.position.2) ^ 2 <
        ((1 / 20 : ℚ) * (p.size * p.pressure + lp.size * lp.pressure)) ^ 2 →
      dragCoarse (some lp) p = (false, some lp)) := by
  constructor
  · intro p
    rfl
  · intro lp p h
    simp only [dragCoarse, if_pos h]

open Airbrush in
/-- C3 witness: the filter theorem applied to a concrete sub-threshold pair. -/
theorem C3_drag_spacing_filter_witness :
    (((1 / 100 : ℚ) - 0) ^ 2 + ((0 : ℚ) - 0) ^ 2 <
      ((1 / 20 : ℚ) * (1 * 1 + 1 * 1)) ^ 2) ∧
    dragCoarse (some ⟨(0, 0), 1, (0, 0, 0), 1, 1, 1⟩)
        ⟨(1 / 100, 0), 1, (0, 0, 0), 1, 1, 1⟩ =
      (false, some ⟨(0, 0), 1, (0, 0, 0), 1, 1, 1⟩) :=
  ⟨by norm_num,
    C3_drag_spacing_filter.2 ⟨(0, 0), 1, (0, 0, 0), 1, 1, 1⟩
      ⟨(1 / 100, 0), 1, (0, 0, 0), 1, 1, 1⟩ (by norm_num)⟩


open PW PW.PiecewiseLinear in
/-- C7 (corrected): `bilinear_map` does not agree with an arbitrary combiner
`f` pointwise — it samples `f` only at the merged breakpoints and
interpolates linearly in between (see `C7_bilinear_map_counterexample` for a
multiplicative combiner refuting the claim as stated).  The agreement does
hold for every affine combiner `f(y, z) = α·y + β·z + γ`: for strictly
sorted non-empty inputs and every `x` inside both functions' breakpoint
domains, `(a.bilinear_map b f).evaluate x = f (a.evaluate x) (b.evaluate x)`. -/
theorem C7_bilinear_map_affine_agreement (a b : PW.PiecewiseLinear ℚ) (α β γ : ℚ)
    (ha : PW.SortedX a.points) (hb : PW.SortedX b.points)
    (hna : a.points ≠ []) (hnb : b.points ≠ []) (x : ℚ)
    (hax : ∀ p ∈ a.points.head?, p.1 ≤ x) (hbx : ∀ p ∈ b.points.head?, p.1 ≤ x)
    (hxa : ∀ p ∈ a.points.getLast?, x ≤ p.1) (hxb : ∀ p ∈ b.points.getLast?, x ≤ p.1) :
    (a.bilinear_map b (fun y z => α * y + β * z + γ)).evaluate x =
      α * a.evaluate x + β * b.evaluate x + γ := by
  have hmain := PW.walk_eval a b
    (fun lo _hi ly lz =>
      let t := lo.unbot' 0
      [(t, (fun y z => α * y + β * z + γ) (ly.evaluate t) (lz.evaluate t))])
    (fun t => α * a.evaluate t + β * b.evaluate t + γ) ha hb hna hnb ?_
  · have hbm : a.bilinear_map b (fun y z => α * y + β * z + γ) =
        ⟨a.zip_flat_piece_map b (fun lo _hi ly lz =>
          let t := lo.unbot' 0
          [(t, (fun y z => α * y + β * z + γ) (ly.evaluate t) (lz.evaluate t))])⟩ := rfl
    rw [hbm]
    refine hmain.2.2.2.2.2.2 x ?_ ?_
    · -- the merged head is below x: it is below a's first breakpoint
      intro h0 hh0
      obtain ⟨pa, restA, hAeq⟩ := List.exists_cons_of_ne_nil hna
      have hpa1 : pa.1 ∈ mergeX (a.points.map Prod.fst) (b.points.map Prod.fst) :=
        PW.mergeX_mem_left (by rw [hAeq]; exact List.mem_cons_self _ _)
      have hMs : (mergeX (a.points.map Prod.fst) (b.points.map Prod.fst)).Sorted (· < ·) :=
        PW.mergeX_sorted (PW.sortedX_map_fst ha) (PW.sortedX_map_fst hb)
      refine le_trans (PW.sorted_head_le_mem hMs hh0 hpa1) ?_
      refine hax pa ?_
      rw [hAeq]
      rfl
    · -- x is below the merged last: it is above a's last breakpoint
      intro hl hhl
      obtain ⟨pl, hpl⟩ : ∃ pl, a.points.getLast? = some pl := by
        cases hgl : a.points.getLast? with
        | none => exact absurd (List.getLast?_eq_none_iff.mp hgl) hna
        | some pl => exact ⟨pl, rfl⟩
      have hpl1 : pl.1 ∈ mergeX (a.points.map Prod.fst) (b.points.map Prod.fst) :=
        PW.mergeX_mem_left (List.mem_map_of_mem Prod.fst (List.mem_of_mem_getLast? hpl))
      have hMs : (mergeX (a.points.map Prod.fst) (b.points.map Prod.fst)).Sorted (· < ·) :=
        PW.mergeX_sorted (PW.sortedX_map_fst ha) (PW.sortedX_map_fst hb)
      exact le_trans (hxa pl hpl) (PW.sorted_mem_le_getLast _ hMs hhl hpl1)
  · -- each step emits one well-formed record
    intro lo hi ly lz v hv hag hflat hlt
    have hcoevhi : ((v : ℚ) : WithTop ℚ) ≤ hi := by
      cases hi with
      | top => exact le_top
      | coe w => exact WithTop.coe_le_coe.mpr (le_of_lt (hlt w rfl))
    obtain ⟨hyv, hzv⟩ := hag v (le_refl v) hcoevhi
    have hQ : (fun (lo : WithBot ℚ) (_hi : WithTop ℚ) (ly lz : PW.Linear ℚ) =>
        let t := lo.unbot' 0
        [(t, (fun y z => α * y + β * z + γ) (ly.evaluate t) (lz.evaluate t))]) lo hi ly lz =
        [(v, α * a.evaluate v + β * b.evaluate v + γ)] := by
      show (let t := lo.unbot' 0
        [(t, (fun y z => α * y + β * z + γ) (ly.evaluate t) (lz.evaluate t))]) = _
      rw [hv]
      simp only [WithBot.unbot'_coe]
      rw [hyv, hzv]
    refine ⟨⟨[], hQ⟩, ?_, ?_, ?_, fun _ => hQ⟩
    · intro p hp
      rw [hQ] at hp
      simp only [List.mem_singleton] at hp
      subst hp
      rfl
    · rw [hQ]
      exact List.chain'_singleton _
    · intro w hw p hp
      rw [hQ] at hp
      simp only [List.getLast?_singleton, Option.mem_def, Option.some.injEq] at hp
      subst hp
      refine ⟨hlt w hw, α * ly.slope + β * lz.slope,
        α * ly.intercept + β * lz.intercept + γ, ?_⟩
      intro t ht1 ht2
      obtain ⟨hyt, hzt⟩ := hag t ht1 (by rw [hw]; exact_mod_cast ht2)
      show α * a.evaluate t + β * b.evaluate t + γ =
        t • (α * ly.slope + β * lz.slope) + (α * ly.intercept + β * lz.intercept + γ)
      rw [← hyt, ← hzt]
      simp only [PW.Linear.evaluate, smul_eq_mul]
      ring

open PW PW.PiecewiseLinear in
/-- C7 counterexample: with the multiplicative combiner `f(y, z) = y·z` and
`a = b` the identity-like ramp through `(0,0)` and `(2,2)`, the merged
function evaluates to `2` at `x = 1` (inside both domains) while
`f(a(1), b(1)) = 1·1 = 1`, refuting pointwise agreement for arbitrary
combiners. -/
theorem C7_bilinear_map_counterexample :
    ((⟨[((0 : ℚ), (0 : ℚ)), (2, 2)]⟩ : PiecewiseLinear ℚ).points.head? = some (0, 0) ∧
      (⟨[((0 : ℚ), (0 : ℚ)), (2, 2)]⟩ : PiecewiseLinear ℚ).points.getLast? = some (2, 2) ∧
      (0 : ℚ) ≤ 1 ∧ (1 : ℚ) ≤ 2) ∧
    ¬ (((⟨[((0 : ℚ), (0 : ℚ)), (2, 2)]⟩ : PiecewiseLinear ℚ).bilinear_map
          ⟨[(0, 0), (2, 2)]⟩ (fun y z => y * z)).evaluate 1 =
        (⟨[((0 : ℚ), (0 : ℚ)), (2, 2)]⟩ : PiecewiseLinear ℚ).evaluate 1 *
          (⟨[((0 : ℚ), (0 : ℚ)), (2, 2)]⟩ : PiecewiseLinear ℚ).evaluate 1) := by
  constructor
  · exact ⟨rfl, rfl, by norm_num, by norm_num⟩
  · intro h
    have hpts : ((⟨[((0 : ℚ), (0 : ℚ)), (2, 2)]⟩ : PiecewiseLinear ℚ).bilinear_map
        ⟨[(0, 0), (2, 2)]⟩ (fun y z => y * z)).points = [((0 : ℚ), (0 : ℚ)), (2, 4)] := by
      show PiecewiseLinear.zip_flat_piece_map _ _ _ = _
      rw [PW.zip_flat_piece_map_eq_zipWalkL]
      simp only [piecesList, piecesAux]
      rw [PW.zipWalkL.eq_def]
      norm_num [PW.Linear.fit, PW.Linear.constant, PW.Linear.evaluate]
      rw [PW.zipWalkL.eq_def]
      norm_num
      rw [PW.zipWalkL.eq_def]
      norm_num
      decide
    have heq : ((⟨[((0 : ℚ), (0 : ℚ)), (2, 2)]⟩ : PiecewiseLinear ℚ).bilinear_map
        ⟨[(0, 0), (2, 2)]⟩ (fun y z => y * z)) = ⟨[((0 : ℚ), (0 : ℚ)), (2, 4)]⟩ := by
      rw [← hpts]
    rw [heq] at h
    exact absurd h (by decide)

open PW PW.PiecewiseLinear in
/-- C7 witness: the affine-agreement theorem applied to two concrete ramps,
the combiner `2y + 3z + 1` and the interior point `x = 1`. -/
theorem C7_bilinear_map_affine_agreement_witness :
    (PW.SortedX (⟨[((0 : ℚ), (0 : ℚ)), (2, 2)]⟩ : PiecewiseLinear ℚ).points ∧
      PW.SortedX (⟨[((0 : ℚ), (1 : ℚ)), (2, 3)]⟩ : PiecewiseLinear ℚ).points) ∧
    ((⟨[((0 : ℚ), (0 : ℚ)), (2, 2)]⟩ : PiecewiseLinear ℚ).bilinear_map
        ⟨[((0 : ℚ), (1 : ℚ)), (2, 3)]⟩ (fun y z => 2 * y + 3 * z + 1)).evaluate 1 =
      2 * (⟨[((0 : ℚ), (0 : ℚ)), (2, 2)]⟩ : PiecewiseLinear ℚ).evaluate 1 +
        3 * (⟨[((0 : ℚ), (1 : ℚ)), (2, 3)]⟩ : PiecewiseLinear ℚ).evaluate 1 + 1 := by
  constructor
  · constructor
    · unfold PW.SortedX
      decide
    · unfold PW.SortedX
      decide
  · refine C7_bilinear_map_affine_agreement ⟨[(0, 0), (2, 2)]⟩ ⟨[(0, 1), (2, 3)]⟩ 2 3 1
      (by unfold PW.SortedX; decide) (by unfold PW.SortedX; decide)
      (by decide) (by decide) 1 ?_ ?_ ?_ ?_ <;>
    · intro p hp
      simp only [List.head?_cons, List.getLast?_cons_cons, List.getLast?_singleton,
        Option.mem_def, Option.some.injEq] at hp
      rw [← hp]
      norm_num


open PW PW.PiecewiseLinear in
/-- C6: `pointwise_max` agrees with the pointwise maximum everywhere (exact
over ℚ, idealizing f32): for strictly sorted non-empty inputs,
`(pointwise_max a b).evaluate x = max (a.evaluate x) (b.evaluate x)` for
every `x`, including crossing points — the inserted breakpoint at the
intersection of the two affine extensions makes the interpolated maximum
exact inside intervals where the order swaps. -/
theorem C6_pointwise_max_agreement (a b : PW.PiecewiseLinear ℚ)
    (ha : PW.SortedX a.points) (hb : PW.SortedX b.points)
    (hna : a.points ≠ []) (hnb : b.points ≠ []) (x : ℚ) :
    (PW.PiecewiseLinear.pointwise_max a b).evaluate x =
      max (a.evaluate x) (b.evaluate x) := by
  have hmain := PW.walk_eval a b
    (fun lo hi ly lz =>
      let t := lo.unbot' 0
      let y := ly.evaluate t
      let z := lz.evaluate t
      let slope_diff := ly.slope - lz.slope
      let intercept_difference := lz.intercept - ly.intercept
      let xc := intercept_difference / slope_diff
      let intersection_point : List (ℚ × ℚ) :=
        if slope_diff ≠ 0 ∧ lo < ((xc : ℚ) : WithBot ℚ) ∧ ((xc : ℚ) : WithTop ℚ) < hi then
          [(xc, max (ly.evaluate xc) (lz.evaluate xc))]
        else []
      (t, max y z) :: intersection_point)
    (fun t => max (a.evaluate t) (b.evaluate t)) ha hb hna hnb ?_
  · have hpm : PW.PiecewiseLinear.pointwise_max a b =
        ⟨a.zip_flat_piece_map b (fun lo hi ly lz =>
          let t := lo.unbot' 0
          let y := ly.evaluate t
          let z := lz.evaluate t
          let slope_diff := ly.slope - lz.slope
          let intercept_difference := lz.intercept - ly.intercept
          let xc := intercept_difference / slope_diff
          let intersection_point : List (ℚ × ℚ) :=
            if slope_diff ≠ 0 ∧ lo < ((xc : ℚ) : WithBot ℚ) ∧
                ((xc : ℚ) : WithTop ℚ) < hi then
              [(xc, max (ly.evaluate xc) (lz.evaluate xc))]
            else []
          (t, max y z) :: intersection_point)⟩ := rfl
    have hMs : (mergeX (a.points.map Prod.fst) (b.points.map Prod.fst)).Sorted (· < ·) :=
      PW.mergeX_sorted (PW.sortedX_map_fst ha) (PW.sortedX_map_fst hb)
    have hMne : mergeX (a.points.map Prod.fst) (b.points.map Prod.fst) ≠ [] := by
      intro h0
      have h1 := (PW.mergeX_length_ge (a.points.map Prod.fst) (b.points.map Prod.fst)).1
      rw [h0] at h1
      simp only [List.length_nil, Nat.le_zero, List.length_map] at h1
      exact hna (List.eq_nil_of_length_eq_zero h1)
    obtain ⟨m0, hm0⟩ : ∃ m0, (mergeX (a.points.map Prod.fst)
        (b.points.map Prod.fst)).head? = some m0 := by
      cases hM : (mergeX (a.points.map Prod.fst) (b.points.map Prod.fst)) with
      | nil => exact absurd hM hMne
      | cons m M' => exact ⟨m, rfl⟩
    obtain ⟨ml, hml⟩ : ∃ ml, (mergeX (a.points.map Prod.fst)
        (b.points.map Prod.fst)).getLast? = some ml := by
      cases hM : (mergeX (a.points.map Prod.fst) (b.points.map Prod.fst)).getLast? with
      | none => exact absurd (List.getLast?_eq_none_iff.mp hM) hMne
      | some m => exact ⟨m, rfl⟩
    rcases lt_or_le x m0 with hx0 | hx0
    · -- below the merged span: both inputs are clamped to their first values
      rw [hpm, hmain.2.2.2.2.1 x m0 hm0 (le_of_lt hx0)]
      obtain ⟨pa, restA, hAeq⟩ := List.exists_cons_of_ne_nil hna
      obtain ⟨pb, restB, hBeq⟩ := List.exists_cons_of_ne_nil hnb
      have hm0a : m0 ≤ pa.1 :=
        PW.sorted_head_le_mem hMs hm0
          (PW.mergeX_mem_left (by rw [hAeq]; exact List.mem_cons_self _ _))
      have hm0b : m0 ≤ pb.1 :=
        PW.sorted_head_le_mem hMs hm0
          (PW.mergeX_mem_right (by rw [hBeq]; exact List.mem_cons_self _ _))
      have haconst : ∀ t : ℚ, t ≤ m0 → a.evaluate t = pa.2 := by
        intro t ht
        have h := PW.evaluate_of_le_head pa restA t (hAeq ▸ ha) (le_trans ht hm0a)
        rw [← hAeq] at h
        exact h
      have hbconst : ∀ t : ℚ, t ≤ m0 → b.evaluate t = pb.2 := by
        intro t ht
        have h := PW.evaluate_of_le_head pb restB t (hBeq ▸ hb) (le_trans ht hm0b)
        rw [← hBeq] at h
        exact h
      show max (a.evaluate m0) (b.evaluate m0) = max (a.evaluate x) (b.evaluate x)
      rw [haconst m0 (le_refl m0), hbconst m0 (le_refl m0),
        ← haconst x (le_of_lt hx0), ← hbconst x (le_of_lt hx0)]
    · rcases le_or_lt x ml with hxl | hxl
      · -- inside the merged span: the interior agreement
        rw [hpm]
        refine hmain.2.2.2.2.2.2 x ?_ ?_
        · intro h0 hh0
          rw [hm0, Option.mem_def, Option.some.injEq] at hh0
          rw [← hh0]
          exact hx0
        · intro hl hhl
          rw [hml, Option.mem_def, Option.some.injEq] at hhl
          rw [← hhl]
          exact hxl
      · -- above the merged span: both inputs are clamped to their last values
        rw [hpm, hmain.2.2.2.2.2.1 x ml hml (le_of_lt hxl)]
        obtain ⟨pla, hpla⟩ : ∃ pla, a.points.getLast? = some pla := by
          cases hgl : a.points.getLast? with
          | none => exact absurd (List.getLast?_eq_none_iff.mp hgl) hna
          | some pla => exact ⟨pla, rfl⟩
        obtain ⟨plb, hplb⟩ : ∃ plb, b.points.getLast? = some plb := by
          cases hgl : b.points.getLast? with
          | none => exact absurd (List.getLast?_eq_none_iff.mp hgl) hnb
          | some plb => exact ⟨plb, rfl⟩
        have hmla : pla.1 ≤ ml :=
          PW.sorted_mem_le_getLast _ hMs hml
            (PW.mergeX_mem_left (List.mem_map_of_mem Prod.fst (List.mem_of_mem_getLast? hpla)))
        have hmlb : plb.1 ≤ ml :=
          PW.sorted_mem_le_getLast _ hMs hml
            (PW.mergeX_mem_right (List.mem_map_of_mem Prod.fst (List.mem_of_mem_getLast? hplb)))
        have haconst : ∀ t : ℚ, ml ≤ t → a.evaluate t = pla.2 := by
          intro t ht
          exact PW.evaluate_of_last_le a.points pla t ha hpla (le_trans hmla ht)
        have hbconst : ∀ t : ℚ, ml ≤ t → b.evaluate t = plb.2 := by
          intro t ht
          exact PW.evaluate_of_last_le b.points plb t hb hplb (le_trans hmlb ht)
        show max (a.evaluate ml) (b.evaluate ml) = max (a.evaluate x) (b.evaluate x)
        rw [haconst ml (le_refl ml), hbconst ml (le_refl ml),
          ← haconst x (le_of_lt hxl), ← hbconst x (le_of_lt hxl)]
  · -- each step emits a well-formed group: the start sample plus (possibly)
    -- the crossing sample
    intro lo hi ly lz v hv hag hflat hlt
    subst hv
    have hcoevhi : ((v : ℚ) : WithTop ℚ) ≤ hi := by
      cases hi with
      | top => exact le_top
      | coe w => exact WithTop.coe_le_coe.mpr (le_of_lt (hlt w rfl))
    obtain ⟨hyv, hzv⟩ := hag v (le_refl v) hcoevhi
    have hv0 : max (ly.evaluate v) (lz.evaluate v) = max (a.evaluate v) (b.evaluate v) := by
      rw [hyv, hzv]
    have hbeta : (fun (lo : WithBot ℚ) (hi : WithTop ℚ) (ly lz : PW.Linear ℚ) =>
        let t := lo.unbot' 0
        let y := ly.evaluate t
        let z := lz.evaluate t
        let slope_diff := ly.slope - lz.slope
        let intercept_difference := lz.intercept - ly.intercept
        let xc := intercept_difference / slope_diff
        let intersection_point : List (ℚ × ℚ) :=
          if slope_diff ≠ 0 ∧ lo < ((xc : ℚ) : WithBot ℚ) ∧ ((xc : ℚ) : WithTop ℚ) < hi then
            [(xc, max (ly.evaluate xc) (lz.evaluate xc))]
          else []
        (t, max y z) :: intersection_point) (((v : ℚ) : WithBot ℚ)) hi ly lz =
        (v, max (ly.evaluate v) (lz.evaluate v)) ::
          (if ly.slope - lz.slope ≠ 0 ∧
              (((v : ℚ) : WithBot ℚ)) <
                ((((lz.intercept - ly.intercept) / (ly.slope - lz.slope) : ℚ)) : WithBot ℚ) ∧
              ((((lz.intercept - ly.intercept) / (ly.slope - lz.slope) : ℚ)) : WithTop ℚ) < hi
            then [((lz.intercept - ly.intercept) / (ly.slope - lz.slope),
              max (ly.evaluate ((lz.intercept - ly.intercept) / (ly.slope - lz.slope)))
                (lz.evaluate ((lz.intercept - ly.intercept) / (ly.slope - lz.slope))))]
            else []) := by
      simp only [WithBot.unbot'_coe]
    rw [hbeta]
    by_cases hgd : (ly.slope - lz.slope ≠ 0 ∧
        (((v : ℚ) : WithBot ℚ)) <
          ((((lz.intercept - ly.intercept) / (ly.slope - lz.slope) : ℚ)) : WithBot ℚ) ∧
        ((((lz.intercept - ly.intercept) / (ly.slope - lz.slope) : ℚ)) : WithTop ℚ) < hi)
    · rw [if_pos hgd]
      obtain ⟨hsne, hvxclt, hxchi⟩ := hgd
      have hvxc : v < (lz.intercept - ly.intercept) / (ly.slope - lz.slope) := by
        exact_mod_cast hvxclt
      obtain ⟨hyxc, hzxc⟩ := hag ((lz.intercept - ly.intercept) / (ly.slope - lz.slope))
        (le_of_lt hvxc) (le_of_lt hxchi)
      have hvxceval : max (ly.evaluate ((lz.intercept - ly.intercept) / (ly.slope - lz.slope)))
          (lz.evaluate ((lz.intercept - ly.intercept) / (ly.slope - lz.slope))) =
          max (a.evaluate ((lz.intercept - ly.intercept) / (ly.slope - lz.slope)))
            (b.evaluate ((lz.intercept - ly.intercept) / (ly.slope - lz.slope))) := by
        rw [hyxc, hzxc]
      have hagy1 : ∀ t : ℚ, v ≤ t →
          t ≤ (lz.intercept - ly.intercept) / (ly.slope - lz.slope) →
          ly.evaluate t = a.evaluate t := by
        intro t h1 h2
        exact (hag t h1 (le_trans (WithTop.coe_le_coe.mpr h2) (le_of_lt hxchi))).1
      have hagz1 : ∀ t : ℚ, v ≤ t →
          t ≤ (lz.intercept - ly.intercept) / (ly.slope - lz.slope) →
          lz.evaluate t = b.evaluate t := by
        intro t h1 h2
        exact (hag t h1 (le_trans (WithTop.coe_le_coe.mpr h2) (le_of_lt hxchi))).2
      have hsign1 := PW.linear_sign_of_no_root ly lz v
        ((lz.intercept - ly.intercept) / (ly.slope - lz.slope)) (le_of_lt hvxc)
        (fun t _ h2 heq => absurd (PW.linear_root_eq ly lz t hsne heq) (ne_of_lt h2))
      refine ⟨⟨_, by rw [hv0]⟩, ?_, ?_, ?_, ?_⟩
      · intro p hp
        rcases List.mem_cons.mp hp with rfl | hp
        · exact hv0
        · simp only [List.mem_singleton] at hp
          subst hp
          exact hvxceval
      · refine List.chain'_cons.mpr ⟨⟨hvxc, ?_⟩, List.chain'_singleton _⟩
        exact PW.max_affOn ly lz a.evaluate b.evaluate v
          ((lz.intercept - ly.intercept) / (ly.slope - lz.slope)) hagy1 hagz1 hsign1
      · intro w hw p hp
        rw [List.getLast?_cons_cons, List.getLast?_singleton] at hp
        simp only [Option.mem_def, Option.some.injEq] at hp
        subst hp
        have hxcw : (lz.intercept - ly.intercept) / (ly.slope - lz.slope) < w := by
          rw [hw] at hxchi
          exact_mod_cast hxchi
        refine ⟨hxcw, ?_⟩
        have hagy2 : ∀ t : ℚ, (lz.intercept - ly.intercept) / (ly.slope - lz.slope) ≤ t →
            t ≤ w → ly.evaluate t = a.evaluate t := by
          intro t h1 h2
          exact (hag t (le_trans (le_of_lt hvxc) h1)
            (by rw [hw]; exact WithTop.coe_le_coe.mpr h2)).1
        have hagz2 : ∀ t : ℚ, (lz.intercept - ly.intercept) / (ly.slope - lz.slope) ≤ t →
            t ≤ w → lz.evaluate t = b.evaluate t := by
          intro t h1 h2
          exact (hag t (le_trans (le_of_lt hvxc) h1)
            (by rw [hw]; exact WithTop.coe_le_coe.mpr h2)).2
        have hsign2 := PW.linear_sign_of_no_root ly lz
          ((lz.intercept - ly.intercept) / (ly.slope - lz.slope)) w (le_of_lt hxcw)
          (fun t h1 _ heq => absurd (PW.linear_root_eq ly lz t hsne heq) (ne_of_gt h1))
        exact PW.max_affOn ly lz a.evaluate b.evaluate
          ((lz.intercept - ly.intercept) / (ly.slope - lz.slope)) w hagy2 hagz2 hsign2
      · intro htop
        exact absurd (by rw [(hflat htop).1, (hflat htop).2, sub_zero] :
          ly.slope - lz.slope = 0) hsne
    · rw [if_neg hgd]
      refine ⟨⟨[], by rw [hv0]⟩, ?_, List.chain'_singleton _, ?_, fun _ => by rw [hv0]⟩
      · intro p hp
        simp only [List.mem_singleton] at hp
        subst hp
        exact hv0
      · intro w hw p hp
        simp only [List.getLast?_singleton, Option.mem_def, Option.some.injEq] at hp
        subst hp
        refine ⟨hlt w hw, ?_⟩
        have hagy3 : ∀ t : ℚ, v ≤ t → t ≤ w → ly.evaluate t = a.evaluate t := by
          intro t h1 h2
          exact (hag t h1 (by rw [hw]; exact WithTop.coe_le_coe.mpr h2)).1
        have hagz3 : ∀ t : ℚ, v ≤ t → t ≤ w → lz.evaluate t = b.evaluate t := by
          intro t h1 h2
          exact (hag t h1 (by rw [hw]; exact WithTop.coe_le_coe.mpr h2)).2
        rcases eq_or_ne (ly.slope - lz.slope) 0 with hs0 | hsne
        · exact PW.max_affOn ly lz a.evaluate b.evaluate v w hagy3 hagz3
            (PW.linear_sign_of_eq_slope ly lz v w (sub_eq_zero.mp hs0))
        · have hBC : ¬ ((((v : ℚ) : WithBot ℚ)) <
              ((((lz.intercept - ly.intercept) / (ly.slope - lz.slope) : ℚ)) : WithBot ℚ)) ∨
              ¬ (((((lz.intercept - ly.intercept) / (ly.slope - lz.slope) : ℚ)) :
                WithTop ℚ) < hi) := by
            by_contra hcc
            push_neg at hcc
            exact hgd ⟨hsne, hcc.1, hcc.2⟩
          refine PW.max_affOn ly lz a.evaluate b.evaluate v w hagy3 hagz3
            (PW.linear_sign_of_no_root ly lz v w (le_of_lt (hlt w hw)) ?_)
          intro t h1 h2 heq
          have hteq := PW.linear_root_eq ly lz t hsne heq
          rcases hBC with hB | hC
          · have hxcv : (lz.intercept - ly.intercept) / (ly.slope - lz.slope) ≤ v := by
              have := not_lt.mp hB
              exact_mod_cast this
            rw [hteq] at h1
            exact absurd (lt_of_lt_of_le h1 hxcv) (lt_irrefl _)
          · have hwxc : w ≤ (lz.intercept - ly.intercept) / (ly.slope - lz.slope) := by
              rw [hw] at hC
              have := not_lt.mp hC
              exact_mod_cast this
            rw [hteq] at h2
            exact absurd (lt_of_lt_of_le h2 hwxc) (lt_irrefl _)


open PW PW.PiecewiseLinear in
/-- C6 witness: the pointwise-max agreement applied at `x = 1/2`, the
crossing point of the ramp through `(0,0),(1,10)` and the constant `5`
function. -/
theorem C6_pointwise_max_agreement_witness :
    (PW.SortedX (⟨[((0 : ℚ), (0 : ℚ)), (1, 10)]⟩ : PiecewiseLinear ℚ).points ∧
      PW.SortedX (⟨[((0 : ℚ), (5 : ℚ)), (1, 5)]⟩ : PiecewiseLinear ℚ).points) ∧
    (PW.PiecewiseLinear.pointwise_max ⟨[(0, 0), (1, 10)]⟩ ⟨[(0, 5), (1, 5)]⟩).evaluate (1 / 2) =
      max ((⟨[((0 : ℚ), (0 : ℚ)), (1, 10)]⟩ : PiecewiseLinear ℚ).evaluate (1 / 2))
        ((⟨[((0 : ℚ), (5 : ℚ)), (1, 5)]⟩ : PiecewiseLinear ℚ).evaluate (1 / 2)) :=
  ⟨⟨by unfold PW.SortedX; decide, by unfold PW.SortedX; decide⟩,
    C6_pointwise_max_agreement ⟨[(0, 0), (1, 10)]⟩ ⟨[(0, 5), (1, 5)]⟩
      (by unfold PW.SortedX; decide) (by unfold PW.SortedX; decide)
      (by decide) (by decide) (1 / 2)⟩


open PW PW.PiecewiseLinear in
/-- C8 (corrected): `new` only guarantees a weakly x-sorted breakpoint list —
on inputs with repeated `x` values the stable sort keeps both points (see
`C8_strict_order_counterexample`) — while `linear_map` preserves strict
x-sortedness and the walk-based constructors (`bilinear_map`,
`pointwise_max`, `pointwise_min`) produce strictly x-sorted breakpoints from
strictly sorted inputs. -/
theorem C8_constructor_order_invariants :
    (∀ (pts : List (ℚ × ℚ)) (F : PW.PiecewiseLinear ℚ),
      PW.PiecewiseLinear.new pts = some F → PW.SortedXLe F.points) ∧
    (∀ (a : PW.PiecewiseLinear ℚ) (f : ℚ → ℚ), PW.SortedX a.points →
      PW.SortedX (a.linear_map f).points) ∧
    (∀ (a b : PW.PiecewiseLinear ℚ) (f : ℚ → ℚ → ℚ), PW.SortedX a.points →
      PW.SortedX b.points → PW.SortedX (a.bilinear_map b f).points) ∧
    (∀ a b : PW.PiecewiseLinear ℚ, PW.SortedX a.points → PW.SortedX b.points →
      PW.SortedX (PW.PiecewiseLinear.pointwise_max a b).points) ∧
    (∀ a b : PW.PiecewiseLinear ℚ, PW.SortedX a.points → PW.SortedX b.points →
      PW.SortedX (PW.PiecewiseLinear.pointwise_min a b).points) := by
  have hbil : ∀ (a b : PW.PiecewiseLinear ℚ) (f : ℚ → ℚ → ℚ), PW.SortedX a.points →
      PW.SortedX b.points → PW.SortedX (a.bilinear_map b f).points := by
    intro a b f ha hb
    refine PW.walk_sorted a b _ ha hb ?_
    intro lo hi ly lz v hv hvw
    subst hv
    show PW.GroupOrd [(v, f (ly.evaluate v) (lz.evaluate v))] v hi
    refine ⟨⟨_, [], rfl⟩, List.chain'_singleton _, ?_⟩
    intro w hw p hp
    simp only [List.getLast?_singleton, Option.mem_def, Option.some.injEq] at hp
    subst hp
    exact hvw w hw
  have hmaxmin : ∀ (cmb : ℚ → ℚ → ℚ) (a b : PW.PiecewiseLinear ℚ), PW.SortedX a.points →
      PW.SortedX b.points →
      PW.SortedX (a.zip_flat_piece_map b (fun lo hi ly lz =>
        let t := lo.unbot' 0
        let y := ly.evaluate t
        let z := lz.evaluate t
        let slope_diff := ly.slope - lz.slope
        let intercept_difference := lz.intercept - ly.intercept
        let xc := intercept_difference / slope_diff
        let intersection_point : List (ℚ × ℚ) :=
          if slope_diff ≠ 0 ∧ lo < ((xc : ℚ) : WithBot ℚ) ∧ ((xc : ℚ) : WithTop ℚ) < hi then
            [(xc, cmb (ly.evaluate xc) (lz.evaluate xc))]
          else []
        (t, cmb y z) :: intersection_point)) := by
    intro cmb a b ha hb
    refine PW.walk_sorted a b _ ha hb ?_
    intro lo hi ly lz v hv hvw
    subst hv
    show PW.GroupOrd ((v, cmb (ly.evaluate v) (lz.evaluate v)) ::
        (if ly.slope - lz.slope ≠ 0 ∧
            (((v : ℚ) : WithBot ℚ)) <
              ((((lz.intercept - ly.intercept) / (ly.slope - lz.slope) : ℚ)) : WithBot ℚ) ∧
            ((((lz.intercept - ly.intercept) / (ly.slope - lz.slope) : ℚ)) : WithTop ℚ) < hi
          then [((lz.intercept - ly.intercept) / (ly.slope - lz.slope),
            cmb (ly.evaluate ((lz.intercept - ly.intercept) / (ly.slope - lz.slope)))
              (lz.evaluate ((lz.intercept - ly.intercept) / (ly.slope - lz.slope))))]
          else [])) v hi
    by_cases hgd : (ly.slope - lz.slope ≠ 0 ∧
        (((v : ℚ) : WithBot ℚ)) <
          ((((lz.intercept - ly.intercept) / (ly.slope - lz.slope) : ℚ)) : WithBot ℚ) ∧
        ((((lz.intercept - ly.intercept) / (ly.slope - lz.slope) : ℚ)) : WithTop ℚ) < hi)
    · rw [if_pos hgd]
      obtain ⟨_, hvxclt, hxchi⟩ := hgd
      have hvxc : v < (lz.intercept - ly.intercept) / (ly.slope - lz.slope) := by
        exact_mod_cast hvxclt
      refine ⟨⟨_, _, rfl⟩, List.chain'_cons.mpr ⟨hvxc, List.chain'_singleton _⟩, ?_⟩
      intro w hw p hp
      rw [List.getLast?_cons_cons, List.getLast?_singleton] at hp
      simp only [Option.mem_def, Option.some.injEq] at hp
      subst hp
      rw [hw] at hxchi
      exact_mod_cast hxchi
    · rw [if_neg hgd]
      refine ⟨⟨_, [], rfl⟩, List.chain'_singleton _, ?_⟩
      intro w hw p hp
      simp only [List.getLast?_singleton, Option.mem_def, Option.some.injEq] at hp
      subst hp
      exact hvw w hw
  refine ⟨?_, ?_, hbil, fun a b ha hb => hmaxmin max a b ha hb,
    fun a b ha hb => hmaxmin min a b ha hb⟩
  · intro pts F h
    simp only [PW.PiecewiseLinear.new] at h
    split at h
    · exact absurd h (by simp)
    · rw [Option.some.injEq] at h
      subst h
      haveI : IsTotal (ℚ × ℚ) (fun p q : ℚ × ℚ => p.1 ≤ q.1) := ⟨fun p q => le_total p.1 q.1⟩
      haveI : IsTrans (ℚ × ℚ) (fun p q : ℚ × ℚ => p.1 ≤ q.1) :=
        ⟨fun p q r h1 h2 => le_trans h1 h2⟩
      exact List.sorted_insertionSort _ pts
  · intro a f ha
    exact List.pairwise_map.mpr ha

open PW PW.PiecewiseLinear in
/-- C8 counterexample: `new` on the two points sharing `x = 0` keeps both
(the stable sort does not deduplicate), so the resulting breakpoint list is
not strictly ordered by `x`. -/
theorem C8_strict_order_counterexample :
    PW.PiecewiseLinear.new [((0 : ℚ), (0 : ℚ)), (0, 10)] =
      some ⟨[((0 : ℚ), (0 : ℚ)), (0, 10)]⟩ ∧
    ¬ PW.SortedX ([((0 : ℚ), (0 : ℚ)), (0, 10)] : List (ℚ × ℚ)) :=
  ⟨rfl, by unfold PW.SortedX; decide⟩

open PW PW.PiecewiseLinear in
/-- C8 witness: the order invariants applied to a concrete repeated-x `new`
input (weak order, stability) and a concrete `bilinear_map` (strict
order). -/
theorem C8_constructor_order_invariants_witness :
    PW.SortedXLe ([((0 : ℚ), (3 : ℚ)), (0, 1)] : List (ℚ × ℚ)) ∧
    PW.SortedX ((⟨[((0 : ℚ), (0 : ℚ)), (2, 2)]⟩ : PW.PiecewiseLinear ℚ).bilinear_map
      ⟨[((1 : ℚ), (1 : ℚ))]⟩ (fun y z => y * z)).points :=
  ⟨C8_constructor_order_invariants.1 [((0 : ℚ), (3 : ℚ)), (0, 1)] ⟨[(0, 3), (0, 1)]⟩ rfl,
    C8_constructor_order_invariants.2.2.1 ⟨[(0, 0), (2, 2)]⟩ ⟨[(1, 1)]⟩ (fun y z => y * z)
      (by unfold PW.SortedX; decide) (by unfold PW.SortedX; decide)⟩


set_option maxHeartbeats 1600000 in
open PW PW.PiecewiseLinear Airbrush in
/-- The merged-breakpoint count of an accepted drag: between 2 and 6 records
for all physically meaningful parameters (`s0, s1, length ≥ 0`). -/
theorem eventsOf_length_bounds (s0 s1 length : ℚ) (hs0 : 0 ≤ s0) (hs1 : 0 ≤ s1)
    (hlen : 0 ≤ length) :
    2 ≤ (Airbrush.eventsOf s0 s1 length).length ∧
      (Airbrush.eventsOf s0 s1 length).length ≤ 6 := by
  -- the two texture ramps always have exactly two breakpoints
  have husne : (Airbrush.uStartOf (Airbrush.blendOf s0 s1 length) s0 s1).points.length = 2 := by
    show ((PW.PiecewiseLinear.new
      [((Airbrush.blendOf s0 s1 length).last_inflection_point.1 -
          2 * (s0 + (Airbrush.blendOf s0 s1 length).last_inflection_point.2 * (s1 - s0)), 0),
        ((Airbrush.blendOf s0 s1 length).last_inflection_point.1, 1)]).getD ⟨[]⟩).points.length = 2
    rw [PW.new_getD_length _ (List.cons_ne_nil _ _)]
    rfl
  have huene : (Airbrush.uEndOf (Airbrush.blendOf s0 s1 length) s0 s1).points.length = 2 := by
    show ((PW.PiecewiseLinear.new
      [((Airbrush.blendOf s0 s1 length).first_inflection_point.1, 0),
        ((Airbrush.blendOf s0 s1 length).first_inflection_point.1 +
          2 * (s0 + (Airbrush.blendOf s0 s1 length).first_inflection_point.2 * (s1 - s0)),
            1)]).getD ⟨[]⟩).points.length = 2
    rw [PW.new_getD_length _ (List.cons_ne_nil _ _)]
    rfl
  have husne' : (Airbrush.uStartOf (Airbrush.blendOf s0 s1 length) s0 s1).points ≠ [] := by
    intro h0
    rw [h0] at husne
    simp at husne
  have huene' : (Airbrush.uEndOf (Airbrush.blendOf s0 s1 length) s0 s1).points ≠ [] := by
    intro h0
    rw [h0] at huene
    simp at huene
  have hUfst := PW.zip_flat_piece_map_fst
    (Airbrush.uStartOf (Airbrush.blendOf s0 s1 length) s0 s1)
    (Airbrush.uEndOf (Airbrush.blendOf s0 s1 length) s0 s1)
    (fun lo _hi ly lz =>
      let t := lo.unbot' 0
      [(t, (fun (y z : ℚ) => ((y, z) : ℚ × ℚ)) (ly.evaluate t) (lz.evaluate t))])
    (by intro lo hi ly lz; simp) husne' huene'
  have hUpts : (Airbrush.uBoundsOf s0 s1 length).points =
      (Airbrush.uStartOf (Airbrush.blendOf s0 s1 length) s0 s1).zip_flat_piece_map
        (Airbrush.uEndOf (Airbrush.blendOf s0 s1 length) s0 s1)
        (fun lo _hi ly lz =>
          let t := lo.unbot' 0
          [(t, (fun (y z : ℚ) => ((y, z) : ℚ × ℚ)) (ly.evaluate t) (lz.evaluate t))]) := rfl
  have hUlen_eq : (Airbrush.uBoundsOf s0 s1 length).points.length =
      (mergeX ((Airbrush.uStartOf (Airbrush.blendOf s0 s1 length) s0 s1).points.map Prod.fst)
        ((Airbrush.uEndOf (Airbrush.blendOf s0 s1 length) s0 s1).points.map Prod.fst)).length := by
    rw [← List.length_map _ Prod.fst, hUpts, hUfst]
  have hUle : (Airbrush.uBoundsOf s0 s1 length).points.length ≤ 4 := by
    rw [hUlen_eq]
    refine le_trans (PW.mergeX_length_le _ _) ?_
    rw [List.length_map, List.length_map, husne, huene]
  have hUge : 2 ≤ (Airbrush.uBoundsOf s0 s1 length).points.length := by
    rw [hUlen_eq]
    refine le_trans ?_ (PW.mergeX_length_ge _ _).1
    rw [List.length_map, husne]
  have hUne : (Airbrush.uBoundsOf s0 s1 length).points ≠ [] := by
    intro h0
    rw [h0] at hUge
    simp at hUge
  -- the blend function is non-empty in both construction branches
  have hblne : (Airbrush.blendOf s0 s1 length).points ≠ [] := by
    simp only [Airbrush.blendOf]
    split
    · exact PW.new_getD_ne_nil _ (by simp)
    · exact PW.new_getD_ne_nil _ (by simp)
  -- the event count is the merged-boundary count
  have hEfst := PW.zip_flat_piece_map_fst (Airbrush.blendOf s0 s1 length)
    (Airbrush.uBoundsOf s0 s1 length)
    (fun lo _hi ly lz =>
      let t := lo.unbot' 0
      [(fun (distance : ℚ) (b : ℚ) (u_bounds : ℚ × ℚ) => (distance, b, u_bounds)) t
        (ly.evaluate t) (lz.evaluate t)])
    (by intro lo hi ly lz; simp) hblne hUne
  have hEpts : Airbrush.eventsOf s0 s1 length =
      (Airbrush.blendOf s0 s1 length).zip_flat_piece_map (Airbrush.uBoundsOf s0 s1 length)
        (fun lo _hi ly lz =>
          let t := lo.unbot' 0
          [(fun (distance : ℚ) (b : ℚ) (u_bounds : ℚ × ℚ) => (distance, b, u_bounds)) t
            (ly.evaluate t) (lz.evaluate t)]) := rfl
  have hEv : (Airbrush.eventsOf s0 s1 length).length =
      (mergeX ((Airbrush.blendOf s0 s1 length).points.map Prod.fst)
        ((Airbrush.uBoundsOf s0 s1 length).points.map Prod.fst)).length := by
    rw [← List.length_map _ Prod.fst, hEpts, hEfst]
  constructor
  · -- lower bound: at least as many events as ramp-product breakpoints
    rw [hEv]
    refine le_trans ?_ (PW.mergeX_length_ge _ _).2
    rw [List.length_map]
    exact hUge
  by_cases hcase : s0 + s1 < length
  · -- long-stroke branch: the blend has 4 breakpoints sharing its first and
    -- last x with the u-bounds product, so the merge collapses both ends
    have hL : 0 < length := lt_of_le_of_lt (by linarith) hcase
    have hsfle : Airbrush.clampQ ((s0 - s1) / length) (-1) 1 ≤ 1 := min_le_right _ _
    have hsfge : (-1 : ℚ) ≤ Airbrush.clampQ ((s0 - s1) / length) (-1) 1 :=
      le_min (le_max_right _ _) (by norm_num)
    set sf := Airbrush.clampQ ((s0 - s1) / length) (-1) 1 with hsfdef
    have hb1 : -s0 ≤ s0 * sf := by nlinarith [mul_nonneg hs0 (by linarith : (0:ℚ) ≤ 1 + sf)]
    have hb2 : s0 * sf ≤ length + s1 * sf := by
      nlinarith [mul_nonneg hs0 (by linarith : (0:ℚ) ≤ 1 - sf),
        mul_nonneg hs1 (by linarith : (0:ℚ) ≤ 1 + sf)]
    have hb3 : length + s1 * sf ≤ length + s1 := by
      nlinarith [mul_nonneg hs1 (by linarith : (0:ℚ) ≤ 1 - sf)]
    haveI : IsTrans (ℚ × ℚ) (fun p q : ℚ × ℚ => p.1 ≤ q.1) :=
      ⟨fun a b c h1 h2 => le_trans h1 h2⟩
    have hblend : Airbrush.blendOf s0 s1 length =
        ⟨[(-s0, 0), (s0 * sf, 0), (length + s1 * sf, 1), (length + s1, 1)]⟩ := by
      simp only [Airbrush.blendOf]
      rw [← hsfdef, if_pos hcase, PW.new_of_sortedXLe _ (by simp) ?_]
      · rfl
      · refine List.chain'_iff_pairwise.mp ?_
        exact List.chain'_cons.mpr ⟨hb1, List.chain'_cons.mpr ⟨hb2,
          List.chain'_cons.mpr ⟨hb3, List.chain'_singleton _⟩⟩⟩
    have hus : Airbrush.uStartOf (Airbrush.blendOf s0 s1 length) s0 s1 =
        ⟨[(length + s1 - 2 * (s0 + 1 * (s1 - s0)), 0), (length + s1, 1)]⟩ := by
      rw [hblend]
      show ((PW.PiecewiseLinear.new
        [((length + s1 : ℚ) - 2 * (s0 + 1 * (s1 - s0)), 0),
          ((length + s1 : ℚ), 1)]).getD ⟨[]⟩) = _
      rw [PW.new_of_sortedXLe _ (by simp) ?_]
      · rfl
      · refine List.chain'_iff_pairwise.mp ?_
        refine List.chain'_cons.mpr ⟨?_, List.chain'_singleton _⟩
        show length + s1 - 2 * (s0 + 1 * (s1 - s0)) ≤ length + s1
        nlinarith
    have hue : Airbrush.uEndOf (Airbrush.blendOf s0 s1 length) s0 s1 =
        ⟨[(-s0, 0), (-s0 + 2 * (s0 + 0 * (s1 - s0)), 1)]⟩ := by
      rw [hblend]
      show ((PW.PiecewiseLinear.new
        [((-s0 : ℚ), 0), ((-s0 : ℚ) + 2 * (s0 + 0 * (s1 - s0)), 1)]).getD ⟨[]⟩) = _
      rw [PW.new_of_sortedXLe _ (by simp) ?_]
      · rfl
      · refine List.chain'_iff_pairwise.mp ?_
        refine List.chain'_cons.mpr ⟨?_, List.chain'_singleton _⟩
        show -s0 ≤ -s0 + 2 * (s0 + 0 * (s1 - s0))
        nlinarith
    have hUval : (Airbrush.uBoundsOf s0 s1 length).points.map Prod.fst =
        mergeX [length + s1 - 2 * (s0 + 1 * (s1 - s0)), length + s1]
          [-s0, -s0 + 2 * (s0 + 0 * (s1 - s0))] := by
      rw [hUpts, hUfst, hus, hue]
      simp only [List.map_cons, List.map_nil]
    have hUsort : ((Airbrush.uBoundsOf s0 s1 length).points.map Prod.fst).Sorted (· ≤ ·) := by
      rw [hUval]
      refine PW.mergeX_sorted_le ?_ ?_
      · refine List.sorted_cons.mpr ⟨?_, List.sorted_singleton _⟩
        intro b hb
        simp only [List.mem_singleton] at hb
        subst hb
        nlinarith
      · refine List.sorted_cons.mpr ⟨?_, List.sorted_singleton _⟩
        intro b hb
        simp only [List.mem_singleton] at hb
        subst hb
        nlinarith
    have hUhead : ((Airbrush.uBoundsOf s0 s1 length).points.map Prod.fst).head? =
        some (-s0) := by
      rw [hUval]
      have h := PW.headB_mergeX [length + s1 - 2 * (s0 + 1 * (s1 - s0)), length + s1]
        [-s0, -s0 + 2 * (s0 + 0 * (s1 - s0))]
      rw [show PW.headB [length + s1 - 2 * (s0 + 1 * (s1 - s0)), length + s1] =
        ((length + s1 - 2 * (s0 + 1 * (s1 - s0)) : ℚ) : WithTop ℚ) from rfl,
        show PW.headB [-s0, -s0 + 2 * (s0 + 0 * (s1 - s0))] =
          ((-s0 : ℚ) : WithTop ℚ) from rfl, ← WithTop.coe_min] at h
      rw [show min (length + s1 - 2 * (s0 + 1 * (s1 - s0))) (-s0) = -s0 from
        min_eq_right (by nlinarith)] at h
      exact PW.head?_of_headB h
    have hUlast : ((Airbrush.uBoundsOf s0 s1 length).points.map Prod.fst).getLast? =
        some (length + s1) := by
      rw [hUval]
      have hgl1 : ([length + s1 - 2 * (s0 + 1 * (s1 - s0)), length + s1] : List ℚ).getLast? =
          some (length + s1) := rfl
      have hgl2 : ([-s0, -s0 + 2 * (s0 + 0 * (s1 - s0))] : List ℚ).getLast? =
          some (-s0 + 2 * (s0 + 0 * (s1 - s0))) := rfl
      have h := PW.mergeX_getLast [length + s1 - 2 * (s0 + 1 * (s1 - s0)), length + s1]
        [-s0, -s0 + 2 * (s0 + 0 * (s1 - s0))]
        (List.chain'_cons.mpr ⟨by nlinarith, List.chain'_singleton _⟩)
        (List.chain'_cons.mpr ⟨by nlinarith, List.chain'_singleton _⟩) hgl1 hgl2
      rw [show max (length + s1) (-s0 + 2 * (s0 + 0 * (s1 - s0))) = length + s1 from
        max_eq_left (by nlinarith)] at h
      exact h
    obtain ⟨U', hU'⟩ : ∃ U', (Airbrush.uBoundsOf s0 s1 length).points.map Prod.fst =
        -s0 :: U' := by
      cases hUc : (Airbrush.uBoundsOf s0 s1 length).points.map Prod.fst with
      | nil =>
        rw [hUc] at hUhead
        simp at hUhead
      | cons u0 U' =>
        rw [hUc, List.head?_cons, Option.some.injEq] at hUhead
        exact ⟨U', by rw [hUhead]⟩
    have hU'len : U'.length + 1 = (Airbrush.uBoundsOf s0 s1 length).points.length := by
      have := congrArg List.length hU'
      rw [List.length_map] at this
      simp only [List.length_cons] at this
      omega
    have hU'ne : U' ≠ [] := by
      intro h0
      rw [h0] at hU'len
      simp only [List.length_nil] at hU'len
      omega
    obtain ⟨u1, U'', hU''⟩ := List.exists_cons_of_ne_nil hU'ne
    have hU'last : U'.getLast? = some (length + s1) := by
      rw [hU', hU''] at hUlast
      rw [List.getLast?_cons_cons] at hUlast
      rw [hU'']
      exact hUlast
    have hU'chain : U'.Chain' (· ≤ ·) := by
      rw [hU'] at hUsort
      exact List.Pairwise.chain' (List.sorted_cons.mp hUsort).2
    have hBfst : (Airbrush.blendOf s0 s1 length).points.map Prod.fst =
        [-s0, s0 * sf, length + s1 * sf, length + s1] := by
      rw [hblend]
      rfl
    have htie := PW.mergeX_length_last_tie [s0 * sf, length + s1 * sf, length + s1] U'
      (List.chain'_cons.mpr ⟨hb2, List.chain'_cons.mpr ⟨hb3, List.chain'_singleton _⟩⟩)
      hU'chain (by simp) hU'ne (by rw [hU'last]; rfl)
    rw [hEv, hBfst, hU', PW.mergeX_cons_cons_tie]
    simp only [List.length_cons, List.length_nil] at htie ⊢
    omega
  · -- short-stroke branch: the blend has only two breakpoints, so the crude
    -- size bound suffices
    have hblen2 : (Airbrush.blendOf s0 s1 length).points.length = 2 := by
      simp only [Airbrush.blendOf]
      rw [if_neg hcase, PW.new_getD_length _ (List.cons_ne_nil _ _)]
      rfl
    rw [hEv]
    refine le_trans (PW.mergeX_length_le _ _) ?_
    rw [List.length_map, List.length_map, hblen2]
    omega


open PW PW.PiecewiseLinear Airbrush in
/-- C9: whenever `drag` accepts a point (a retained point exists and the
spacing filter passes), the emitted drawable has one pair of ribbon vertices
per merged breakpoint of the blend and u-bounds functions, and the vertex
count always lies in {4, 6, 8, 10, 12}.  `first`/`last_inflection_point`
are spec-modelled (the functions are absent under `src/`); `length` is the
f32 square root of the squared displacement, idealized by the hypothesis
`length ≥ 0 ∧ length² = Δ²`. -/
theorem C9_drag_vertex_count (last_point point : Airbrush.InputPoint)
    (length o0 o1 r0 r1 : ℚ)
    (hsz0 : 0 ≤ last_point.size) (hpr0 : 0 ≤ last_point.pressure)
    (hsz1 : 0 ≤ point.size) (hpr1 : 0 ≤ point.pressure)
    (hlen : 0 ≤ length)
    (hlensq : length ^ 2 = (point.position.1 - last_point.position.1) ^ 2 +
      (point.position.2 - last_point.position.2) ^ 2)
    (haccept : (Airbrush.dragCoarse (some last_point) point).1 = true) :
    (Airbrush.dragVertices last_point.position point.position
        (last_point.size * last_point.pressure) (point.size * point.pressure)
        length o0 o1 r0 r1).length =
      2 * (Airbrush.eventsOf (last_point.size * last_point.pressure)
            (point.size * point.pressure) length).length ∧
    (Airbrush.dragVertices last_point.position point.position
        (last_point.size * last_point.pressure) (point.size * point.pressure)
        length o0 o1 r0 r1).length ∈ ([4, 6, 8, 10, 12] : List ℕ) := by
  have h2 : (Airbrush.dragVertices last_point.position point.position
      (last_point.size * last_point.pressure) (point.size * point.pressure)
      length o0 o1 r0 r1).length =
      2 * (Airbrush.eventsOf (last_point.size * last_point.pressure)
        (point.size * point.pressure) length).length := by
    simp only [Airbrush.dragVertices]
    refine PW.length_flatMap_const _ 2 ?_ _
    intro e
    rfl
  obtain ⟨hglo, hghi⟩ := eventsOf_length_bounds (last_point.size * last_point.pressure)
    (point.size * point.pressure) length (mul_nonneg hsz0 hpr0) (mul_nonneg hsz1 hpr1) hlen
  refine ⟨h2, ?_⟩
  rw [h2]
  simp only [List.mem_cons, List.mem_singleton]
  omega

open PW PW.PiecewiseLinear Airbrush in
/-- C9 witness: a concrete accepted drag — from `(0,0)` to `(3,4)` with unit
sizes and pressures (`length = 5`) — has the claimed vertex-count shape. -/
theorem C9_drag_vertex_count_witness :
    ((Airbrush.dragCoarse (some ⟨(0, 0), 1, (0, 0, 0), 1, 1, 1⟩)
        ⟨(3, 4), 1, (0, 0, 0), 1, 1, 1⟩).1 = true ∧
      (5 : ℚ) ^ 2 = ((3 : ℚ) - 0) ^ 2 + ((4 : ℚ) - 0) ^ 2) ∧
    ((Airbrush.dragVertices (0, 0) (3, 4) (1 * 1) (1 * 1) 5 1 1 1 1).length =
        2 * (Airbrush.eventsOf (1 * 1) (1 * 1) 5).length ∧
      (Airbrush.dragVertices (0, 0) (3, 4) (1 * 1) (1 * 1) 5 1 1 1 1).length ∈
        ([4, 6, 8, 10, 12] : List ℕ)) :=
  ⟨⟨by decide, by norm_num⟩,
    C9_drag_vertex_count ⟨(0, 0), 1, (0, 0, 0), 1, 1, 1⟩ ⟨(3, 4), 1, (0, 0, 0), 1, 1, 1⟩
      5 1 1 1 1 (by norm_num) (by norm_num) (by norm_num) (by norm_num) (by norm_num)
      (by norm_num) (by decide)⟩

end Stark
